import Mathlib

/-!
Verification of the core algorithms of a multi-pane diff/merge viewer
(`src/src/main.py`): the block-partition structure (`createBlock`,
`cutBlocks`, `mergeBlocks`), the spacer compactor (`removeNullLines`),
the patience-diff sequence matcher (`__patience_subsequence`,
`__lcs_approx`, `patience_diff`), the pairwise aligner
(`FileDiffViewer.alignBlocks`) and the transactional undo log of
`FileDiffViewer`.  Each Lean definition is a shallow embedding of the
Python function of the same name; machine behaviour that cannot occur in
the verified runs (Python `IndexError` on out-of-range access) is noted
at the definition where a total junk value stands in for the exception.
-/

namespace Diffuse

/-! ## Block partitions -/

/-- `createBlock(n)` from `main.py`: `[n]` when `n > 0`, else `[]`. -/
def createBlock (n : Nat) : List Nat :=
  if 0 < n then [n] else []

/-- Recursive core of `cutBlocks`, carrying the running total `nlines`
of block sizes already passed, exactly as the Python loop does. -/
def cutBlocksGo (i : Nat) (nlines : Nat) : List Nat → List Nat × List Nat
  | [] => ([], [])
  | b :: bs =>
    let rest := cutBlocksGo i (nlines + b) bs
    if i ≤ nlines then (rest.1, b :: rest.2)
    else if nlines + b ≤ i then (b :: rest.1, rest.2)
    else ((i - nlines) :: rest.1, (b - (i - nlines)) :: rest.2)

/-- `cutBlocks(i, blocks)` from `main.py`: the two partitions obtained by
cutting at position `i`. -/
def cutBlocks (i : Nat) (blocks : List Nat) : List Nat × List Nat :=
  cutBlocksGo i 0 blocks

/-- `mergeBlocks(leftblocks, rightblocks)` from `main.py`: repeatedly
take `n = min` of the two heads, emit it, and shrink or drop each head.
The Python loop runs while `leftblocks` is non-empty and indexes
`rightblocks[0]`; when the right list is exhausted first Python raises
`IndexError`, here the remaining left blocks are ignored (junk value,
unreachable when the two inputs have equal sums). -/
def mergeBlocks : List Nat → List Nat → List Nat
  | [], _ => []
  | _ :: _, [] => []
  | nleft :: ls, nright :: rs =>
    let n := min nleft nright
    let left' := if n < nleft then (nleft - n) :: ls else ls
    let right' := if n < nright then (nright - n) :: rs else rs
    n :: mergeBlocks left' right'
termination_by l r => l.length + l.sum + r.length + r.sum
decreasing_by
  all_goals
    split_ifs <;>
      simp only [List.length_cons, List.sum_cons] <;> omega

/-! ## Spacer compactor -/

variable {α : Type _} {κ : Type _}

/-- Row entry access `lines[i]`; Python raises `IndexError` past the
end, here the junk value is an absent entry (unreachable when every
sequence spans the whole partition). -/
def getRow (lines : List (Option α)) (i : Nat) : Option α :=
  (lines.get? i).getD none

/-- The `for ... else` test of `removeNullLines`: the row is eligible
for removal only if every sequence has an absent entry there. -/
def rowIsNull (lines_set : List (List (Option α))) (i : Nat) : Bool :=
  lines_set.all fun lines => (getRow lines i).isNone

/-- Inner `while i < bn + blocks[bi]` loop of `removeNullLines`:
`rem` is the number of rows of the current block still to scan starting
at row `i` (the Python loop bound `bn + blocks[bi]` shrinks by one for
each removed row, so each iteration consumes one remaining row whether
it keeps or removes it).  Returns the number of rows kept in the block,
the next row index and the updated sequences. -/
def removeNullScan : Nat → Nat → List (List (Option α)) →
    Nat × Nat × List (List (Option α))
  | 0, i, ls => (0, i, ls)
  | rem + 1, i, ls =>
    if rowIsNull ls i then
      removeNullScan rem i (ls.map fun lines => lines.eraseIdx i)
    else
      let r := removeNullScan rem (i + 1) ls
      (r.1 + 1, r.2.1, r.2.2)

/-- Outer loop of `removeNullLines` over the blocks: a block whose size
reaches zero is deleted entirely. -/
def removeNullLinesGo : List Nat → Nat → List (List (Option α)) →
    List Nat × List (List (Option α))
  | [], _, ls => ([], ls)
  | b :: bs, i, ls =>
    let s := removeNullScan b i ls
    let rest := removeNullLinesGo bs s.2.1 s.2.2
    (if s.1 = 0 then rest.1 else s.1 :: rest.1, rest.2)

/-- `removeNullLines(blocks, lines_set)` from `main.py`: eliminates rows
that are spacing lines in all panes.  The Python function mutates its
arguments; here the updated blocks and sequences are returned. -/
def removeNullLines (blocks : List Nat) (lines_set : List (List (Option α))) :
    List Nat × List (List (Option α)) :=
  removeNullLinesGo blocks 0 lines_set

/-! ## Cut points of a partition -/

/-- The cut points of a partition starting at offset `acc`: the sums of
its non-empty proper prefixes, shifted by `acc`.  `cutPoints blocks 0`
is the set of positions at which `blocks` separates two adjacent
sections. -/
def cutPoints : List Nat → Nat → List Nat
  | [], _ => []
  | b :: bs, acc => if bs.isEmpty then [] else (acc + b) :: cutPoints bs (acc + b)

/-- The reference recount of a partition after spacer removal, written
from the specification: each block keeps one row per retained (not
everywhere-absent) row it covers, and a block whose size reaches zero is
deleted entirely. -/
def recountBlocksSpec (ls : List (List (Option α))) : List Nat → Nat → List Nat
  | [], _ => []
  | b :: bs, off =>
    let k := ((List.range b).filter fun j => !(rowIsNull ls (off + j))).length
    let rest := recountBlocksSpec ls bs (off + b)
    if k = 0 then rest else k :: rest

/-! ## Supporting lemmas for the block-partition operations -/

theorem cutBlocksGo_all_post (i : Nat) (bs : List Nat) :
    ∀ nlines, i ≤ nlines → cutBlocksGo i nlines bs = ([], bs) := by
  induction bs with
  | nil => intro nlines _; rfl
  | cons b bs ih =>
    intro nlines h
    simp only [cutBlocksGo, ih (nlines + b) (by omega), if_pos h]

theorem cutBlocksGo_spec (blocks : List Nat) :
    ∀ i nlines, (∀ b ∈ blocks, 0 < b) → nlines ≤ i → i ≤ nlines + blocks.sum →
    (cutBlocksGo i nlines blocks).1.sum + nlines = i ∧
    (∀ x ∈ (cutBlocksGo i nlines blocks).1, 0 < x) ∧
    (∀ x ∈ (cutBlocksGo i nlines blocks).2, 0 < x) ∧
    ((cutBlocksGo i nlines blocks).1 ++ (cutBlocksGo i nlines blocks).2 = blocks ∨
      ∃ P x y Q, 0 < x ∧ 0 < y ∧ (cutBlocksGo i nlines blocks).1 = P ++ [x] ∧
        (cutBlocksGo i nlines blocks).2 = y :: Q ∧ blocks = P ++ (x + y) :: Q) := by
  induction blocks with
  | nil =>
    intro i nlines _ hge hle
    simp only [cutBlocksGo, List.sum_nil] at *
    refine ⟨by omega, by simp, by simp, Or.inl rfl⟩
  | cons b bs ih =>
    intro i nlines hpos hge hle
    simp only [cutBlocksGo]
    by_cases h1 : i ≤ nlines
    · have hi : i = nlines := by omega
      rw [cutBlocksGo_all_post i bs (nlines + b) (by omega)]
      simp only [if_pos h1]
      exact ⟨by simpa using hi.symm, by simp, by simpa using hpos, Or.inl rfl⟩
    · by_cases h2 : nlines + b ≤ i
      · have hrec := ih i (nlines + b) (fun x hx => hpos x (List.mem_cons_of_mem _ hx))
          h2 (by simpa [List.sum_cons, Nat.add_assoc] using hle)
        simp only [if_neg h1, if_pos h2]
        refine ⟨by simp [List.sum_cons]; omega, ?_, hrec.2.2.1, ?_⟩
        · intro x hx
          rcases List.mem_cons.1 hx with rfl | hx
          · exact hpos x (List.mem_cons_self _ _)
          · exact hrec.2.1 x hx
        · rcases hrec.2.2.2 with heq | ⟨P, x, y, Q, hx, hy, hpre, hpost, hval⟩
          · exact Or.inl (by simp [heq])
          · exact Or.inr ⟨b :: P, x, y, Q, hx, hy, by simp [hpre], hpost, by simp [hval]⟩
      · rw [cutBlocksGo_all_post i bs (nlines + b) (by omega)]
        simp only [if_neg h1, if_neg h2]
        refine ⟨by simp; omega, ?_, ?_, ?_⟩
        · intro x hx; simp at hx; omega
        · intro x hx
          rcases List.mem_cons.1 hx with rfl | hx
          · omega
          · exact hpos x (List.mem_cons_of_mem _ hx)
        · refine Or.inr ⟨[], i - nlines, b - (i - nlines), bs, by omega, by omega, by simp,
            rfl, ?_⟩
          have hb : i - nlines + (b - (i - nlines)) = b := by omega
          simp [hb]

theorem mergeBlocks_cons_cons (a b : Nat) (ls rs : List Nat) :
    mergeBlocks (a :: ls) (b :: rs) =
      min a b :: mergeBlocks (if min a b < a then (a - min a b) :: ls else ls)
        (if min a b < b then (b - min a b) :: rs else rs) := by
  rw [mergeBlocks]

theorem cutPoints_shift (a n acc : Nat) (ls : List Nat) (h : n ≤ a) :
    cutPoints ((a - n) :: ls) (acc + n) = cutPoints (a :: ls) acc := by
  simp only [cutPoints]
  have h2 : acc + n + (a - n) = acc + a := by omega
  rw [h2]

theorem cutPoints_cons_cons (b : Nat) (x : Nat) (bs : List Nat) (acc : Nat) :
    cutPoints (b :: x :: bs) acc = (acc + b) :: cutPoints (x :: bs) (acc + b) := by
  simp [cutPoints]

theorem mergeBlocks_spec (l r : List Nat) :
    (∀ x ∈ l, 0 < x) → (∀ x ∈ r, 0 < x) → l.sum = r.sum →
    (mergeBlocks l r).sum = l.sum ∧
    (∀ x ∈ mergeBlocks l r, 0 < x) ∧
    ∀ acc c, (c ∈ cutPoints (mergeBlocks l r) acc ↔
      c ∈ cutPoints l acc ∨ c ∈ cutPoints r acc) := by
  induction l, r using mergeBlocks.induct with
  | case1 r =>
    intro _ hr hsum
    have hr0 : r = [] := by
      cases r with
      | nil => rfl
      | cons b rs =>
        exfalso
        have hb := hr b (List.mem_cons_self _ _)
        simp only [List.sum_nil, List.sum_cons] at hsum
        omega
    subst hr0
    simp [mergeBlocks, cutPoints]
  | case2 a ls =>
    intro hl _ hsum
    exfalso
    have ha := hl a (List.mem_cons_self _ _)
    simp only [List.sum_cons, List.sum_nil] at hsum
    omega
  | case3 a ls b rs n left' right' ih =>
    intro hl hr hsum
    have ha : 0 < a := hl a (List.mem_cons_self _ _)
    have hb : 0 < b := hr b (List.mem_cons_self _ _)
    have hls : ∀ x ∈ ls, 0 < x := fun x hx => hl x (List.mem_cons_of_mem _ hx)
    have hrs : ∀ x ∈ rs, 0 < x := fun x hx => hr x (List.mem_cons_of_mem _ hx)
    simp only [List.sum_cons] at hsum
    rw [mergeBlocks_cons_cons]
    unfold left' right' n at ih
    by_cases h1 : min a b < a
    · -- n = b < a: the left head is split, the right head is consumed
      have h2 : ¬ min a b < b := by omega
      rw [dif_pos h1, dif_neg h2] at ih
      rw [if_pos h1, if_neg h2]
      cases rs with
      | nil => exfalso; simp only [List.sum_nil] at hsum; omega
      | cons r0 rs' =>
        have hsum' : ((a - min a b) :: ls).sum = (r0 :: rs').sum := by
          simp only [List.sum_cons] at *; omega
        have hposl : ∀ x ∈ (a - min a b) :: ls, 0 < x := by
          intro x hx
          rcases List.mem_cons.1 hx with rfl | hx
          · omega
          · exact hls x hx
        have hm := ih hposl hrs hsum'
        obtain ⟨c0, M, hM⟩ : ∃ c0 M, mergeBlocks ((a - min a b) :: ls) (r0 :: rs') = c0 :: M :=
          ⟨_, _, mergeBlocks_cons_cons _ _ _ _⟩
        refine ⟨?_, ?_, ?_⟩
        · simp only [List.sum_cons] at *; omega
        · intro x hx
          rcases List.mem_cons.1 hx with rfl | hx
          · omega
          · exact hm.2.1 x hx
        · intro acc c
          rw [hM, cutPoints_cons_cons, ← hM]
          have hcl := cutPoints_shift a (min a b) acc ls (by omega)
          have hcr : cutPoints (b :: r0 :: rs') acc =
              (acc + min a b) :: cutPoints (r0 :: rs') (acc + min a b) := by
            rw [cutPoints_cons_cons]
            have hx : acc + b = acc + min a b := by omega
            rw [hx]
          rw [hcr]
          have hmm := hm.2.2 (acc + min a b) c
          rw [hcl] at hmm
          simp only [List.mem_cons] at *
          tauto
    · by_cases h2 : min a b < b
      · -- n = a < b: the right head is split, the left head is consumed
        rw [dif_neg h1, dif_pos h2] at ih
        rw [if_neg h1, if_pos h2]
        cases ls with
        | nil => exfalso; simp only [List.sum_nil] at hsum; omega
        | cons l0 ls' =>
          have hsum' : (l0 :: ls').sum = ((b - min a b) :: rs).sum := by
            simp only [List.sum_cons] at *; omega
          have hposr : ∀ x ∈ (b - min a b) :: rs, 0 < x := by
            intro x hx
            rcases List.mem_cons.1 hx with rfl | hx
            · omega
            · exact hrs x hx
          have hm := ih hls hposr hsum'
          obtain ⟨c0, M, hM⟩ : ∃ c0 M, mergeBlocks (l0 :: ls') ((b - min a b) :: rs) = c0 :: M :=
            ⟨_, _, mergeBlocks_cons_cons _ _ _ _⟩
          refine ⟨?_, ?_, ?_⟩
          · simp only [List.sum_cons] at *; omega
          · intro x hx
            rcases List.mem_cons.1 hx with rfl | hx
            · omega
            · exact hm.2.1 x hx
          · intro acc c
            rw [hM, cutPoints_cons_cons, ← hM]
            have hcr := cutPoints_shift b (min a b) acc rs (by omega)
            have hcl : cutPoints (a :: l0 :: ls') acc =
                (acc + min a b) :: cutPoints (l0 :: ls') (acc + min a b) := by
              rw [cutPoints_cons_cons]
              have hx : acc + a = acc + min a b := by omega
              rw [hx]
            rw [hcl]
            have hmm := hm.2.2 (acc + min a b) c
            rw [hcr] at hmm
            simp only [List.mem_cons] at *
            tauto
      · -- n = a = b: both heads consumed whole
        rw [dif_neg h1, dif_neg h2] at ih
        rw [if_neg h1, if_neg h2]
        have hsum' : ls.sum = rs.sum := by omega
        have hm := ih hls hrs hsum'
        cases ls with
        | nil =>
          cases rs with
          | nil =>
            simp [mergeBlocks, cutPoints]; omega
          | cons r0 rs' =>
            exfalso
            have := hrs r0 (List.mem_cons_self _ _)
            simp only [List.sum_nil, List.sum_cons] at hsum'
            omega
        | cons l0 ls' =>
          cases rs with
          | nil =>
            exfalso
            have := hls l0 (List.mem_cons_self _ _)
            simp only [List.sum_nil, List.sum_cons] at hsum'
            omega
          | cons r0 rs' =>
            obtain ⟨c0, M, hM⟩ : ∃ c0 M, mergeBlocks (l0 :: ls') (r0 :: rs') = c0 :: M :=
              ⟨_, _, mergeBlocks_cons_cons _ _ _ _⟩
            refine ⟨?_, ?_, ?_⟩
            · simp only [List.sum_cons] at *; omega
            · intro x hx
              rcases List.mem_cons.1 hx with rfl | hx
              · omega
              · exact hm.2.1 x hx
            · intro acc c
              rw [hM, cutPoints_cons_cons, ← hM]
              have hcl : cutPoints (a :: l0 :: ls') acc =
                  (acc + min a b) :: cutPoints (l0 :: ls') (acc + min a b) := by
                rw [cutPoints_cons_cons]
                have hx : acc + a = acc + min a b := by omega
                rw [hx]
              have hcr : cutPoints (b :: r0 :: rs') acc =
                  (acc + min a b) :: cutPoints (r0 :: rs') (acc + min a b) := by
                rw [cutPoints_cons_cons]
                have hx : acc + b = acc + min a b := by omega
                rw [hx]
              rw [hcl, hcr]
              have hmm := hm.2.2 (acc + min a b) c
              simp only [List.mem_cons] at *
              tauto

/-! ## Supporting lemmas for the spacer compactor -/

theorem all_congr_mem (l : List β) (p q : β → Bool) (h : ∀ x ∈ l, p x = q x) :
    l.all p = l.all q := by
  induction l with
  | nil => rfl
  | cons x xs ih =>
    simp only [List.all_cons]
    rw [h x (List.mem_cons_self _ _), ih (fun y hy => h y (List.mem_cons_of_mem _ hy))]

theorem getRow_eraseIdx (l : List (Option α)) (i j : Nat) (h : i ≤ l.length) :
    getRow (l.eraseIdx i) (i + j) = getRow l (i + 1 + j) := by
  simp only [getRow, List.eraseIdx_eq_take_drop_succ, List.get?_eq_getElem?,
    List.getElem?_append, List.length_take]
  have hlt : ¬ i + j < min i l.length := by omega
  rw [if_neg hlt]
  have : i + j - min i l.length = j := by omega
  rw [this, List.getElem?_drop]

theorem take_eraseIdx (l : List (Option α)) (i : Nat) :
    (l.eraseIdx i).take i = l.take i := by
  simp only [List.eraseIdx_eq_take_drop_succ, List.take_append_eq_append_take,
    List.length_take]
  rw [List.take_take, Nat.min_self]
  have : i - min i l.length ≤ 0 ∨ True := Or.inr trivial
  by_cases h : i ≤ l.length
  · have : min i l.length = i := by omega
    rw [this, Nat.sub_self, List.take_zero, List.append_nil]
  · have h1 : min i l.length = l.length := by omega
    rw [h1]
    have h2 : l.drop (i+1) = [] := List.drop_eq_nil_of_le (by omega)
    simp [h2]

theorem drop_eraseIdx (l : List (Option α)) (i m : Nat) (h : i ≤ l.length) :
    (l.eraseIdx i).drop (i + m) = l.drop (i + 1 + m) := by
  simp only [List.eraseIdx_eq_take_drop_succ, List.drop_append_eq_append_drop,
    List.length_take]
  have h1 : min i l.length = i := by omega
  rw [List.drop_eq_nil_of_le (by rw [List.length_take]; omega)]
  rw [h1]
  have h2 : i + m - i = m := by omega
  rw [h2, List.nil_append, List.drop_drop]

theorem rowIsNull_erase (ls : List (List (Option α))) (i j : Nat)
    (h : ∀ l ∈ ls, i ≤ l.length) :
    rowIsNull (ls.map fun l => l.eraseIdx i) (i + j) = rowIsNull ls (i + 1 + j) := by
  simp only [rowIsNull, List.all_map, Function.comp]
  induction ls with
  | nil => rfl
  | cons l ls ih =>
    simp only [List.all_cons, Function.comp_apply]
    rw [getRow_eraseIdx l i j (h l (List.mem_cons_self _ _)),
      ih (fun x hx => h x (List.mem_cons_of_mem _ hx))]

theorem removeNullScan_spec : ∀ (rem i : Nat) (ls : List (List (Option α))),
    (∀ l ∈ ls, i + rem ≤ l.length) →
    removeNullScan rem i ls =
      (((List.range rem).filter fun j => !(rowIsNull ls (i + j))).length,
       i + ((List.range rem).filter fun j => !(rowIsNull ls (i + j))).length,
       ls.map fun l => l.take i ++
         (((List.range rem).filter fun j => !(rowIsNull ls (i + j))).map fun j => getRow l (i + j))
         ++ l.drop (i + rem)) := by
  intro rem
  induction rem with
  | zero =>
    intro i ls _
    simp only [removeNullScan, List.range_zero, List.filter_nil, List.length_nil,
      Nat.add_zero, List.map_nil, List.nil_append, List.append_nil]
    simp [List.take_append_drop]
  | succ rem ih =>
    intro i ls h
    have hilen : ∀ l ∈ ls, i ≤ l.length := fun l hl => by have := h l hl; omega
    by_cases hnull : rowIsNull ls i
    · -- the row is a spacer everywhere: it is deleted
      have hfe : ∀ j ∈ List.range rem,
          (!(rowIsNull (ls.map fun l => l.eraseIdx i) (i + j))) =
            (!(rowIsNull ls (i + 1 + j))) := by
        intro j _
        rw [rowIsNull_erase ls i j hilen]
      have hbig : ((List.range (rem + 1)).filter fun j => !(rowIsNull ls (i + j))) =
          ((List.range rem).filter fun j => !(rowIsNull ls (i + 1 + j))).map Nat.succ := by
        rw [List.range_succ_eq_map, List.filter_cons]
        have h0 : (!(rowIsNull ls (i + 0))) = false := by
          rw [Nat.add_zero, hnull]; rfl
        rw [h0, List.filter_map]
        simp only [Bool.false_eq_true, if_false]
        congr 1
        apply List.filter_congr
        intro a _
        have harith : i + Nat.succ a = i + 1 + a := by omega
        simp only [Function.comp_apply, harith]
      have hlen' : ∀ l' ∈ ls.map (fun l => l.eraseIdx i), i + rem ≤ l'.length := by
        intro l' hl'
        obtain ⟨l, hl, rfl⟩ := List.mem_map.1 hl'
        rw [List.length_eraseIdx]
        have h1 := h l hl
        have h2 : i < l.length := by omega
        simp only [if_pos h2]
        omega
      simp only [removeNullScan, if_pos hnull]
      rw [ih i _ hlen']
      refine congrArg₂ Prod.mk ?_ (congrArg₂ Prod.mk ?_ ?_)
      · rw [List.filter_congr hfe, hbig, List.length_map]
      · rw [List.filter_congr hfe, hbig, List.length_map]
      · rw [List.map_map, hbig]
        apply List.map_congr_left
        intro l hl
        simp only [Function.comp_apply]
        have hmid : (List.filter (fun j => !rowIsNull ls (i+1+j)) (List.range rem)).map
            (fun j => getRow (l.eraseIdx i) (i + j)) =
            ((List.filter (fun j => !rowIsNull ls (i+1+j)) (List.range rem)).map Nat.succ).map
            (fun j => getRow l (i + j)) := by
          rw [List.map_map]
          apply List.map_congr_left
          intro j _
          simp only [Function.comp_apply]
          rw [getRow_eraseIdx l i j (hilen l hl)]
          congr 1
          omega
        have hdrop : (l.eraseIdx i).drop (i + rem) = l.drop (i + (rem+1)) := by
          rw [drop_eraseIdx l i rem (hilen l hl)]
          congr 1
          omega
        rw [take_eraseIdx, hdrop, List.filter_congr hfe, hmid]
    · -- some pane has content at the row: it is kept
      have hbig : ((List.range (rem + 1)).filter fun j => !(rowIsNull ls (i + j))) =
          0 :: ((List.range rem).filter fun j => !(rowIsNull ls (i + 1 + j))).map Nat.succ := by
        rw [List.range_succ_eq_map, List.filter_cons]
        have h0 : (!(rowIsNull ls (i + 0))) = true := by
          rw [Nat.add_zero]; simp [hnull]
        rw [h0, if_pos rfl]
        congr 1
        rw [List.filter_map]
        congr 1
        apply List.filter_congr
        intro a _
        have harith : i + Nat.succ a = i + 1 + a := by omega
        simp only [Function.comp_apply, harith]
      have hlen' : ∀ l ∈ ls, i + 1 + rem ≤ l.length := by
        intro l hl; have := h l hl; omega
      simp only [removeNullScan, if_neg hnull]
      rw [ih (i + 1) ls hlen']
      refine congrArg₂ Prod.mk ?_ (congrArg₂ Prod.mk ?_ ?_)
      · rw [hbig]; simp only [List.length_cons, List.length_map]
      · rw [hbig]; simp only [List.length_cons, List.length_map]; omega
      · apply List.map_congr_left
        intro l hl
        rw [hbig]
        have htake : l.take (i + 1) = l.take i ++ [getRow l i] := by
          rw [List.take_succ]
          congr 1
          have hi : i < l.length := by have := h l hl; omega
          rw [List.getElem?_eq_getElem hi]
          simp [getRow, List.get?_eq_getElem?, List.getElem?_eq_getElem hi]
        rw [htake]
        simp only [List.map_cons, List.map_map, List.append_assoc, List.cons_append,
          List.nil_append]
        have harith0 : i + 0 = i := by omega
        rw [harith0]
        apply congrArg (List.take i l ++ ·)
        apply congrArg (List.cons (getRow l i))
        refine congrArg₂ (· ++ ·) ?_ ?_
        · apply List.map_congr_left
          intro j _
          simp only [Function.comp_apply]
          congr 1
          omega
        · congr 1
          omega
theorem getRow_append_drop (A : List (Option α)) (l : List (Option α)) (d t : Nat) :
    getRow (A ++ l.drop d) (A.length + t) = getRow l (d + t) := by
  simp only [getRow, List.get?_eq_getElem?, List.getElem?_append]
  rw [if_neg (by omega)]
  have h : A.length + t - A.length = t := by omega
  rw [h, List.getElem?_drop]

theorem drop_append_length (A B : List (Option α)) (s : Nat) :
    (A ++ B).drop (A.length + s) = B.drop s := by
  simp only [List.drop_append_eq_append_drop]
  rw [List.drop_eq_nil_of_le (by omega), List.nil_append]
  congr 1
  omega

theorem take_append_length (A B : List (Option α)) :
    (A ++ B).take A.length = A := List.take_left _ _

theorem recountBlocksSpec_congr (bs : List Nat) :
    ∀ (ls₁ ls₂ : List (List (Option α))) (o₁ o₂ : Nat),
    (∀ t, rowIsNull ls₁ (o₁ + t) = rowIsNull ls₂ (o₂ + t)) →
    recountBlocksSpec ls₁ bs o₁ = recountBlocksSpec ls₂ bs o₂ := by
  induction bs with
  | nil => intro _ _ _ _ _; rfl
  | cons b bs ih =>
    intro ls₁ ls₂ o₁ o₂ hrow
    simp only [recountBlocksSpec]
    rw [List.filter_congr (fun j _ => by rw [hrow j]),
      ih ls₁ ls₂ (o₁ + b) (o₂ + b) (fun t => by
        have h1 : o₁ + b + t = o₁ + (b + t) := by omega
        have h2 : o₂ + b + t = o₂ + (b + t) := by omega
        rw [h1, h2, hrow])]

theorem removeNullLinesGo_spec : ∀ (bs : List Nat) (i : Nat) (ls : List (List (Option α))),
    (∀ l ∈ ls, i + bs.sum ≤ l.length) →
    removeNullLinesGo bs i ls =
      (recountBlocksSpec ls bs i,
       ls.map fun l => l.take i ++
         (((List.range bs.sum).filter fun j => !(rowIsNull ls (i + j))).map fun j => getRow l (i + j))
         ++ l.drop (i + bs.sum)) := by
  intro bs
  induction bs with
  | nil =>
    intro i ls _
    simp only [removeNullLinesGo, recountBlocksSpec, List.sum_nil, List.range_zero,
      List.filter_nil, List.map_nil, List.nil_append, Nat.add_zero]
    rw [show (ls.map fun l => l.take i ++ [] ++ l.drop i) = ls by
      simp [List.take_append_drop]]
  | cons b bs ih =>
    intro i ls h
    have hb : ∀ l ∈ ls, i + b ≤ l.length := by
      intro l hl; have := h l hl; simp only [List.sum_cons] at this; omega
    have hscan := removeNullScan_spec b i ls hb
    simp only [removeNullLinesGo, hscan]
    set K := ((List.range b).filter fun j => !(rowIsNull ls (i + j))).length with hK
    set sel₁ : List (Option α) → List (Option α) :=
      (fun l => ((List.range b).filter fun j => !(rowIsNull ls (i + j))).map
        fun j => getRow l (i + j)) with hsel₁
    set F : List (Option α) → List (Option α) :=
      (fun l => l.take i ++ sel₁ l ++ l.drop (i + b)) with hF
    have hAlen : ∀ l ∈ ls, (l.take i ++ sel₁ l).length = i + K := by
      intro l hl
      simp only [List.length_append, List.length_take, List.length_map, hsel₁]
      have := hb l hl
      omega
    have hFrow : ∀ l ∈ ls, ∀ t, getRow (F l) (i + K + t) = getRow l (i + b + t) := by
      intro l hl t
      rw [hF]
      simp only [List.append_assoc]
      rw [← List.append_assoc]
      have := getRow_append_drop (l.take i ++ sel₁ l) l (i + b) t
      rw [hAlen l hl] at this
      exact this
    have hrow : ∀ t, rowIsNull (ls.map F) (i + K + t) = rowIsNull ls (i + b + t) := by
      intro t
      simp only [rowIsNull, List.all_map, Function.comp]
      apply all_congr_mem
      intro l hl
      simp only [Function.comp_apply]
      rw [hFrow l hl t]
    have hlen' : ∀ l' ∈ ls.map F, i + K + bs.sum ≤ l'.length := by
      intro l' hl'
      obtain ⟨l, hl, rfl⟩ := List.mem_map.1 hl'
      rw [hF]
      simp only [List.length_append, List.length_take, List.length_drop]
      have h1 := h l hl
      simp only [List.sum_cons] at h1
      have h2 := hb l hl
      have h3 : (sel₁ l).length = K := by
        rw [hsel₁, hK]
        simp only [List.length_map]
      omega
    rw [ih (i + K) (ls.map F) hlen']
    refine congrArg₂ Prod.mk ?_ ?_
    · rw [recountBlocksSpec_congr bs (ls.map F) ls (i + K) (i + b) hrow]
      simp only [recountBlocksSpec]
    · rw [List.map_map]
      apply List.map_congr_left
      intro l hl
      simp only [Function.comp_apply]
      have htake : (F l).take (i + K) = l.take i ++ sel₁ l := by
        rw [hF, ← hAlen l hl]
        exact take_append_length _ _
      have hdrop : (F l).drop (i + K + bs.sum) = l.drop (i + b + bs.sum) := by
        rw [hF]
        have h1 : i + K + bs.sum = (l.take i ++ sel₁ l).length + bs.sum := by
          rw [hAlen l hl]
        rw [h1, drop_append_length, List.drop_drop]
      have hsel₂ : (((List.range bs.sum).filter fun j =>
            !(rowIsNull (ls.map F) (i + K + j))).map fun j => getRow (F l) (i + K + j)) =
          ((List.range bs.sum).filter fun j =>
            !(rowIsNull ls (i + b + j))).map fun j => getRow l (i + b + j) := by
        rw [List.filter_congr (fun j _ => by rw [hrow j])]
        apply List.map_congr_left
        intro j _
        exact hFrow l hl j
      have hsplit : (((List.range (b + bs.sum)).filter fun j =>
            !(rowIsNull ls (i + j))).map fun j => getRow l (i + j)) =
          sel₁ l ++ (((List.range bs.sum).filter fun j =>
            !(rowIsNull ls (i + b + j))).map fun j => getRow l (i + b + j)) := by
        rw [List.range_add, List.filter_append, List.map_append]
        congr 1
        rw [List.filter_map, List.map_map]
        have hpred : ∀ j ∈ List.range bs.sum,
            ((fun j => !(rowIsNull ls (i + j))) ∘ (fun x => b + x)) j =
              (fun j => !(rowIsNull ls (i + b + j))) j := by
          intro j _
          simp only [Function.comp_apply]
          have : i + (b + j) = i + b + j := by omega
          rw [this]
        rw [List.filter_congr hpred]
        apply List.map_congr_left
        intro j _
        simp only [Function.comp_apply]
        have : i + (b + j) = i + b + j := by omega
        rw [this]
      rw [htake, hdrop, hsel₂, List.sum_cons, hsplit]
      simp only [List.append_assoc]
      have : i + (b + bs.sum) = i + b + bs.sum := by omega
      rw [this]

theorem recountBlocksSpec_sum (ls : List (List (Option α))) (bs : List Nat) :
    ∀ off, (recountBlocksSpec ls bs off).sum =
      ((List.range bs.sum).filter fun j => !(rowIsNull ls (off + j))).length := by
  induction bs with
  | nil => intro off; simp [recountBlocksSpec]
  | cons b bs ih =>
    intro off
    simp only [recountBlocksSpec, List.sum_cons, List.range_add, List.filter_append,
      List.length_append]
    have hmap : ((List.range bs.sum).map (fun x => b + x)).filter
        (fun j => !(rowIsNull ls (off + j))) =
        ((List.range bs.sum).filter fun j => !(rowIsNull ls (off + b + j))).map
          (fun x => b + x) := by
      rw [List.filter_map]
      congr 1
      apply List.filter_congr
      intro j _
      simp only [Function.comp_apply]
      have : off + (b + j) = off + b + j := by omega
      rw [this]
    rw [hmap, List.length_map, ← ih (off + b)]
    split_ifs with hk
    · simp [hk]
    · simp [List.sum_cons]

theorem removeNullLinesGo_full (blocks : List Nat) (ls : List (List (Option α)))
    (h : ∀ l ∈ ls, l.length = blocks.sum) :
    (removeNullLines blocks ls).2 = (ls.map fun l =>
       ((List.range blocks.sum).filter fun r => !(rowIsNull ls r)).map fun r => getRow l r) ∧
    (removeNullLines blocks ls).1 = recountBlocksSpec ls blocks 0 ∧
    (removeNullLines blocks ls).1.sum =
      ((List.range blocks.sum).filter fun r => !(rowIsNull ls r)).length ∧
    ∀ l' ∈ (removeNullLines blocks ls).2, l'.length = (removeNullLines blocks ls).1.sum := by
  have hgo := removeNullLinesGo_spec blocks 0 ls (fun l hl => by rw [h l hl]; omega)
  have hpred : ∀ r ∈ List.range blocks.sum,
      (!(rowIsNull ls (0 + r))) = (!(rowIsNull ls r)) := by
    intro r _
    have : 0 + r = r := by omega
    rw [this]
  rw [removeNullLines, hgo]
  refine ⟨?_, rfl, ?_, ?_⟩
  · apply List.map_congr_left
    intro l hl
    rw [List.take_zero, List.nil_append, List.drop_eq_nil_of_le (by rw [h l hl]; omega),
      List.append_nil, List.filter_congr hpred]
    apply List.map_congr_left
    intro r _
    have : 0 + r = r := by omega
    rw [this]
  · rw [recountBlocksSpec_sum ls blocks 0, List.filter_congr hpred]
  · intro l' hl'
    obtain ⟨l, hl, rfl⟩ := List.mem_map.1 hl'
    rw [recountBlocksSpec_sum ls blocks 0, List.filter_congr hpred, List.take_zero,
      List.nil_append, List.drop_eq_nil_of_le (by rw [h l hl]; omega), List.append_nil,
      List.length_map]


/-! ## Claim theorems: block partition and spacer compactor -/

/-- C6: for every two block partitions `left` and `right` with strictly
positive entries and equal sums, `mergeBlocks left right` returns a
partition of that same total with no zero entries whose set of cut
points (proper prefix sums) is exactly the union of the cut points of
`left` and of `right`. -/
theorem mergeBlocks_cut_union (l r : List Nat)
    (hl : ∀ x ∈ l, 0 < x) (hr : ∀ x ∈ r, 0 < x) (hsum : l.sum = r.sum) :
    (mergeBlocks l r).sum = l.sum ∧
    (∀ x ∈ mergeBlocks l r, 0 < x) ∧
    ∀ c, c ∈ cutPoints (mergeBlocks l r) 0 ↔ c ∈ cutPoints l 0 ∨ c ∈ cutPoints r 0 := by
  obtain ⟨h1, h2, h3⟩ := mergeBlocks_spec l r hl hr hsum
  exact ⟨h1, h2, h3 0⟩

/-- Witness for C6 at `left = [3, 3]`, `right = [2, 4]`. -/
theorem mergeBlocks_cut_union_witness :
    (∀ x ∈ [3, 3], 0 < x) ∧ (∀ x ∈ [2, 4], 0 < x) ∧
      ([3, 3] : List Nat).sum = ([2, 4] : List Nat).sum ∧
    ((mergeBlocks [3, 3] [2, 4]).sum = ([3, 3] : List Nat).sum ∧
      (∀ x ∈ mergeBlocks [3, 3] [2, 4], 0 < x) ∧
      ∀ c, c ∈ cutPoints (mergeBlocks [3, 3] [2, 4]) 0 ↔
        c ∈ cutPoints [3, 3] 0 ∨ c ∈ cutPoints [2, 4] 0) :=
  ⟨by decide, by decide, by decide,
    mergeBlocks_cut_union [3, 3] [2, 4] (by decide) (by decide) (by decide)⟩

/-- C7: for every partition `blocks` with strictly positive entries and
every `i ≤ sum blocks`, `cutBlocks i blocks` returns `(pre, post)` with
`sum pre = i`, no zero entry on either side, and either `pre ++ post`
is exactly `blocks`, or a single block straddling position `i` was split
into a last entry `x` of `pre` and a first entry `y` of `post` so that
re-merging the two halves (`x + y`) reconstructs `blocks`. -/
theorem cutBlocks_round_trip (blocks : List Nat) (i : Nat)
    (hpos : ∀ b ∈ blocks, 0 < b) (hle : i ≤ blocks.sum) :
    (cutBlocks i blocks).1.sum = i ∧
    (∀ x ∈ (cutBlocks i blocks).1, 0 < x) ∧
    (∀ x ∈ (cutBlocks i blocks).2, 0 < x) ∧
    ((cutBlocks i blocks).1 ++ (cutBlocks i blocks).2 = blocks ∨
      ∃ P x y Q, 0 < x ∧ 0 < y ∧ (cutBlocks i blocks).1 = P ++ [x] ∧
        (cutBlocks i blocks).2 = y :: Q ∧ blocks = P ++ (x + y) :: Q) := by
  have h := cutBlocksGo_spec blocks i 0 hpos (by omega) (by omega)
  simp only [cutBlocks]
  exact ⟨by have := h.1; omega, h.2.1, h.2.2.1, h.2.2.2⟩

/-- Witness for C7 at `i = 3`, `blocks = [2, 4, 1]`. -/
theorem cutBlocks_round_trip_witness :
    (∀ b ∈ [2, 4, 1], 0 < b) ∧ 3 ≤ ([2, 4, 1] : List Nat).sum ∧
    ((cutBlocks 3 [2, 4, 1]).1.sum = 3 ∧
      (∀ x ∈ (cutBlocks 3 [2, 4, 1]).1, 0 < x) ∧
      (∀ x ∈ (cutBlocks 3 [2, 4, 1]).2, 0 < x) ∧
      ((cutBlocks 3 [2, 4, 1]).1 ++ (cutBlocks 3 [2, 4, 1]).2 = [2, 4, 1] ∨
        ∃ P x y Q, 0 < x ∧ 0 < y ∧ (cutBlocks 3 [2, 4, 1]).1 = P ++ [x] ∧
          (cutBlocks 3 [2, 4, 1]).2 = y :: Q ∧ [2, 4, 1] = P ++ (x + y) :: Q)) :=
  ⟨by decide, by decide, cutBlocks_round_trip [2, 4, 1] 3 (by decide) (by decide)⟩

/-- C8: for every partition `blocks` and equal-length sequences summing
to `blocks`, `removeNullLines` deletes exactly the rows at which every
sequence is absent, from every sequence; the blocks are recounted (one
decrement per deleted row, zero-size blocks deleted); all other rows are
retained in order; and afterwards the partition sum equals the new
common sequence length. -/
theorem removeNullLines_exact (blocks : List Nat) (ls : List (List (Option Nat)))
    (h : ∀ l ∈ ls, l.length = blocks.sum) :
    (removeNullLines blocks ls).2 = (ls.map fun l =>
       ((List.range blocks.sum).filter fun r => !(rowIsNull ls r)).map fun r => getRow l r) ∧
    (removeNullLines blocks ls).1 = recountBlocksSpec ls blocks 0 ∧
    (removeNullLines blocks ls).1.sum =
      ((List.range blocks.sum).filter fun r => !(rowIsNull ls r)).length ∧
    ∀ l2 ∈ (removeNullLines blocks ls).2, l2.length = (removeNullLines blocks ls).1.sum :=
  removeNullLinesGo_full blocks ls h

/-- Witness for C8 at `blocks = [3]` over two sequences whose middle row
is a spacer in both. -/
theorem removeNullLines_exact_witness :
    (∀ l ∈ [[some 1, none, some 2], [some 0, none, none]], l.length = ([3] : List Nat).sum) ∧
    ((removeNullLines [3] [[some 1, none, some 2], [some 0, none, none]]).2 =
       ([[some 1, none, some 2], [some 0, none, none]].map fun l =>
         ((List.range ([3] : List Nat).sum).filter fun r =>
           !(rowIsNull [[some 1, none, some 2], [some 0, none, none]] r)).map
             fun r => getRow l r) ∧
     (removeNullLines [3] [[some 1, none, some 2], [some 0, none, none]]).1 =
       recountBlocksSpec [[some 1, none, some 2], [some 0, none, none]] [3] 0 ∧
     (removeNullLines [3] [[some 1, none, some 2], [some 0, none, none]]).1.sum =
       ((List.range ([3] : List Nat).sum).filter fun r =>
         !(rowIsNull [[some 1, none, some 2], [some 0, none, none]] r)).length ∧
     ∀ l2 ∈ (removeNullLines [3] [[some 1, none, some 2], [some 0, none, none]]).2,
       l2.length = (removeNullLines [3] [[some 1, none, some 2], [some 0, none, none]]).1.sum) :=
  ⟨by decide, removeNullLines_exact [3] [[some 1, none, some 2], [some 0, none, none]] (by decide)⟩

/-! ## Sequence matcher: `__patience_subsequence`, `__lcs_approx`,
`patience_diff`

The Python code indexes with arbitrary integers and uses
insertion-ordered dicts; the embedding works over `Int` indices with
association lists for the dicts.  Sequence elements (comparison keys)
are a type with decidable equality. -/

variable [DecidableEq α]

/-! Python helpers: insertion-ordered dicts as association lists, and
list access with Python index/slice semantics. -/

def dget [DecidableEq κ] (d : List (κ × β)) (k : κ) : Option β :=
  (d.find? fun p => decide (p.1 = k)).map (·.2)

def dmem [DecidableEq κ] (d : List (κ × β)) (k : κ) : Bool :=
  d.any fun p => decide (p.1 = k)

def dset [DecidableEq κ] (d : List (κ × β)) (k : κ) (v : β) : List (κ × β) :=
  if dmem d k then d.map fun p => if p.1 = k then (k, v) else p
  else d ++ [(k, v)]

/-- `l[i]` with Python semantics: negative indices count from the end;
an out-of-range access (Python `IndexError`) is `none`. -/
def pyget (l : List α) (i : Int) : Option α :=
  let j := if i < 0 then i + l.length else i
  if 0 ≤ j ∧ j < (l.length : Int) then l.get? j.toNat else none

/-- `l[i:j]` with Python slice clamping. -/
def pyslice (l : List α) (i j : Int) : List α :=
  let n : Int := l.length
  let lo := if i < 0 then max 0 (n + i) else min i n
  let hi := if j < 0 then max 0 (n + j) else min j n
  ((l.drop lo.toNat).take (hi - lo).toNat)

/-- `list.insert(i, x)` with Python clamping: an index past the end
appends. -/
def pyinsertIdx (l : List β) (i : Nat) (x : β) : List β :=
  if i ≥ l.length then l ++ [x] else l.insertIdx i x

/-! `__patience_subsequence` -/

/-- First loop of `__patience_subsequence`: value each line by its index,
demoting duplicated lines to `-1`. -/
def buildValues : List α → Nat → List (α × Int) → List (α × Int)
  | [], _, d => d
  | s :: rest, i, d =>
    buildValues rest (i + 1) (if dmem d s then dset d s (-1) else dset d s i)

/-- The binary-search placement of the patience sort
(`while start < end: ...`). -/
def pilePlace (pile : List Int) (v : Int) (start stop : Nat) : Nat :=
  if h : start < stop then
    let mid := (start + stop) / 2
    if v < (pile.getD mid 0) then pilePlace pile v start mid
    else pilePlace pile v (mid + 1) stop
  else start
termination_by stop - start
decreasing_by
  · omega
  · omega

/-- The card-laying loop of `__patience_subsequence`: lay down the items
of `b` that are unique in both sequences, returning the final pile,
pointers and a-to-b index map. -/
def layCards (value_a value_b : List (α × Int)) :
    List α → List Int → List (Int × Int) → List (Int × Int) →
    List Int × List (Int × Int) × List (Int × Int)
  | [], pile, pointers, atob => (pile, pointers, atob)
  | s :: rest, pile, pointers, atob =>
    let v := (dget value_a s).getD (-1)
    if v ≠ -1 then
      let vb := (dget value_b s).getD (-1)
      if vb ≠ -1 then
        let atob' := dset atob v vb
        let stop := pile.length
        let start := if stop ≠ 0 ∧ (pile.getLast?).getD 0 < v then stop
          else pilePlace pile v 0 stop
        let pile' := if start < pile.length then pile.set start v else pile ++ [v]
        let pointers' := if start ≠ 0 then dset pointers v (pile'.getD (start - 1) 0)
          else pointers
        layCards value_a value_b rest pile' pointers' atob'
      else layCards value_a value_b rest pile pointers atob
    else layCards value_a value_b rest pile pointers atob

/-- Follow the `pointers` chain from the top of the last pile; the chain
is strictly decreasing so `fuel = pointers.length + 1` always suffices
(`0` fuel is an unreachable junk case). -/
def followChain (pointers atob : List (Int × Int)) : Nat → Int → List (Int × Int)
  | 0, _ => []
  | fuel + 1, v =>
    match dget pointers v with
    | some v2 => (v, (dget atob v).getD (-1)) :: followChain pointers atob fuel v2
    | none => [(v, (dget atob v).getD (-1))]

/-- `__patience_subsequence(a, b)` from `main.py`: longest common
subsequence of elements unique to both `a` and `b`, as `(a index,
b index)` pairs. -/
def patience_subsequence (a b : List α) : List (Int × Int) :=
  let value_a := buildValues a 0 []
  let value_b := buildValues b 0 []
  let (pile, pointers, atob) := layCards value_a value_b b [] [] []
  match pile.getLast? with
  | some v => (followChain pointers atob (pointers.length + 1) v).reverse
  | none => []

/-! `__lcs_approx` -/

/-- Occurrence counts of the elements of `a` (`count1`). -/
def buildCount1 : List α → List (α × Nat) → List (α × Nat)
  | [], d => d
  | s :: rest, d => buildCount1 rest (dset d s ((dget d s).getD 0 + 1))

/-- Map from element to its occurrence indices in `b` (`lookup`). -/
def buildLookup : List α → Nat → List (α × List Nat) → List (α × List Nat)
  | [], _, d => d
  | s :: rest, i, d =>
    buildLookup rest (i + 1)
      (match dget d s with
       | some v => dset d s (v ++ [i])
       | none => d ++ [(s, [i])])

/-- The popular-entry set: keys occurring in more than 1% of a sequence
longer than 200 elements. -/
def buildPopular (count1 : List (α × Nat)) (lookup : List (α × List Nat))
    (la lb : Nat) : List α :=
  (if la > 200 then (count1.filter fun p => 100 * p.2 > la).map (·.1) else []) ++
  (if lb > 200 then (lookup.filter fun p => 100 * p.2.length > lb).map (·.1) else [])

/-- Popular-entry inner loop: only extend already-tracked match runs
(`for bi in prev_matches: if bi + 1 < n and b[bi + 1] == s: ...`). -/
def scanPrev (b : List α) (nb : Nat) (s : α) (ai : Nat) :
    List (Int × Nat) → List (Int × Nat) → Nat → List (Nat × Int) →
    List (Int × Nat) × Nat × List (Nat × Int)
  | [], ms, maxLen, maxIdx => (ms, maxLen, maxIdx)
  | (bi, pv) :: rest, ms, maxLen, maxIdx =>
    if bi + 1 < (nb : Int) ∧ pyget b (bi + 1) = some s then
      let v := pv + 1
      let ms' := dset ms bi v
      if v ≥ maxLen then
        if v = maxLen then scanPrev b nb s ai rest ms' maxLen (maxIdx ++ [(ai, bi)])
        else scanPrev b nb s ai rest ms' v [(ai, bi)]
      else scanPrev b nb s ai rest ms' maxLen maxIdx
    else scanPrev b nb s ai rest ms maxLen maxIdx

/-- Ordinary inner loop
(`for bi in lookup[s]: ms[bi] = v = prev_get(bi - 1, 0) + 1`). -/
def scanLookup (prev : List (Int × Nat)) (ai : Nat) :
    List Nat → List (Int × Nat) → Nat → List (Nat × Int) →
    List (Int × Nat) × Nat × List (Nat × Int)
  | [], ms, maxLen, maxIdx => (ms, maxLen, maxIdx)
  | bi :: rest, ms, maxLen, maxIdx =>
    let v := (dget prev ((bi : Int) - 1)).getD 0 + 1
    let ms' := dset ms (bi : Int) v
    if v ≥ maxLen then
      if v = maxLen then scanLookup prev ai rest ms' maxLen (maxIdx ++ [(ai, (bi : Int))])
      else scanLookup prev ai rest ms' v [(ai, (bi : Int))]
    else scanLookup prev ai rest ms maxLen maxIdx

/-- Outer walk over `a`; `prev_matches, ms = ms, {}` at the
end of each iteration. -/
def lcsWalk (b : List α) (nb : Nat) (lookup : List (α × List Nat)) (popular : List α) :
    List α → Nat → List (Int × Nat) → Nat → List (Nat × Int) → Nat × List (Nat × Int)
  | [], _, _, maxLen, maxIdx => (maxLen, maxIdx)
  | s :: rest, ai, prev, maxLen, maxIdx =>
    if dmem lookup s then
      let r :=
        if popular.contains s then scanPrev b nb s ai prev [] maxLen maxIdx
        else scanLookup prev ai ((dget lookup s).getD []) [] maxLen maxIdx
      lcsWalk b nb lookup popular rest (ai + 1) r.1 r.2.1 r.2.2
    else lcsWalk b nb lookup popular rest (ai + 1) [] maxLen maxIdx

/-- Backward extension of a candidate match over equal neighbours
(`while ai and bi and a[ai - 1] == b[bi - 1]`).  Note the Python
truthiness test: any non-zero integer, negative included, continues the
loop; an out-of-range access stops it here where Python would raise. -/
def extendBack (a b : List α) : Nat → Int → Int → Nat → Int × Int × Nat
  | 0, ai, bi, n => (ai, bi, n)
  | fuel + 1, ai, bi, n =>
    if ai ≠ 0 ∧ bi ≠ 0 ∧ (pyget a (ai - 1)).isSome ∧ pyget a (ai - 1) = pyget b (bi - 1) then
      extendBack a b fuel (ai - 1) (bi - 1) (n + 1)
    else (ai, bi, n)

/-- Final selection loop over `max_indices`. -/
def lcsExtend (a b : List α) (maxLen : Nat) :
    List (Nat × Int) → Int × Int × Nat → Int × Int × Nat
  | [], best => best
  | (ai, bi) :: rest, (aidx, bidx, nidx) =>
    let r := extendBack a b (2 * (a.length + b.length) + maxLen + 2)
      ((ai : Int) + 1 - maxLen) (bi + 1 - maxLen) maxLen
    if r.2.2 > nidx then lcsExtend a b maxLen rest r
    else lcsExtend a b maxLen rest (aidx, bidx, nidx)

/-- `__lcs_approx(a, b)` from `main.py`: difflib-style approximation of
the longest common subsequence, returning `(a start, b start, length)`
of the longest run found, or `none` when the sequences share nothing. -/
def lcs_approx (a b : List α) : Option (Int × Int × Nat) :=
  let count1 := buildCount1 a []
  let lookup := buildLookup b 0 []
  if lookup.any fun p => dmem count1 p.1 then
    let popular := buildPopular count1 lookup a.length b.length
    let r := lcsWalk b b.length lookup popular a 0 [] 0 []
    if r.2 ≠ [] then some (lcsExtend a b r.1 r.2 (0, 0, 0))
    else none
  else none

/-- Forward extension over equal elements
(`while start_a < end_a and start_b < end_b and a[start_a] == b[start_b]`). -/
def extendFwd (a b : List α) (ea eb : Int) : Nat → Int → Int → Int × Int
  | 0, sa, sb => (sa, sb)
  | fuel + 1, sa, sb =>
    if sa < ea ∧ sb < eb ∧ (pyget a sa).isSome ∧ pyget a sa = pyget b sb then
      extendFwd a b ea eb fuel (sa + 1) (sb + 1)
    else (sa, sb)

/-- Backward extension of a pivot
(`while start_a < idx_a and start_b < idx_b and a[idx_a - 1] == b[idx_b - 1]`). -/
def extendBackSeg (a b : List α) (sa sb : Int) : Nat → Int → Int → Int × Int
  | 0, ia, ib => (ia, ib)
  | fuel + 1, ia, ib =>
    if sa < ia ∧ sb < ib ∧ (pyget a (ia - 1)).isSome ∧ pyget a (ia - 1) = pyget b (ib - 1) then
      extendBackSeg a b sa sb fuel (ia - 1) (ib - 1)
    else (ia, ib)

/-- One segment's pivot loop in `patience_diff`.  The segments pushed
for later processing are accumulated in `pres` most-recent-first, so
that consing them onto the work stack reproduces the pop order of the
Python list used as a stack. -/
def doPivots (a b : List α) (ea eb oa ob : Int) :
    List (Int × Int) → Int → Int → Nat → List (Int × Int × Int) →
    List (Int × Int × Int × Int × Nat) →
    Int × Int × Nat × List (Int × Int × Int) × List (Int × Int × Int × Int × Nat)
  | [], sa, sb, mi, ms, pres => (sa, sb, mi, ms, pres)
  | (pa0, pb0) :: rest, sa, sb, mi, ms, pres =>
    let pa := pa0 + oa
    let pb := pb0 + ob
    if sa ≤ pa then
      let r := extendBackSeg a b sa sb ((pa - sa).toNat + 1) pa pb
      let ia := r.1
      let ib := r.2
      let pres' := if sa < ia ∧ sb < ib then (sa, ia, sb, ib, mi) :: pres else pres
      let f := extendFwd a b ea eb ((ea - pa).toNat + 1) (pa + 1) (pb + 1)
      let ms' := pyinsertIdx ms mi (ia, ib, f.1 - ia)
      doPivots a b ea eb oa ob rest f.1 f.2 (mi + 1) ms' pres'
    else doPivots a b ea eb oa ob rest sa sb mi ms pres

/-- The work-list loop of `patience_diff`.  The Python code keeps the
segments in a list used as a stack (`blocks.pop()` from the end,
`append` to push); here the stack is a list with its head as the top,
which preserves the pop order.  The fuel is an upper bound on the
number of pops of any terminating Python run; running out of fuel is a
junk case (the returned matches are whatever was accumulated). -/
def pdLoop (a b : List α) :
    Nat → List (Int × Int × Int × Int × Nat) → List (Int × Int × Int) →
    List (Int × Int × Int)
  | 0, _, ms => ms
  | _ + 1, [], ms => ms
  | fuel + 1, (sa, ea, sb, eb, mi) :: stack, ms =>
    let aa := pyslice a sa ea
    let bb := pyslice b sb eb
    let pivots := patience_subsequence aa bb
    if pivots ≠ [] then
      let r := doPivots a b ea eb sa sb pivots sa sb mi ms []
      let stack' := if r.1 < ea ∧ r.2.1 < eb then
          (r.1, ea, r.2.1, eb, r.2.2.1) :: (r.2.2.2.2 ++ stack)
        else r.2.2.2.2 ++ stack
      pdLoop a b fuel stack' r.2.2.2.1
    else
      match lcs_approx aa bb with
      | some (aidx, bidx, nn) =>
        let ia := aidx + sa
        let ib := bidx + sb
        let pres := if sa < ia ∧ sb < ib then [(sa, ia, sb, ib, mi)] else []
        let ms' := pyinsertIdx ms mi (ia, ib, (nn : Int))
        let ia2 := ia + nn
        let ib2 := ib + nn
        let stack' := (if ia2 < ea ∧ ib2 < eb then [(ia2, ea, ib2, eb, mi + 1)] else [])
          ++ pres ++ stack
        pdLoop a b fuel stack' ms'
      | none => pdLoop a b fuel stack ms

/-- Common-prefix scan before the first match block. -/
def commonPrefix (a b : List α) (ea eb : Int) : Nat → Nat → Nat
  | 0, i => i
  | fuel + 1, i =>
    if (i : Int) < ea ∧ (i : Int) < eb ∧ (pyget a i).isSome ∧ pyget a (i : Int) = pyget b (i : Int) then
      commonPrefix a b ea eb fuel (i + 1)
    else i

/-- Common-suffix scan after the last match block. -/
def commonSuffix (a b : List α) (sa sb : Int) : Nat → Int → Int → Int × Int
  | 0, ea, eb => (ea, eb)
  | fuel + 1, ea, eb =>
    if sa < ea ∧ sb < eb ∧ (pyget a (ea - 1)).isSome ∧ pyget a (ea - 1) = pyget b (eb - 1) then
      commonSuffix a b sa sb fuel (ea - 1) (eb - 1)
    else (ea, eb)

/-- `patience_diff(a, b)` from `main.py`: patience diff with the
difflib-style fallback, returning `(start_a, start_b, length)` match
blocks terminated by the zero-length sentinel. -/
def patience_diff (a b : List α) : List (Int × Int × Int) :=
  let len_a := a.length
  let len_b := b.length
  let ms0 : List (Int × Int × Int) :=
    if len_a ≠ 0 ∧ len_b ≠ 0 then
      pdLoop a b (2 * (len_a + len_b) + 3) [((0 : Int), (len_a : Int), (0 : Int), (len_b : Int), (0 : Nat))] []
    else []
  let pfx : Int × Int :=
    match ms0.head? with
    | some m => (m.1, m.2.1)
    | none => ((len_a : Int), (len_b : Int))
  let i := commonPrefix a b pfx.1 pfx.2 (len_a + 1) 0
  let ms1 := if i ≠ 0 then ((0 : Int), (0 : Int), (i : Int)) :: ms0 else ms0
  let sfx : Int × Int :=
    match ms1.getLast? with
    | some m => (m.1 + m.2.2, m.2.1 + m.2.2)
    | none => (0, 0)
  let e := commonSuffix a b sfx.1 sfx.2 (2 * (len_a + len_b) + 3) (len_a : Int) (len_b : Int)
  let ms2 := if e.1 < (len_a : Int) then ms1 ++ [(e.1, e.2, (len_a : Int) - e.1)] else ms1
  ms2 ++ [((len_a : Int), (len_b : Int), (0 : Int))]

/-- The failing input for the popular-entry path of `__lcs_approx`: a
252-element sequence whose middle value occurs in more than 1% of it,
against a 3-element sequence. -/
def lcsPopularA : List Nat := [0] ++ List.replicate 250 1 ++ [0]

/-- Companion second sequence of the failing input. -/
def lcsPopularB : List Nat := [0, 1, 2]

set_option maxRecDepth 4000000 in
/-- C1 (refuted by the code): the match blocks of `patience_diff` are
claimed to satisfy `a[sa:sa+n] == b[sb:sb+n]` for every block
`(sa, sb, n)`.  On `lcsPopularA`/`lcsPopularB` the popular-entry path of
`__lcs_approx` records its extension at the stale b-index (`matches[bi]`
and `(ai, bi)` instead of `bi + 1`), so `patience_diff` emits the block
`(0, -250, 251)`: a claimed 251-element common run between a 252-element
and a 3-element sequence, whose slices are not equal.  The first
conjunct evaluates the matcher at the failing input; the second shows
the slice-equality property fails for that block. -/
theorem patience_diff_popular_defect :
    patience_diff lcsPopularA lcsPopularB = [(0, -250, 251), (252, 3, 0)] ∧
    pyslice lcsPopularA 0 (0 + 251) ≠ pyslice lcsPopularB (-250) (-250 + 251) := by
  constructor
  · decide
  · decide


/-! ## Supporting lemmas for the sequence matcher -/

theorem dget_nil [DecidableEq κ] (k : κ) : dget ([] : List (κ × β)) k = none := rfl

theorem dget_cons [DecidableEq κ] (p : κ × β) (rest : List (κ × β)) (s : κ) :
    dget (p :: rest) s = if p.1 = s then some p.2 else dget rest s := by
  by_cases h : p.1 = s
  · simp [dget, List.find?, h]
  · simp [dget, List.find?, h]

theorem dmem_cons [DecidableEq κ] (p : κ × β) (rest : List (κ × β)) (s : κ) :
    dmem (p :: rest) s = (decide (p.1 = s) || dmem rest s) := by
  simp [dmem, List.any_cons]

theorem dget_dset_ne [DecidableEq κ] (d : List (κ × β)) (k s : κ) (v : β) (h : s ≠ k) :
    dget (dset d k v) s = dget d s := by
  have hks : ¬ (k = s) := fun hh => h hh.symm
  have hmap : ∀ d' : List (κ × β),
      dget (d'.map fun p => if p.1 = k then (k, v) else p) s = dget d' s := by
    intro d'
    induction d' with
    | nil => rfl
    | cons p rest ih =>
      by_cases hp : p.1 = k
      · simp only [List.map_cons, if_pos hp, dget_cons]
        rw [if_neg hks, if_neg (show ¬ (p.1 = s) from hp ▸ hks)]
        exact ih
      · simp only [List.map_cons, if_neg hp, dget_cons]
        by_cases hps : p.1 = s
        · rw [if_pos hps, if_pos hps]
        · rw [if_neg hps, if_neg hps]
          exact ih
  have happ : ∀ d' : List (κ × β), dget (d' ++ [(k, v)]) s = dget d' s := by
    intro d'
    induction d' with
    | nil =>
      simp only [List.nil_append, dget_cons, dget_nil]
      rw [if_neg hks]
    | cons p rest ih =>
      simp only [List.cons_append, dget_cons]
      by_cases hps : p.1 = s
      · rw [if_pos hps, if_pos hps]
      · rw [if_neg hps, if_neg hps]
        exact ih
  rw [dset]
  split_ifs with hm
  · exact hmap d
  · exact happ d

theorem dget_buildValues_not_mem (xs : List α) :
    ∀ (i : Nat) (d : List (α × Int)) (s : α), s ∉ xs →
    dget (buildValues xs i d) s = dget d s := by
  induction xs with
  | nil => intro i d s _; rfl
  | cons x rest ih =>
    intro i d s hs
    have hsx : s ≠ x := fun hh => hs (hh ▸ List.mem_cons_self _ _)
    have hsr : s ∉ rest := fun hh => hs (List.mem_cons_of_mem _ hh)
    rw [buildValues, ih (i + 1) _ s hsr]
    split_ifs <;> exact dget_dset_ne _ x s _ hsx

theorem layCards_skip (value_a value_b : List (α × Int)) :
    ∀ (bs : List α) (pile : List Int) (pointers atob : List (Int × Int)),
    (∀ s ∈ bs, dget value_a s = none) →
    layCards value_a value_b bs pile pointers atob = (pile, pointers, atob) := by
  intro bs
  induction bs with
  | nil => intro pile pointers atob _; rfl
  | cons s rest ih =>
    intro pile pointers atob h
    rw [layCards]
    have hv : (dget value_a s).getD (-1) = -1 := by
      rw [h s (List.mem_cons_self _ _)]
      rfl
    rw [hv]
    rw [if_neg (by simp)]
    exact ih pile pointers atob (fun x hx => h x (List.mem_cons_of_mem _ hx))

theorem patience_subsequence_disjoint (a b : List α)
    (h : ∀ y ∈ b, y ∉ a) : patience_subsequence a b = [] := by
  rw [patience_subsequence]
  have hval : ∀ s ∈ b, dget (buildValues a 0 []) s = none := by
    intro s hs
    rw [dget_buildValues_not_mem a 0 [] s (h s hs)]
    rfl
  rw [layCards_skip _ _ b [] [] [] hval]
  rfl

theorem mem_dset [DecidableEq κ] (d : List (κ × β)) (k : κ) (v : β) (p : κ × β)
    (hp : p ∈ dset d k v) : p = (k, v) ∨ p ∈ d := by
  rw [dset] at hp
  split_ifs at hp with hm
  · obtain ⟨q, hq, hpq⟩ := List.mem_map.1 hp
    by_cases hqk : q.1 = k
    · left; rw [← hpq, if_pos hqk]
    · right; rw [← hpq, if_neg hqk]; exact hq
  · rcases List.mem_append.1 hp with h1 | h1
    · right; exact h1
    · left; simpa using h1

theorem dmem_buildCount1 (xs : List α) :
    ∀ (d : List (α × Nat)) (s : α), dmem (buildCount1 xs d) s = true →
    s ∈ xs ∨ dmem d s = true := by
  induction xs with
  | nil => intro d s h; exact Or.inr h
  | cons x rest ih =>
    intro d s h
    rcases ih _ s h with h1 | h1
    · exact Or.inl (List.mem_cons_of_mem _ h1)
    · -- s is a key of dset d x _
      obtain ⟨p, hp, hps⟩ := List.any_eq_true.1 h1
      have := mem_dset d x _ p hp
      rcases this with rfl | hpd
      · left
        have hsx : s = x := (by simpa using hps : x = s).symm
        exact hsx ▸ List.mem_cons_self _ _
      · right
        exact List.any_eq_true.2 ⟨p, hpd, hps⟩

theorem key_buildLookup (xs : List α) :
    ∀ (i : Nat) (d : List (α × List Nat)) (p : α × List Nat),
    p ∈ buildLookup xs i d → p.1 ∈ xs ∨ ∃ w, (p.1, w) ∈ d := by
  induction xs with
  | nil => intro i d p h; exact Or.inr ⟨p.2, h⟩
  | cons x rest ih =>
    intro i d p h
    rw [buildLookup] at h
    rcases ih (i + 1) _ p h with h1 | ⟨w, hw⟩
    · exact Or.inl (List.mem_cons_of_mem _ h1)
    · revert hw
      split
      · intro hw
        have := mem_dset d x _ (p.1, w) hw
        rcases this with heq | hpd
        · left
          have : p.1 = x := congrArg Prod.fst heq
          exact this ▸ List.mem_cons_self _ _
        · right; exact ⟨w, hpd⟩
      · intro hw
        rcases List.mem_append.1 hw with h2 | h2
        · right; exact ⟨w, h2⟩
        · left
          have hpx : p.1 = x := by simpa using congrArg Prod.fst (List.mem_singleton.1 h2)
          exact hpx ▸ List.mem_cons_self _ _

theorem lcs_approx_disjoint (a b : List α)
    (h : ∀ y ∈ b, y ∉ a) : lcs_approx a b = none := by
  rw [lcs_approx]
  rw [if_neg ?_]
  intro hany
  obtain ⟨p, hp, hmemc⟩ := List.any_eq_true.1 hany
  have hb : p.1 ∈ b := by
    rcases key_buildLookup b 0 [] p hp with h1 | ⟨w, hw⟩
    · exact h1
    · simp at hw
  have ha : p.1 ∈ a := by
    rcases dmem_buildCount1 a [] p.1 hmemc with h1 | h1
    · exact h1
    · simp [dmem] at h1
  exact h p.1 hb ha

theorem pyslice_full (l : List α) : pyslice l 0 l.length = l := by
  rw [pyslice]
  rw [if_neg (show ¬ ((0 : Int) < 0) by omega),
    if_neg (show ¬ ((l.length : Int) < 0) by omega)]
  have h1 : min (0 : Int) l.length = 0 := by omega
  have h2 : min (l.length : Int) l.length = l.length := by omega
  rw [h1, h2]
  simp

theorem pyget_ofNat (l : List α) (i : Nat) : pyget l (i : Int) = l.get? i := by
  simp only [pyget]
  rw [if_neg (show ¬ ((i : Int) < 0) by omega)]
  by_cases h : i < l.length
  · rw [if_pos ⟨by omega, by exact_mod_cast h⟩]
    simp
  · rw [if_neg ?_]
    · exact (List.get?_eq_none.2 (by omega)).symm
    · rintro ⟨_, hlt⟩
      have hi : i < l.length := by exact_mod_cast hlt
      omega

theorem patience_diff_disjoint (a b : List α)
    (h : ∀ x ∈ a, ∀ y ∈ b, x ≠ y) :
    patience_diff a b = [((a.length : Int), (b.length : Int), 0)] := by
  have hba : ∀ y ∈ b, y ∉ a := fun y hy hya => h y hya y hy rfl
  rw [patience_diff]
  have hms0 : (if a.length ≠ 0 ∧ b.length ≠ 0 then
      pdLoop a b (2 * (a.length + b.length) + 3)
        [((0 : Int), (a.length : Int), (0 : Int), (b.length : Int), (0 : Nat))] []
    else []) = [] := by
    split_ifs with hne
    · obtain ⟨f, hf⟩ : ∃ f, 2 * (a.length + b.length) + 3 = f + 1 + 1 :=
        ⟨2 * (a.length + b.length) + 1, by omega⟩
      rw [hf, pdLoop]
      rw [pyslice_full, pyslice_full]
      rw [if_neg (by simp [patience_subsequence_disjoint a b hba])]
      rw [lcs_approx_disjoint a b hba]
      rfl
    · rfl
  rw [hms0]
  simp only [List.head?_nil]
  have hpre : commonPrefix a b (a.length : Int) (b.length : Int) (a.length + 1) 0 = 0 := by
    obtain ⟨f, hf⟩ : ∃ f, a.length + 1 = f + 1 := ⟨a.length, rfl⟩
    rw [hf, commonPrefix]
    rw [if_neg ?_]
    rintro ⟨h1, h2, h3, h4⟩
    rw [pyget_ofNat] at h3 h4
    rw [pyget_ofNat] at h4
    have hla : 0 < a.length := by exact_mod_cast h1
    have hlb : 0 < b.length := by exact_mod_cast h2
    obtain ⟨x, hx⟩ := Option.isSome_iff_exists.1 h3
    have hxa : x ∈ a := List.get?_mem (by rw [hx] : a.get? 0 = some x)
    have hxb : x ∈ b := List.get?_mem (by rw [← h4, hx] : b.get? 0 = some x)
    exact h x hxa x hxb rfl
  rw [hpre]
  simp only [ne_eq, not_true, if_neg (by omega : ¬ (0 : Nat) ≠ 0), if_false,
    List.getLast?_nil]
  have hsuf : commonSuffix a b 0 0 (2 * (a.length + b.length) + 3)
      (a.length : Int) (b.length : Int) = ((a.length : Int), (b.length : Int)) := by
    obtain ⟨f, hf⟩ : ∃ f, 2 * (a.length + b.length) + 3 = f + 1 :=
      ⟨2 * (a.length + b.length) + 2, by omega⟩
    rw [hf, commonSuffix]
    rw [if_neg ?_]
    rintro ⟨h1, h2, h3, h4⟩
    have hla : 0 < a.length := by exact_mod_cast h1
    have hlb : 0 < b.length := by exact_mod_cast h2
    have hca : ((a.length : Int) - 1) = ((a.length - 1 : Nat) : Int) := by
      omega
    have hcb : ((b.length : Int) - 1) = ((b.length - 1 : Nat) : Int) := by
      omega
    rw [hca, hcb, pyget_ofNat, pyget_ofNat] at h4
    rw [hca, pyget_ofNat] at h3
    obtain ⟨x, hx⟩ := Option.isSome_iff_exists.1 h3
    have hxa : x ∈ a := List.get?_mem (by rw [hx] : a.get? (a.length - 1) = some x)
    have hxb : x ∈ b := List.get?_mem (by rw [← h4, hx] : b.get? (b.length - 1) = some x)
    exact h x hxa x hxb rfl
  rw [hsuf]
  rw [if_neg (by omega : ¬ ((a.length : Int) < (a.length : Int)))]
  rfl

/-! ## Pairwise aligner: `FileDiffViewer.alignBlocks` -/

/-- `s[i:i] = xs` Python slice assignment: insert `xs` at the clamped
slice position. -/
def pyinsertList (l : List β) (i : Int) (xs : List β) : List β :=
  let n : Int := l.length
  let lo := (if i < 0 then max 0 (n + i) else min i n).toNat
  l.take lo ++ xs ++ l.drop lo

/-- `temp.insert(i, None)`: Python list insert clamps an index past the
end to an append. -/
def pyinsertOpt (l : List (Option α)) (i : Nat) : List (Option α) :=
  if i ≥ l.length then l ++ [none] else l.insertIdx i none

/-- The block-growing walk of `alignBlocks` (`while bnj + blocksj[bij] < i`):
advance to the block containing position `i` and grow it by one.  The
Python code re-reads `bi[j] = bn[j] = 0` on every insertion, so the walk
always starts from the first block; an empty partition first receives a
zero-size block.  Walking past the last block is a Python `IndexError`,
embedded as dropping the increment (junk, unreachable while the
partition spans position `i`). -/
def incrWalk : List Nat → Nat → List Nat
  | [], _ => []
  | b :: rest, i => if b < i then b :: incrWalk rest (i - b) else (b + 1) :: rest

/-- Grow by one the block of `bs` containing row `i`. -/
def incrBlocks (bs : List Nat) (i : Nat) : List Nat :=
  incrWalk (if bs.isEmpty then [0] else bs) i

/-- Spacer-insertion pass of `alignBlocks` over the matcher's blocks:
`delta = (n1 + block[0]) - (n2 + block[1])` decides which inner list
falls behind and receives spacers. -/
def insertSpacers :
    List (Int × Int × Int) → List (Option α) → List (Option α) → Int → Int →
    List (Option α) × List (Option α)
  | [], s1, s2, _, _ => (s1, s2)
  | (ba, bb, _) :: rest, s1, s2, n1, n2 =>
    let delta := (n1 + ba) - (n2 + bb)
    if delta < 0 then
      insertSpacers rest (pyinsertList s1 (n1 + ba) (List.replicate (-delta).toNat none))
        s2 (n1 - delta) n2
    else if delta > 0 then
      insertSpacers rest s1 (pyinsertList s2 (n2 + bb) (List.replicate delta.toNat none))
        n1 (n2 + delta)
    else insertSpacers rest s1 s2 n1 n2

/-- The row walk of `alignBlocks` (`while True: ...`).  State: current
row `i`, current neighbour pair `k`, the two block partitions and the
two groups of line sequences (the inner sequences `leftlines[-1]` and
`rightlines[0]` are re-read from the groups each iteration, as the
Python aliases are mutated through the groups).  Returns `none` only on
fuel exhaustion, which cannot happen (the fuel passed by `alignBlocks`
is proved sufficient). -/
def abLoop (s1 s2 : List (Option α)) (nmatch : Nat) :
    Nat → Nat → Nat → List Nat → List Nat →
    List (List (Option α)) → List (List (Option α)) →
    Option (List Nat × List Nat × List (List (Option α)) × List (List (Option α)))
  | 0, _, _, _, _, _, _ => none
  | fuel + 1, i, k, lb, rb, L, R =>
    let mid0 := (L.getLast?).getD []
    let mid1 := (R.head?).getD []
    if i ≥ mid0.length ∧ i ≥ mid1.length then some (lb, rb, L, R)
    else
      let step : Bool × Bool × Nat :=
        if i < mid0.length ∧ i < mid1.length ∧ k < nmatch then
          let m0 := getRow s1 k
          let m1 := getRow s2 k
          let c0 := getRow mid0 i ≠ m0
          let c1 := getRow mid1 i ≠ m1
          if (c0 ∧ m0 ≠ none) ∨ (c1 ∧ m1 ≠ none) then
            -- not accepted: insert spacers opposite real lines
            ((getRow mid0 i).isSome, (getRow mid1 i).isSome, k)
          else
            -- accepted: spacers are still inserted where a null was expected
            (decide (c0 ∧ m0 = none), decide (c1 ∧ m1 = none), k + 1)
        else (decide (i ≥ mid0.length), decide (i ≥ mid1.length), k)
      let L' := if step.1 then L.map fun t => pyinsertOpt t i else L
      let lb' := if step.1 then incrBlocks lb i else lb
      let R' := if step.2.1 then R.map fun t => pyinsertOpt t i else R
      let rb' := if step.2.1 then incrBlocks rb i else rb
      abLoop s1 s2 nmatch fuel (i + 1) step.2.2 lb' rb' L' R'


theorem incrWalk_sum (bs : List Nat) : ∀ i, i ≤ bs.sum → bs ≠ [] →
    (incrWalk bs i).sum = bs.sum + 1 ∧
    (∀ x ∈ incrWalk bs i, 0 < x ∨ x ∈ bs) := by
  induction bs with
  | nil => intro i _ hne; exact absurd rfl hne
  | cons b rest ih =>
    intro i h _
    simp only [incrWalk]
    by_cases hb : b < i
    · have hrest : rest ≠ [] := by
        intro he
        subst he
        simp only [List.sum_cons, List.sum_nil] at h
        omega
      have := ih (i - b) (by simp only [List.sum_cons] at h; omega) hrest
      simp only [List.sum_cons, if_pos hb]
      constructor
      · have h1 := this.1
        omega
      · intro x hx
        rcases List.mem_cons.1 hx with rfl | hx
        · right; exact List.mem_cons_self _ _
        · rcases (this.2 x hx) with h1 | h1
          · left; exact h1
          · right; exact List.mem_cons_of_mem _ h1
    · simp only [if_neg hb, List.sum_cons]
      constructor
      · omega
      · intro x hx
        rcases List.mem_cons.1 hx with rfl | hx
        · left; omega
        · right; exact List.mem_cons_of_mem _ hx

theorem incrBlocks_spec (bs : List Nat) (i : Nat) (hsum : i ≤ bs.sum)
    (hpos : ∀ x ∈ bs, 0 < x) :
    (incrBlocks bs i).sum = bs.sum + 1 ∧ (∀ x ∈ incrBlocks bs i, 0 < x) := by
  rw [incrBlocks]
  by_cases hb : bs.isEmpty
  · have hbe : bs = [] := by cases bs <;> simp_all
    subst hbe
    simp only [List.sum_nil] at hsum
    have : i = 0 := by omega
    subst this
    refine ⟨by decide, by decide⟩
  · rw [if_neg hb]
    have hne : bs ≠ [] := by cases bs <;> simp_all
    have h := incrWalk_sum bs i hsum hne
    exact ⟨h.1, fun x hx => by
      rcases h.2 x hx with h1 | h1
      · exact h1
      · exact hpos x h1⟩




theorem abLoop_padRight (s1 s2 : List (Option α)) (nmatch : Nat)
    (u v : List (Option α)) :
    ∀ d j fuel k lb rb, u.length = v.length + j + d → d + 1 ≤ fuel →
    rb.sum = v.length + j → (∀ x ∈ rb, 0 < x) →
    ∃ rb2, abLoop s1 s2 nmatch fuel (v.length + j) k lb rb
        [u] [v ++ List.replicate j none] =
      some (lb, rb2, [u], [v ++ List.replicate (j + d) none]) ∧
      rb2.sum = u.length ∧ (∀ x ∈ rb2, 0 < x) := by
  intro d
  induction d with
  | zero =>
    intro j fuel k lb rb hlen hfuel hsum hpos
    obtain ⟨f, rfl⟩ : ∃ f, fuel = f + 1 := ⟨fuel - 1, by omega⟩
    refine ⟨rb, ?_, by omega, hpos⟩
    rw [abLoop]
    have hm1 : ((([v ++ List.replicate j none] :
        List (List (Option α))).head?).getD []).length = v.length + j := by
      simp [List.length_append]
    rw [if_pos ?_]
    · rfl
    · constructor
      · simp only [List.getLast?_singleton, Option.getD_some]
        omega
      · rw [hm1]
  | succ d ih =>
    intro j fuel k lb rb hlen hfuel hsum hpos
    obtain ⟨f, rfl⟩ : ∃ f, fuel = f + 1 := ⟨fuel - 1, by omega⟩
    rw [abLoop]
    have hm0len : ((([u] : List (List (Option α))).getLast?).getD []).length = u.length := by
      simp
    have hm1len : ((([v ++ List.replicate j none] :
        List (List (Option α))).head?).getD []).length = v.length + j := by
      simp [List.length_append]
    rw [if_neg ?_]
    swap
    · intro hcon
      rw [hm0len] at hcon
      omega
    · -- the k-branch is skipped because the right side has run out
      rw [if_neg ?_]
      swap
      · intro hcon
        rw [hm1len] at hcon
        omega
      · have hd0 : decide (v.length + j ≥ ((([u] : List (List (Option α))).getLast?).getD []).length) = false := by
          rw [hm0len]
          simp only [decide_eq_false_iff_not]
          omega
        have hd1 : decide (v.length + j ≥ ((([v ++ List.replicate j none] :
            List (List (Option α))).head?).getD []).length) = true := by
          rw [hm1len]
          simp
        rw [hd0, hd1]
        simp only [Bool.false_eq_true, if_neg (by simp : ¬ (false = true)), if_pos rfl]
        have hins : pyinsertOpt (v ++ List.replicate j none) (v.length + j) =
            v ++ List.replicate (j + 1) none := by
          rw [pyinsertOpt, if_pos (by simp [List.length_append])]
          rw [List.append_assoc, ← List.replicate_succ']
        have hincr := incrBlocks_spec rb (v.length + j) (by omega) hpos
        simp only [List.map_cons, List.map_nil, hins]
        have harith : v.length + j + 1 = v.length + (j + 1) := by omega
        rw [harith]
        obtain ⟨rb2, hres, hsum2, hpos2⟩ := ih (j + 1) f k lb (incrBlocks rb (v.length + j))
          (by omega) (by omega) (by omega) hincr.2
        refine ⟨rb2, ?_, hsum2, hpos2⟩
        simp only [if_false, if_true]
        rw [hres]
        have harith2 : j + 1 + d = j + (d + 1) := by omega
        rw [harith2]


theorem abLoop_padLeft (s1 s2 : List (Option α)) (nmatch : Nat)
    (u v : List (Option α)) :
    ∀ d j fuel k lb rb, v.length = u.length + j + d → d + 1 ≤ fuel →
    lb.sum = u.length + j → (∀ x ∈ lb, 0 < x) →
    ∃ lb2, abLoop s1 s2 nmatch fuel (u.length + j) k lb rb
        [u ++ List.replicate j none] [v] =
      some (lb2, rb, [u ++ List.replicate (j + d) none], [v]) ∧
      lb2.sum = v.length ∧ (∀ x ∈ lb2, 0 < x) := by
  intro d
  induction d with
  | zero =>
    intro j fuel k lb rb hlen hfuel hsum hpos
    obtain ⟨f, rfl⟩ : ∃ f, fuel = f + 1 := ⟨fuel - 1, by omega⟩
    refine ⟨lb, ?_, by omega, hpos⟩
    rw [abLoop]
    rw [if_pos ?_]
    · rfl
    · constructor
      · simp only [List.getLast?_singleton, Option.getD_some, List.length_append,
          List.length_replicate]
        omega
      · simp only [List.head?_cons, Option.getD_some]
        omega
  | succ d ih =>
    intro j fuel k lb rb hlen hfuel hsum hpos
    obtain ⟨f, rfl⟩ : ∃ f, fuel = f + 1 := ⟨fuel - 1, by omega⟩
    rw [abLoop]
    have hm0len : ((([u ++ List.replicate j none] :
        List (List (Option α))).getLast?).getD []).length = u.length + j := by
      simp [List.length_append]
    have hm1len : ((([v] : List (List (Option α))).head?).getD []).length = v.length := by
      simp
    rw [if_neg ?_]
    swap
    · intro hcon
      rw [hm1len] at hcon
      omega
    · rw [if_neg ?_]
      swap
      · intro hcon
        rw [hm0len] at hcon
        omega
      · have hd0 : decide (u.length + j ≥ ((([u ++ List.replicate j none] :
            List (List (Option α))).getLast?).getD []).length) = true := by
          rw [hm0len]
          simp
        have hd1 : decide (u.length + j ≥ ((([v] :
            List (List (Option α))).head?).getD []).length) = false := by
          rw [hm1len]
          simp only [decide_eq_false_iff_not]
          omega
        rw [hd0, hd1]
        have hins : pyinsertOpt (u ++ List.replicate j none) (u.length + j) =
            u ++ List.replicate (j + 1) none := by
          rw [pyinsertOpt, if_pos (by simp [List.length_append])]
          rw [List.append_assoc, ← List.replicate_succ']
        have hincr := incrBlocks_spec lb (u.length + j) (by omega) hpos
        simp only [List.map_cons, List.map_nil, hins, if_false, if_true]
        have harith : u.length + j + 1 = u.length + (j + 1) := by omega
        rw [harith]
        obtain ⟨lb2, hres, hsum2, hpos2⟩ := ih (j + 1) f k (incrBlocks lb (u.length + j)) rb
          (by omega) (by omega) (by omega) hincr.2
        refine ⟨lb2, ?_, hsum2, hpos2⟩
        simp only [Bool.false_eq_true, if_false]
        rw [hres]
        have harith2 : j + 1 + d = j + (d + 1) := by omega
        rw [harith2]


theorem getRow_append_left (u w : List (Option α)) (i : Nat) (h : i < u.length) :
    getRow (u ++ w) i = getRow u i := by
  simp only [getRow, List.get?_eq_getElem?, List.getElem?_append, if_pos h]

theorem abLoop_matched (u v : List (Option α)) (p1 p2 : Nat) (nmatch : Nat)
    (hnm : u.length ≤ nmatch) :
    ∀ c i fuel lb rb, i + c = min u.length v.length →
    abLoop (u ++ List.replicate p1 none) (v ++ List.replicate p2 none) nmatch (fuel + c)
      i i lb rb [u] [v] =
    abLoop (u ++ List.replicate p1 none) (v ++ List.replicate p2 none) nmatch fuel
      (i + c) (i + c) lb rb [u] [v] := by
  intro c
  induction c with
  | zero => intro i fuel lb rb _; rfl
  | succ c ih =>
    intro i fuel lb rb hmin
    have hia : i < u.length := by omega
    have hib : i < v.length := by omega
    have hstep : fuel + (c + 1) = (fuel + c) + 1 := rfl
    rw [hstep, abLoop]
    simp only [List.getLast?_singleton, Option.getD_some, List.head?_cons]
    rw [if_neg (by omega)]
    rw [if_pos ⟨hia, hib, by omega⟩]
    rw [getRow_append_left u _ i hia, getRow_append_left v _ i hib]
    simp only [ne_eq, not_true, false_and, or_self, if_false, decide_False,
      Bool.false_eq_true, eq_self_iff_true, not_false_iff]
    have harith : i + (c + 1) = (i + 1) + c := by omega
    rw [harith] at *
    exact ih (i + 1) fuel lb rb (by omega)

/-- `FileDiffViewer.alignBlocks(leftblocks, leftlines, rightblocks,
rightlines)` from `main.py`: aligns `leftlines[-1]` against
`rightlines[0]` by inserting spacer rows, mirroring every insertion into
all sequences of that side and growing the corresponding block.  The
line hash `self._alignmentHash` is a parameter.  The Python method
mutates its arguments; here the updated partitions and groups are
returned (`none` only on fuel exhaustion of the row walk, which the
theorems below rule out; an empty `leftlines`/`rightlines` group is a
Python `IndexError`, embedded as an empty inner sequence). -/
def alignBlocks [DecidableEq κ] (hash : α → κ) (leftblocks : List Nat)
    (leftlines : List (List (Option α))) (rightblocks : List Nat)
    (rightlines : List (List (Option α))) :
    Option (List Nat × List Nat × List (List (Option α)) × List (List (Option α))) :=
  let mid0 := (leftlines.getLast?).getD []
  let mid1 := (rightlines.head?).getD []
  let s1 : List (Option α) := (mid0.filterMap id).map some
  let s2 : List (Option α) := (mid1.filterMap id).map some
  let t1 := (mid0.filterMap id).map hash
  let t2 := (mid1.filterMap id).map hash
  let ss := insertSpacers (patience_diff t1 t2) s1 s2 0 0
  let nmatch := ss.1.length
  abLoop ss.1 ss.2 nmatch (mid0.length + mid1.length + 2 * nmatch + 2) 0 0
    leftblocks rightblocks leftlines rightlines

theorem pyinsertList_at_end (l : List β) (xs : List β) :
    pyinsertList l (l.length : Int) xs = l ++ xs := by
  rw [pyinsertList]
  rw [if_neg (show ¬ ((l.length : Int) < 0) by omega)]
  have h : min (l.length : Int) (l.length : Int) = (l.length : Int) := by omega
  rw [h]
  simp

theorem insertSpacers_sentinel (s1 s2 : List (Option α)) (z : Int) :
    insertSpacers [((s1.length : Int), (s2.length : Int), z)] s1 s2 0 0 =
      (s1 ++ List.replicate (s2.length - s1.length) none,
       s2 ++ List.replicate (s1.length - s2.length) none) := by
  rw [insertSpacers]
  by_cases hlt : s1.length < s2.length
  · rw [if_pos ?_]
    swap
    · have : ((0 : Int) + s1.length) - (0 + s2.length) = (s1.length : Int) - s2.length := by
        omega
      rw [this]
      omega
    · have hneg : (-(((0 : Int) + s1.length) - (0 + s2.length))).toNat =
          s2.length - s1.length := by omega
      have h0 : ((0 : Int) + s1.length) = (s1.length : Int) := by omega
      rw [hneg, h0, pyinsertList_at_end, insertSpacers]
      have hz : s1.length - s2.length = 0 := by omega
      rw [hz]
      simp
  · rw [if_neg ?_]
    swap
    · intro hcon
      omega
    · by_cases hgt : s2.length < s1.length
      · rw [if_pos (by omega)]
        have hpos : (((0 : Int) + s1.length) - (0 + s2.length)).toNat =
            s1.length - s2.length := by omega
        have h0 : ((0 : Int) + s2.length) = (s2.length : Int) := by omega
        rw [hpos, h0, pyinsertList_at_end, insertSpacers]
        have hz : s2.length - s1.length = 0 := by omega
        rw [hz]
        simp
      · rw [if_neg (by omega), insertSpacers]
        have h1 : s2.length - s1.length = 0 := by omega
        have h2 : s1.length - s2.length = 0 := by omega
        rw [h1, h2]
        simp

/-- C5 (amended): for two panes with entirely disjoint comparison keys
and no pre-existing spacers, `alignBlocks` pairs the two contents row by
row and pads only the shorter side with a trailing run of spacers, so
the aligned result has length `max (len a) (len b)` — not
`len a + len b` as the claim states — and both partitions sum to that
length with positive entries. -/
theorem alignBlocks_disjoint_padded [DecidableEq κ] (hash : α → κ) (xs ys : List α)
    (lb rb : List Nat)
    (hdisj : ∀ x ∈ xs, ∀ y ∈ ys, hash x ≠ hash y)
    (hlb : lb.sum = xs.length) (hrb : rb.sum = ys.length)
    (hlbpos : ∀ x ∈ lb, 0 < x) (hrbpos : ∀ x ∈ rb, 0 < x) :
    ∃ lb2 rb2,
      alignBlocks hash lb [xs.map some] rb [ys.map some] =
        some (lb2, rb2,
          [xs.map some ++ List.replicate (max xs.length ys.length - xs.length) none],
          [ys.map some ++ List.replicate (max xs.length ys.length - ys.length) none]) ∧
      lb2.sum = max xs.length ys.length ∧ rb2.sum = max xs.length ys.length ∧
      (∀ x ∈ lb2, 0 < x) ∧ (∀ x ∈ rb2, 0 < x) := by
  have hfmx : ((xs.map some).filterMap id) = xs := by simp [List.filterMap_map]
  have hfmy : ((ys.map some).filterMap id) = ys := by simp [List.filterMap_map]
  have ht : patience_diff (xs.map hash) (ys.map hash) =
      [((xs.length : Int), (ys.length : Int), 0)] := by
    have hd2 : ∀ x2 ∈ xs.map hash, ∀ y2 ∈ ys.map hash, x2 ≠ y2 := by
      intro x2 hx2 y2 hy2
      obtain ⟨x, hx, rfl⟩ := List.mem_map.1 hx2
      obtain ⟨y, hy, rfl⟩ := List.mem_map.1 hy2
      exact hdisj x hx y hy
    have hres := patience_diff_disjoint _ _ hd2
    simpa using hres
  have hss : insertSpacers [((xs.length : Int), (ys.length : Int), 0)]
      (xs.map some) (ys.map some) 0 0 =
      (xs.map some ++ List.replicate (ys.length - xs.length) none,
       ys.map some ++ List.replicate (xs.length - ys.length) none) := by
    have hres := insertSpacers_sentinel (xs.map some) (ys.map some) 0
    simpa using hres
  rw [alignBlocks]
  simp only [List.getLast?_singleton, Option.getD_some, List.head?_cons, hfmx, hfmy,
    ht, hss]
  set u : List (Option α) := xs.map some with hu
  set v : List (Option α) := ys.map some with hv
  have hul : u.length = xs.length := by rw [hu, List.length_map]
  have hvl : v.length = ys.length := by rw [hv, List.length_map]
  set p1 := ys.length - xs.length with hp1
  set p2 := xs.length - ys.length with hp2
  set N := (u ++ List.replicate p1 none).length with hNdef
  have hN : N = max xs.length ys.length := by
    rw [hNdef]
    simp only [List.length_append, List.length_replicate, hul]
    omega
  set F := u.length + v.length + 2 * N + 2 with hFdef
  set fuel2 := F - min u.length v.length with hfuel2
  have hF : F = fuel2 + min u.length v.length := by
    rw [hfuel2]
    omega
  have hle : u.length ≤ N := by omega
  have hmm := abLoop_matched u v p1 p2 N hle (min u.length v.length) 0 fuel2 lb rb
    (by omega)
  rw [hF, hmm]
  simp only [Nat.zero_add]
  by_cases hcase : ys.length ≤ xs.length
  · -- the left side is at least as long: the right side is padded
    have hc : min u.length v.length = v.length := by omega
    rw [hc]
    obtain ⟨rb2, hres, hsum2, hpos2⟩ := abLoop_padRight (u ++ List.replicate p1 none)
      (v ++ List.replicate p2 none) N u v (u.length - v.length) 0 fuel2 v.length lb rb
      (by omega) (by omega) (by omega) hrbpos
    simp only [Nat.add_zero, Nat.zero_add, List.replicate_zero, List.append_nil] at hres
    rw [hres]
    refine ⟨lb, rb2, ?_, by omega, by omega, hlbpos, hpos2⟩
    have e1 : max xs.length ys.length - xs.length = 0 := by omega
    have e2 : max xs.length ys.length - ys.length = u.length - v.length := by omega
    rw [e1, e2]
    simp
  · -- the right side is longer: the left side is padded
    have hc : min u.length v.length = u.length := by omega
    rw [hc]
    obtain ⟨lb2, hres, hsum2, hpos2⟩ := abLoop_padLeft (u ++ List.replicate p1 none)
      (v ++ List.replicate p2 none) N u v (v.length - u.length) 0 fuel2 u.length lb rb
      (by omega) (by omega) (by omega) hlbpos
    simp only [Nat.add_zero, Nat.zero_add, List.replicate_zero, List.append_nil] at hres
    rw [hres]
    refine ⟨lb2, rb, ?_, by omega, by omega, hpos2, hrbpos⟩
    have e1 : max xs.length ys.length - xs.length = v.length - u.length := by omega
    have e2 : max xs.length ys.length - ys.length = 0 := by omega
    rw [e1, e2]
    simp

/-- Counterexample to C5 as stated: for the disjoint single-line panes
`[10]` and `[20]`, `alignBlocks` returns both panes unchanged on one
shared row: the aligned length is `1`, not `len a + len b = 2`, and the
single row has real content in both panes rather than exactly one. -/
theorem alignBlocks_disjoint_counterexample :
    alignBlocks (id : Nat → Nat) [1] [[some 10]] [1] [[some 20]] =
      some ([1], [1], [[some 10]], [[some 20]]) ∧
    ¬ (∀ l2 ∈ (alignBlocks (id : Nat → Nat) [1] [[some 10]] [1]
        [[some 20]]).elim ([] : List (List (Option Nat))) (fun r => r.2.2.1 ++ r.2.2.2),
        l2.length = 1 + 1) ∧
    (alignBlocks (id : Nat → Nat) [1] [[some 10]] [1] [[some 20]]).elim false
      (fun r => (getRow (r.2.2.1.headD []) 0).isSome &&
        (getRow (r.2.2.2.headD []) 0).isSome) = true := by
  refine ⟨rfl, by decide, by decide⟩

/-- Witness for the amended C5 at panes `[10]` and `[20, 21]`. -/
theorem alignBlocks_disjoint_padded_witness :
    (∀ x ∈ [10], ∀ y ∈ [20, 21], (id : Nat → Nat) x ≠ id y) ∧
    ([1] : List Nat).sum = [10].length ∧ ([2] : List Nat).sum = [20, 21].length ∧
    (∀ x ∈ [1], 0 < x) ∧ (∀ x ∈ [2], 0 < x) ∧
    (∃ lb2 rb2,
      alignBlocks (id : Nat → Nat) [1] [[10].map some] [2] [[20, 21].map some] =
        some (lb2, rb2,
          [[10].map some ++ List.replicate (max [10].length [20, 21].length - [10].length) none],
          [[20, 21].map some ++
            List.replicate (max [10].length [20, 21].length - [20, 21].length) none]) ∧
      lb2.sum = max [10].length [20, 21].length ∧
      rb2.sum = max [10].length [20, 21].length ∧
      (∀ x ∈ lb2, 0 < x) ∧ (∀ x ∈ rb2, 0 < x)) :=
  ⟨by decide, by decide, by decide, by decide, by decide,
    alignBlocks_disjoint_padded id [10] [20, 21] [1] [2] (by decide) (by decide)
      (by decide) (by decide) (by decide)⟩

/-! ## The `FileDiffViewer` state and its transactional undo log

Embeds main.py 2120-2166 (`Pane`, `Line`), 2533-2582 (`openUndoBlock`,
`addUndo`, `closeUndoBlock`, `undo`, `redo`), the ten `*Undo` record
classes with their `undo`/`redo` methods and the recording primitives
that create them (2669-2716, 2717-2783, 2785-2815, 2818-2846,
2848-2866, 2891-2908, 2983-3011, 3411-3446, 5117-5149), and the cursor
helpers `setCurrentLine` (3473-3499) and the `setCurrentChar` call made
by `setEditMode` (3430-3446, 3573-3589).

Display-only state is not modelled: drawing areas, the `syntax_cache`,
`diff_cache`, `compare_string`, `line_lengths` and `diffmap_cache`
caches, the derived `num_edits` counters, signal emission and input
method resets.  Every modelled field is one the undo record classes
read or write. -/

/-- `FileDiffViewer.Line` (main.py 2148-2161). -/
structure Line where
  line_number : Option Nat
  text : Option String
  is_modified : Bool
  modified_text : Option String
deriving Repr, DecidableEq

/-- `Line.getText` (main.py 2163-2166). -/
def Line.getText (l : Line) : Option String :=
  if l.is_modified then l.modified_text else l.text

/-- A freshly constructed `Line()` (main.py 2149-2161 with default
arguments). -/
def Line.blank : Line := ⟨none, none, false, none⟩

/-- `FileDiffViewer.Pane` (main.py 2120-2145), keeping the fields the
undo records touch: `lines`, `format` and `max_line_number`. -/
structure Pane where
  lines : List (Option Line)
  format : Nat
  max_line_number : Nat
deriving Repr, DecidableEq

/-- One undo record: the `data` tuple of one of the ten `*Undo`
classes of `FileDiffViewer`. -/
inductive Rec where
  | setFormat (f format old_format : Nat)
  | instanceLine (f i : Nat) (reverse : Bool)
  | updateLineText (f i : Nat) (old_is_modified : Bool) (old_text : Option String)
      (is_modified : Bool) (text : Option String)
  | insertNull (f i : Nat) (reverse : Bool)
  | invalidateLineMatching (i n new_n : Nat)
  | alignmentChange (finished : Bool)
  | updateBlocks (old_blocks blocks : List Nat)
  | replaceLines (f : Nat) (lines new_lines : List (Option Line))
      (max_num new_max_num : Nat)
  | editMode (mode current_pane current_line current_char selection_line
      selection_char : Nat) (cursor_column : Int)
  | swapPanes (f_dst f_src : Nat)
deriving Repr, DecidableEq

/-- The `FileDiffViewer` fields touched by the undo machinery
(main.py 2168-2233: `panes`, `blocks`, `mode`, the cursor fields, and
the two undo stacks plus the open undo block). -/
structure Viewer where
  panes : List Pane
  blocks : List Nat
  mode : Nat
  current_pane : Nat
  current_line : Nat
  current_char : Nat
  selection_line : Nat
  selection_char : Nat
  cursor_column : Int
  undos : List (List Rec)
  redos : List (List Rec)
  undoblock : Option (List Rec)
deriving Repr, DecidableEq

/-- `LINE_MODE` (main.py 1895). -/
def LINE_MODE : Nat := 0
/-- `CHAR_MODE` (main.py 1896). -/
def CHAR_MODE : Nat := 1
/-- `ALIGN_MODE` (main.py 1897). -/
def ALIGN_MODE : Nat := 2

/-- `self.panes[f]` (out of range raises `IndexError` in Python; junk
default pane). -/
def Viewer.pane (v : Viewer) (f : Nat) : Pane :=
  (v.panes.get? f).getD ⟨[], 0, 0⟩

/-- In-place mutation of `self.panes[f]` (out of range raises in
Python; `List.set` makes it a no-op). -/
def Viewer.modPane (v : Viewer) (f : Nat) (g : Pane → Pane) : Viewer :=
  { v with panes := v.panes.set f (g (v.pane f)) }

/-- `openUndoBlock` (main.py 2533-2534). -/
def openUndoBlock (v : Viewer) : Viewer :=
  { v with undoblock := some [] }

/-- `addUndo` (main.py 2540-2541): appends a record to the open block.
All callers guard on `self.undoblock is not None`; calling it with no
open block raises in Python and is embedded as a no-op. -/
def addUndo (v : Viewer) (u : Rec) : Viewer :=
  { v with undoblock := v.undoblock.map (fun b => b ++ [u]) }

/-- `closeUndoBlock` (main.py 2546-2550): a transaction that recorded
nothing is discarded, a non-empty one is pushed onto the undo stack
and the redo stack is cleared.  (Calling it with no open block raises
`TypeError` in Python; embedded as a no-op.) -/
def closeUndoBlock (v : Viewer) : Viewer :=
  match v.undoblock with
  | some b =>
      if b.length > 0 then
        { v with redos := [], undos := v.undos ++ [b], undoblock := none }
      else
        { v with undoblock := none }
  | none => v

/-- `setFormat` (main.py 2682-2689). -/
def Viewer.setFormat (v : Viewer) (f format : Nat) : Viewer :=
  let v1 := if v.undoblock.isSome then
      addUndo v (.setFormat f format (v.pane f).format)
    else v
  v1.modPane f (fun p => { p with format := format })

/-- `instanceLine` (main.py 2705-2715): stores a fresh `Line()` at
`lines[i]`, or `None` when `reverse` is set (out-of-range `i` raises
in Python; `List.set` makes it a no-op). -/
def Viewer.instanceLine (v : Viewer) (f i : Nat) (reverse : Bool) : Viewer :=
  let v1 := if v.undoblock.isSome then
      addUndo v (.instanceLine f i reverse)
    else v
  v1.modPane f (fun p =>
    { p with lines := p.lines.set i (if reverse then none else some Line.blank) })

/-- `updateLineText` (main.py 2742-2783): rewrites the `is_modified`
flag and `modified_text` of `lines[i]`, leaving `text` and
`line_number` alone (reading a `None` entry raises `AttributeError`
in Python; a blank line is the junk default). -/
def Viewer.updateLineText (v : Viewer) (f i : Nat) (is_modified : Bool)
    (text : Option String) : Viewer :=
  let line := (((v.pane f).lines.get? i).getD none).getD Line.blank
  let v1 := if v.undoblock.isSome then
      addUndo v (.updateLineText f i line.is_modified line.modified_text is_modified text)
    else v
  v1.modPane f (fun p =>
    { p with
        lines := p.lines.set i
          (some ⟨line.line_number, line.text, is_modified, text⟩) })

/-- `insertNull` (main.py 2800-2815): inserts a spacer (`None`) at row
`i` of pane `f` (Python `list.insert` clamps a past-the-end index to
an append), or deletes row `i` when `reverse` is set (out of range
raises in Python; `eraseIdx` makes it a no-op). -/
def Viewer.insertNull (v : Viewer) (f i : Nat) (reverse : Bool) : Viewer :=
  let v1 := if v.undoblock.isSome then
      addUndo v (.insertNull f i reverse)
    else v
  v1.modPane f (fun p =>
    { p with lines := if reverse then p.lines.eraseIdx i else pyinsertOpt p.lines i })

/-- `invalidateLineMatching` (main.py 2831-2846): records itself; its
state effects touch only the display caches, which are not modelled. -/
def Viewer.invalidateLineMatching (v : Viewer) (i n new_n : Nat) : Viewer :=
  if v.undoblock.isSome then
    addUndo v (.invalidateLineMatching i n new_n)
  else v

/-- `alignmentChange` (main.py 2861-2866): records itself; the only
other effect is a display size update. -/
def Viewer.alignmentChange (v : Viewer) (finished : Bool) : Viewer :=
  if v.undoblock.isSome then
    addUndo v (.alignmentChange finished)
  else v

/-- `updateBlocks` (main.py 2904-2908). -/
def Viewer.updateBlocks (v : Viewer) (blocks : List Nat) : Viewer :=
  let v1 := if v.undoblock.isSome then
      addUndo v (.updateBlocks v.blocks blocks)
    else v
  { v1 with blocks := blocks }

/-- `replaceLines` (main.py 2996-3011): installs `new_lines` and
`new_max_num` for pane `f`; the `lines`/`max_num` arguments are only
stored in the undo record. -/
def Viewer.replaceLines (v : Viewer) (f : Nat) (lines new_lines : List (Option Line))
    (max_num new_max_num : Nat) : Viewer :=
  let v1 := if v.undoblock.isSome then
      addUndo v (.replaceLines f lines new_lines max_num new_max_num)
    else v
  v1.modPane f (fun p => { p with lines := new_lines, max_line_number := new_max_num })

/-- `recordEditMode` (main.py 3425-3427). -/
def Viewer.recordEditMode (v : Viewer) : Viewer :=
  if v.undoblock.isSome then
    addUndo v (.editMode v.mode v.current_pane v.current_line v.current_char
      v.selection_line v.selection_char v.cursor_column)
  else v

/-- `setCurrentLine` (main.py 3473-3499): clamps the pane and line and
moves the cursor; the Python clamp `max(min(f, len(panes) - 1), 0)`
coincides with the `Nat` expression below, including for zero panes. -/
def Viewer.setCurrentLine (v : Viewer) (f i : Nat) (selection : Option Nat) : Viewer :=
  let f2 := min f (v.panes.length - 1)
  let i2 := min i (v.pane f2).lines.length
  { v with current_pane := f2, current_line := i2,
           selection_line := selection.getD i2 }

/-- The `setCurrentChar(i, j, True)` call made by `setEditMode`
(main.py 3441, 3573-3589): `sj` stays `None` so `extend` is false and
the selection collapses onto the cursor; the remembered cursor column
is cleared. -/
def Viewer.setCurrentCharHere (v : Viewer) (i j : Nat) : Viewer :=
  { v with cursor_column := -1, current_line := i, current_char := j,
           selection_line := i, selection_char := j }

/-- `setEditMode` (main.py 3430-3446). -/
def Viewer.setEditMode (v : Viewer) (mode f current_line current_char selection_line
    selection_char : Nat) (cursor_column : Int) : Viewer :=
  let v1 : Viewer := { v with
    mode := mode, current_pane := f,
    current_line := current_line, current_char := current_char,
    selection_line := selection_line, selection_char := selection_char,
    cursor_column := cursor_column }
  if mode = CHAR_MODE then
    v1.setCurrentCharHere v1.current_line v1.current_char
  else
    v1.setCurrentLine v1.current_pane v1.current_line (some v1.selection_line)

/-- `swapPanes` (main.py 5130-5149): swaps the two panes and moves the
cursor to `f_dst` (an out-of-range index raises in Python; embedded as
leaving `panes` unchanged). -/
def Viewer.swapPanes (v : Viewer) (f_dst f_src : Nat) : Viewer :=
  let v1 := if v.undoblock.isSome then
      addUndo v (.swapPanes f_dst f_src)
    else v
  let panes2 := match v.panes.get? f_dst, v.panes.get? f_src with
    | some a, some b => (v.panes.set f_dst b).set f_src a
    | _, _ => v.panes
  { v1 with current_pane := f_dst, panes := panes2 }

/-- `u.undo(viewer)` for each record class: each calls the matching
primitive with the stored data (main.py 2673-2675, 2695-2697,
2721-2723, 2789-2791, 2822-2824, 2852-2854, 2895-2897, 2987-2989,
3415-3417, 5121-5123). -/
def recUndo (r : Rec) (v : Viewer) : Viewer :=
  match r with
  | .setFormat f _ old_format => v.setFormat f old_format
  | .instanceLine f i reverse => v.instanceLine f i (!reverse)
  | .updateLineText f i old_m old_t _ _ => v.updateLineText f i old_m old_t
  | .insertNull f i reverse => v.insertNull f i (!reverse)
  | .invalidateLineMatching i n new_n => v.invalidateLineMatching i new_n n
  | .alignmentChange finished => v.alignmentChange (!finished)
  | .updateBlocks old_blocks _ => v.updateBlocks old_blocks
  | .replaceLines f lines new_lines max_num new_max_num =>
      v.replaceLines f new_lines lines new_max_num max_num
  | .editMode m cp cl cc sl sc col => v.setEditMode m cp cl cc sl sc col
  | .swapPanes f_dst f_src => v.swapPanes f_src f_dst

/-- `u.redo(viewer)` for each record class (main.py 2677-2679,
2699-2701, 2725-2727, 2793-2795, 2826-2828, 2856-2858, 2899-2901,
2991-2993, 3419-3420, 5125-5127). -/
def recRedo (r : Rec) (v : Viewer) : Viewer :=
  match r with
  | .setFormat f format _ => v.setFormat f format
  | .instanceLine f i reverse => v.instanceLine f i reverse
  | .updateLineText f i _ _ m t => v.updateLineText f i m t
  | .insertNull f i reverse => v.insertNull f i reverse
  | .invalidateLineMatching i n new_n => v.invalidateLineMatching i n new_n
  | .alignmentChange finished => v.alignmentChange finished
  | .updateBlocks _ blocks => v.updateBlocks blocks
  | .replaceLines f lines new_lines max_num new_max_num =>
      v.replaceLines f lines new_lines max_num new_max_num
  | .editMode m cp cl cc sl sc col => v.setEditMode m cp cl cc sl sc col
  | .swapPanes f_dst f_src => v.swapPanes f_dst f_src

/-- The `for u in block[::-1]: u.undo(self)` loop of `undo`
(main.py 2564-2565). -/
def undoList (block : List Rec) (v : Viewer) : Viewer :=
  block.reverse.foldl (fun s r => recUndo r s) v

/-- The `for u in block: u.redo(self)` loop of `redo`
(main.py 2580-2581). -/
def redoList (block : List Rec) (v : Viewer) : Viewer :=
  block.foldl (fun s r => recRedo r s) v

/-- `undo` (main.py 2553-2566): stashes and clears the open block,
and in line or character mode moves the newest undo block to the redo
stack and applies its records in reverse order of recording; finally
the stashed open block is restored. -/
def undo (v : Viewer) : Viewer :=
  let old_block := v.undoblock
  let v1 : Viewer := { v with undoblock := none }
  let v2 :=
    if v1.mode = LINE_MODE ∨ v1.mode = CHAR_MODE then
      match v1.undos.getLast? with
      | some block =>
          undoList block
            { v1 with undos := v1.undos.dropLast, redos := v1.redos ++ [block] }
      | none => v1
    else v1
  { v2 with undoblock := old_block }

/-- `redo` (main.py 2569-2582): stashes and clears the open block,
and in line or character mode moves the newest redo block back to the
undo stack and applies its records in their original order; finally
the stashed open block is restored. -/
def redo (v : Viewer) : Viewer :=
  let old_block := v.undoblock
  let v1 : Viewer := { v with undoblock := none }
  let v2 :=
    if v1.mode = LINE_MODE ∨ v1.mode = CHAR_MODE then
      match v1.redos.getLast? with
      | some block =>
          redoList block
            { v1 with redos := v1.redos.dropLast, undos := v1.undos ++ [block] }
      | none => v1
    else v1
  { v2 with undoblock := old_block }

/-- The recording primitives a user action may invoke between
`openUndoBlock()` and `closeUndoBlock()`; one constructor per `*Undo`
record class, carrying the arguments of the corresponding
`FileDiffViewer` method. -/
inductive Op where
  | setFormat (f format : Nat)
  | instanceLine (f i : Nat) (reverse : Bool)
  | updateLineText (f i : Nat) (is_modified : Bool) (text : Option String)
  | insertNull (f i : Nat) (reverse : Bool)
  | invalidateLineMatching (i n new_n : Nat)
  | alignmentChange (finished : Bool)
  | updateBlocks (blocks : List Nat)
  | replaceLines (f : Nat) (lines new_lines : List (Option Line))
      (max_num new_max_num : Nat)
  | recordEditMode
  | swapPanes (f_dst f_src : Nat)
deriving Repr, DecidableEq

/-- Dispatch an `Op` to the primitive it names. -/
def applyOp (v : Viewer) : Op → Viewer
  | .setFormat f format => v.setFormat f format
  | .instanceLine f i reverse => v.instanceLine f i reverse
  | .updateLineText f i m t => v.updateLineText f i m t
  | .insertNull f i reverse => v.insertNull f i reverse
  | .invalidateLineMatching i n new_n => v.invalidateLineMatching i n new_n
  | .alignmentChange finished => v.alignmentChange finished
  | .updateBlocks blocks => v.updateBlocks blocks
  | .replaceLines f lines new_lines max_num new_max_num =>
      v.replaceLines f lines new_lines max_num new_max_num
  | .recordEditMode => v.recordEditMode
  | .swapPanes f_dst f_src => v.swapPanes f_dst f_src

def applyOps (v : Viewer) : List Op → Viewer
  | [] => v
  | op :: ops => applyOps (applyOp v op) ops

/-- The undo record that an `Op` adds to an open block, as a function
of the pre-state. -/
def opRec (v : Viewer) : Op → Rec
  | .setFormat f format => .setFormat f format (v.pane f).format
  | .instanceLine f i reverse => .instanceLine f i reverse
  | .updateLineText f i m t =>
      let line := (((v.pane f).lines.get? i).getD none).getD Line.blank
      .updateLineText f i line.is_modified line.modified_text m t
  | .insertNull f i reverse => .insertNull f i reverse
  | .invalidateLineMatching i n new_n => .invalidateLineMatching i n new_n
  | .alignmentChange finished => .alignmentChange finished
  | .updateBlocks blocks => .updateBlocks v.blocks blocks
  | .replaceLines f lines new_lines max_num new_max_num =>
      .replaceLines f lines new_lines max_num new_max_num
  | .recordEditMode => .editMode v.mode v.current_pane v.current_line v.current_char
      v.selection_line v.selection_char v.cursor_column
  | .swapPanes f_dst f_src => .swapPanes f_dst f_src

/-- Calls for which the Python primitive raises no exception and whose
undo record inverts them exactly: indices in range, text updates on a
real line, spacer deletion of a spacer row, line instantiation at an
empty slot (and deletion of a pristine spacer line), and `replaceLines`
invoked — as the viewer does — with the pane's current contents as the
old contents. -/
def validOp (v : Viewer) : Op → Bool
  | .setFormat f _ => decide (f < v.panes.length)
  | .instanceLine f i reverse =>
      decide (f < v.panes.length) &&
      ((v.pane f).lines.get? i == some (if reverse then some Line.blank else none))
  | .updateLineText f i _ _ =>
      decide (f < v.panes.length) &&
      ((((v.pane f).lines.get? i).getD none).isSome)
  | .insertNull f i reverse =>
      decide (f < v.panes.length) &&
      (if reverse then (v.pane f).lines.get? i == some none
       else decide (i ≤ (v.pane f).lines.length))
  | .invalidateLineMatching _ _ _ => true
  | .alignmentChange _ => true
  | .updateBlocks _ => true
  | .replaceLines f lines _ max_num _ =>
      decide (f < v.panes.length) && ((v.pane f).lines == lines) &&
      ((v.pane f).max_line_number == max_num)
  | .recordEditMode => true
  | .swapPanes f_dst f_src =>
      decide (f_dst < v.panes.length) && decide (f_src < v.panes.length)

def validOps (v : Viewer) : List Op → Bool
  | [] => true
  | op :: ops => validOp v op && validOps (applyOp v op) ops

/-- One user action: an `openUndoBlock()`/`closeUndoBlock()` pair
around a sequence of primitives. -/
def doTx (v : Viewer) (tx : List Op) : Viewer :=
  closeUndoBlock (applyOps (openUndoBlock v) tx)

def doTxs (v : Viewer) : List (List Op) → Viewer
  | [] => v
  | tx :: txs => doTxs (doTx v tx) txs

def validTxs (v : Viewer) : List (List Op) → Bool
  | [] => true
  | tx :: txs => validOps (openUndoBlock v) tx && validTxs (doTx v tx) txs

/-- `undo` iterated. -/
def undoN : Nat → Viewer → Viewer
  | 0, v => v
  | k + 1, v => undoN k (undo v)

/-- `redo` iterated. -/
def redoN : Nat → Viewer → Viewer
  | 0, v => v
  | k + 1, v => redoN k (redo v)

/-- The pane contents and block partition: the state the round-trip
claim is about. -/
def proj (v : Viewer) : List Pane × List Nat := (v.panes, v.blocks)

/-- Pane contents, block partition and mode: the part of the state
that determines how records replay. -/
def obs (v : Viewer) : List Pane × List Nat × Nat := (v.panes, v.blocks, v.mode)

/-- A replayable transaction block: applying its records in reverse
order takes any quiescent state observing `p` back to `o`, applying
them in order takes `o` to `p`, and neither touches the undo stacks
or the (absent) open block. -/
def BlockGood (o p : List Pane × List Nat × Nat) (b : List Rec) : Prop :=
  (∀ w : Viewer, w.undoblock = none → obs w = p →
    obs (undoList b w) = o ∧ (undoList b w).undos = w.undos ∧
    (undoList b w).redos = w.redos ∧ (undoList b w).undoblock = none) ∧
  (∀ w : Viewer, w.undoblock = none → obs w = o →
    obs (redoList b w) = p ∧ (redoList b w).undos = w.undos ∧
    (redoList b w).redos = w.redos ∧ (redoList b w).undoblock = none)

/-- The undo stack as a chain of replayable blocks between
observations, all in mode `m`. -/
inductive Chain (m : Nat) : (List Pane × List Nat × Nat) → List (List Rec) →
    (List Pane × List Nat × Nat) → Prop
  | nil (o : List Pane × List Nat × Nat) (hm : o.2.2 = m) : Chain m o [] o
  | cons {o p q : List Pane × List Nat × Nat} {b : List Rec} {bs : List (List Rec)}
      (hm : o.2.2 = m) (hb : BlockGood o p b) (hc : Chain m p bs q) :
      Chain m o (b :: bs) q

section Lemmas

/-- Unfolding `Viewer.setFormat` to a flat update. -/
theorem setFormat_eq (v : Viewer) (f format : Nat) :
    v.setFormat f format =
      { v with panes := v.panes.set f { v.pane f with format := format },
               undoblock := v.undoblock.map
                 (fun b => b ++ [Rec.setFormat f format (v.pane f).format]) } := by
  rcases v with ⟨pns, bls, md, cp, cl, cc, sl, sc, col2, us, rds, ub⟩
  cases ub <;> simp [Viewer.setFormat, addUndo, Viewer.modPane, Viewer.pane]

theorem instanceLine_eq (v : Viewer) (f i : Nat) (reverse : Bool) :
    v.instanceLine f i reverse =
      { v with panes := v.panes.set f { v.pane f with
                 lines := (v.pane f).lines.set i
                   (if reverse then none else some Line.blank) },
               undoblock := v.undoblock.map
                 (fun b => b ++ [Rec.instanceLine f i reverse]) } := by
  rcases v with ⟨pns, bls, md, cp, cl, cc, sl, sc, col2, us, rds, ub⟩
  cases ub <;> simp [Viewer.instanceLine, addUndo, Viewer.modPane, Viewer.pane]

theorem updateLineText_eq (v : Viewer) (f i : Nat) (m : Bool) (t : Option String) :
    v.updateLineText f i m t =
      { v with panes := v.panes.set f { v.pane f with
                 lines := (v.pane f).lines.set i
                   (some ⟨((((v.pane f).lines.get? i).getD none).getD Line.blank).line_number,
                          ((((v.pane f).lines.get? i).getD none).getD Line.blank).text,
                          m, t⟩) },
               undoblock := v.undoblock.map (fun b => b ++
                 [Rec.updateLineText f i
                   ((((v.pane f).lines.get? i).getD none).getD Line.blank).is_modified
                   ((((v.pane f).lines.get? i).getD none).getD Line.blank).modified_text
                   m t]) } := by
  rcases v with ⟨pns, bls, md, cp, cl, cc, sl, sc, col2, us, rds, ub⟩
  cases ub <;> simp [Viewer.updateLineText, addUndo, Viewer.modPane, Viewer.pane]

theorem insertNull_eq (v : Viewer) (f i : Nat) (reverse : Bool) :
    v.insertNull f i reverse =
      { v with panes := v.panes.set f { v.pane f with
                 lines := if reverse then (v.pane f).lines.eraseIdx i
                          else pyinsertOpt (v.pane f).lines i },
               undoblock := v.undoblock.map
                 (fun b => b ++ [Rec.insertNull f i reverse]) } := by
  rcases v with ⟨pns, bls, md, cp, cl, cc, sl, sc, col2, us, rds, ub⟩
  cases ub <;> simp [Viewer.insertNull, addUndo, Viewer.modPane, Viewer.pane]

theorem invalidateLineMatching_eq (v : Viewer) (i n new_n : Nat) :
    v.invalidateLineMatching i n new_n =
      { v with undoblock := v.undoblock.map
                 (fun b => b ++ [Rec.invalidateLineMatching i n new_n]) } := by
  rcases v with ⟨pns, bls, md, cp, cl, cc, sl, sc, col2, us, rds, ub⟩
  cases ub <;> simp [Viewer.invalidateLineMatching, addUndo]

theorem alignmentChange_eq (v : Viewer) (finished : Bool) :
    v.alignmentChange finished =
      { v with undoblock := v.undoblock.map
                 (fun b => b ++ [Rec.alignmentChange finished]) } := by
  rcases v with ⟨pns, bls, md, cp, cl, cc, sl, sc, col2, us, rds, ub⟩
  cases ub <;> simp [Viewer.alignmentChange, addUndo]

theorem updateBlocks_eq (v : Viewer) (blocks : List Nat) :
    v.updateBlocks blocks =
      { v with blocks := blocks,
               undoblock := v.undoblock.map
                 (fun b => b ++ [Rec.updateBlocks v.blocks blocks]) } := by
  rcases v with ⟨pns, bls, md, cp, cl, cc, sl, sc, col2, us, rds, ub⟩
  cases ub <;> simp [Viewer.updateBlocks, addUndo]

theorem replaceLines_eq (v : Viewer) (f : Nat) (lines new_lines : List (Option Line))
    (max_num new_max_num : Nat) :
    v.replaceLines f lines new_lines max_num new_max_num =
      { v with panes := v.panes.set f { v.pane f with
                 lines := new_lines, max_line_number := new_max_num },
               undoblock := v.undoblock.map (fun b => b ++
                 [Rec.replaceLines f lines new_lines max_num new_max_num]) } := by
  rcases v with ⟨pns, bls, md, cp, cl, cc, sl, sc, col2, us, rds, ub⟩
  cases ub <;> simp [Viewer.replaceLines, addUndo, Viewer.modPane, Viewer.pane]

theorem recordEditMode_eq (v : Viewer) :
    v.recordEditMode =
      { v with undoblock := v.undoblock.map (fun b => b ++
                 [Rec.editMode v.mode v.current_pane v.current_line v.current_char
                   v.selection_line v.selection_char v.cursor_column]) } := by
  rcases v with ⟨pns, bls, md, cp, cl, cc, sl, sc, col2, us, rds, ub⟩
  cases ub <;> simp [Viewer.recordEditMode, addUndo]

theorem swapPanes_eq (v : Viewer) (f_dst f_src : Nat) :
    v.swapPanes f_dst f_src =
      { v with current_pane := f_dst,
               panes := match v.panes.get? f_dst, v.panes.get? f_src with
                 | some a, some b => (v.panes.set f_dst b).set f_src a
                 | _, _ => v.panes,
               undoblock := v.undoblock.map
                 (fun b => b ++ [Rec.swapPanes f_dst f_src]) } := by
  rcases v with ⟨pns, bls, md, cp, cl, cc, sl, sc, col2, us, rds, ub⟩
  cases ub <;> simp [Viewer.swapPanes, addUndo]

/-- `setEditMode` never touches panes, blocks, the stacks or the open
block, and leaves the viewer in the requested mode. -/
theorem setEditMode_fields (v : Viewer) (m f cl cc sl sc : Nat) (col : Int) :
    (v.setEditMode m f cl cc sl sc col).panes = v.panes ∧
    (v.setEditMode m f cl cc sl sc col).blocks = v.blocks ∧
    (v.setEditMode m f cl cc sl sc col).mode = m ∧
    (v.setEditMode m f cl cc sl sc col).undos = v.undos ∧
    (v.setEditMode m f cl cc sl sc col).redos = v.redos ∧
    (v.setEditMode m f cl cc sl sc col).undoblock = v.undoblock := by
  by_cases h : m = CHAR_MODE <;>
    simp [Viewer.setEditMode, Viewer.setCurrentCharHere, Viewer.setCurrentLine, h]

end Lemmas

/-- Writing back the value already stored leaves a list unchanged. -/
theorem set_of_getElem? {α : Type _} {l : List α} {i : Nat} {a : α}
    (h : l[i]? = some a) : l.set i a = l := by
  induction l generalizing i with
  | nil => simp at h
  | cons x xs ih =>
    cases i with
    | zero => simp_all
    | succ j =>
      simp only [List.getElem?_cons_succ] at h
      simp [ih h]

/-- Re-inserting an absent entry where it was deleted restores the list. -/
theorem insertIdx_none_eraseIdx {α : Type _} {l : List (Option α)} {i : Nat}
    (h : l[i]? = some none) : (l.eraseIdx i).insertIdx i none = l := by
  induction l generalizing i with
  | nil => simp at h
  | cons x xs ih =>
    cases i with
    | zero => simp_all
    | succ j =>
      simp only [List.getElem?_cons_succ] at h
      simp [ih h]

/-- For an in-range index the Python clamp is the plain insertion. -/
theorem pyinsertOpt_eq {α : Type _} {l : List (Option α)} {i : Nat}
    (h : i ≤ l.length) : pyinsertOpt l i = l.insertIdx i none := by
  unfold pyinsertOpt
  rcases Nat.lt_or_ge i l.length with hlt | hge
  · rw [if_neg (by omega)]
  · have hi : i = l.length := le_antisymm h hge
    subst hi
    simp [List.insertIdx_length_self]

/-- Reading the pane a viewer's pane list addresses in range. -/
theorem panes_getElem? {v : Viewer} {f : Nat} (hf : f < v.panes.length) :
    v.panes[f]? = some (v.pane f) := by
  simp [Viewer.pane, List.get?_eq_getElem?, List.getElem?_eq_getElem hf]

/-- Reading pane `f` of a viewer whose panes are `ps.set f P`. -/
theorem pane_eq_of (w : Viewer) (f : Nat) (ps : List Pane) (P : Pane)
    (hw : w.panes = ps.set f P) (hf : f < ps.length) : w.pane f = P := by
  simp [Viewer.pane, hw, List.get?_eq_getElem?, List.getElem?_set, hf]

/-- Applying a record's `undo` method to any quiescent state that looks
like the post-state of the primitive that recorded it restores the
pre-state's panes, blocks and mode, and touches neither undo stack nor
the absent open block. -/
theorem undo_inv (op : Op) (v w : Viewer)
    (hval : validOp v op = true)
    (hwb : w.undoblock = none)
    (hp : w.panes = (applyOp v op).panes)
    (hb : w.blocks = (applyOp v op).blocks)
    (hm : w.mode = (applyOp v op).mode) :
    (recUndo (opRec v op) w).panes = v.panes ∧
    (recUndo (opRec v op) w).blocks = v.blocks ∧
    (recUndo (opRec v op) w).mode = v.mode ∧
    (recUndo (opRec v op) w).undos = w.undos ∧
    (recUndo (opRec v op) w).redos = w.redos ∧
    (recUndo (opRec v op) w).undoblock = none := by
  cases op with
  | setFormat f fmt =>
    simp only [validOp, decide_eq_true_eq] at hval
    simp only [applyOp, setFormat_eq] at hp hb hm
    refine ⟨?_, ?_, ?_, ?_, ?_, ?_⟩
    · simp only [recUndo, opRec, setFormat_eq]
      rw [pane_eq_of w f v.panes _ hp hval, hp, List.set_set]
      exact set_of_getElem? (panes_getElem? hval)
    · simp [recUndo, opRec, setFormat_eq, hb]
    · simp [recUndo, opRec, setFormat_eq, hm]
    · simp [recUndo, opRec, setFormat_eq]
    · simp [recUndo, opRec, setFormat_eq]
    · simp [recUndo, opRec, setFormat_eq, hwb]
  | instanceLine f i rev =>
    simp only [validOp, Bool.and_eq_true, decide_eq_true_eq, beq_iff_eq,
      List.get?_eq_getElem?] at hval
    obtain ⟨hf, hline⟩ := hval
    simp only [applyOp, instanceLine_eq] at hp hb hm
    refine ⟨?_, ?_, ?_, ?_, ?_, ?_⟩
    · simp only [recUndo, opRec, instanceLine_eq]
      rw [pane_eq_of w f v.panes _ hp hf, hp, List.set_set]
      have hswap : (if (!rev) = true then (none : Option Line) else some Line.blank) =
          (if rev = true then some Line.blank else none) := by cases rev <;> rfl
      rw [List.set_set, hswap, set_of_getElem? hline]
      exact set_of_getElem? (panes_getElem? hf)
    · simp [recUndo, opRec, instanceLine_eq, hb]
    · simp [recUndo, opRec, instanceLine_eq, hm]
    · simp [recUndo, opRec, instanceLine_eq]
    · simp [recUndo, opRec, instanceLine_eq]
    · simp [recUndo, opRec, instanceLine_eq, hwb]
  | updateLineText f i m t =>
    simp only [validOp, Bool.and_eq_true, decide_eq_true_eq,
      List.get?_eq_getElem?] at hval
    obtain ⟨hf, hsome⟩ := hval
    obtain ⟨l, hl⟩ := Option.isSome_iff_exists.mp hsome
    have hlget : (v.pane f).lines[i]? = some (some l) := by
      cases hg : (v.pane f).lines[i]? with
      | none => rw [hg] at hl; simp at hl
      | some o => rw [hg] at hl; simp only [Option.getD_some] at hl; rw [hl]
    have hi : i < (v.pane f).lines.length := (List.getElem?_eq_some.mp hlget).1
    simp only [applyOp, updateLineText_eq, List.get?_eq_getElem?] at hp hb hm
    rw [hlget] at hp
    simp only [Option.getD_some] at hp
    refine ⟨?_, ?_, ?_, ?_, ?_, ?_⟩
    · simp only [recUndo, opRec, updateLineText_eq, List.get?_eq_getElem?]
      rw [hlget]
      simp only [Option.getD_some]
      rw [pane_eq_of w f v.panes _ hp hf]
      rw [show ((v.pane f).lines.set i
            (some ⟨l.line_number, l.text, m, t⟩))[i]? =
          some (some (⟨l.line_number, l.text, m, t⟩ : Line)) from by
        simp [List.getElem?_set, hi]]
      simp only [Option.getD_some]
      rw [hp, List.set_set, List.set_set]
      rw [show (⟨(⟨l.line_number, l.text, m, t⟩ : Line).line_number,
            (⟨l.line_number, l.text, m, t⟩ : Line).text,
            l.is_modified, l.modified_text⟩ : Line) = l from rfl]
      rw [set_of_getElem? hlget]
      exact set_of_getElem? (panes_getElem? hf)
    · simp [recUndo, opRec, updateLineText_eq, hb]
    · simp [recUndo, opRec, updateLineText_eq, hm]
    · simp [recUndo, opRec, updateLineText_eq]
    · simp [recUndo, opRec, updateLineText_eq]
    · simp [recUndo, opRec, updateLineText_eq, hwb]
  | insertNull f i rev =>
    cases rev with
    | false =>
      simp only [validOp, Bool.and_eq_true, decide_eq_true_eq, if_false,
        Bool.false_eq_true] at hval
      obtain ⟨hf, hle⟩ := hval
      simp only [applyOp, insertNull_eq, Bool.false_eq_true, if_false] at hp hb hm
      refine ⟨?_, ?_, ?_, ?_, ?_, ?_⟩
      · simp only [recUndo, opRec, insertNull_eq, Bool.not_false, if_true]
        rw [pane_eq_of w f v.panes _ hp hf, hp, List.set_set]
        rw [pyinsertOpt_eq hle, List.eraseIdx_insertIdx]
        exact set_of_getElem? (panes_getElem? hf)
      · simp [recUndo, opRec, insertNull_eq, hb]
      · simp [recUndo, opRec, insertNull_eq, hm]
      · simp [recUndo, opRec, insertNull_eq]
      · simp [recUndo, opRec, insertNull_eq]
      · simp [recUndo, opRec, insertNull_eq, hwb]
    | true =>
      simp only [validOp, Bool.and_eq_true, decide_eq_true_eq, if_true, beq_iff_eq,
        List.get?_eq_getElem?] at hval
      obtain ⟨hf, hnone⟩ := hval
      have hi : i < (v.pane f).lines.length := (List.getElem?_eq_some.mp hnone).1
      simp only [applyOp, insertNull_eq, if_true] at hp hb hm
      refine ⟨?_, ?_, ?_, ?_, ?_, ?_⟩
      · simp only [recUndo, opRec, insertNull_eq, Bool.not_true, Bool.false_eq_true,
          if_false]
        rw [pane_eq_of w f v.panes _ hp hf, hp, List.set_set]
        have hle : i ≤ ((v.pane f).lines.eraseIdx i).length := by
          rw [List.length_eraseIdx, if_pos hi]
          omega
        rw [pyinsertOpt_eq hle, insertIdx_none_eraseIdx hnone]
        exact set_of_getElem? (panes_getElem? hf)
      · simp [recUndo, opRec, insertNull_eq, hb]
      · simp [recUndo, opRec, insertNull_eq, hm]
      · simp [recUndo, opRec, insertNull_eq]
      · simp [recUndo, opRec, insertNull_eq]
      · simp [recUndo, opRec, insertNull_eq, hwb]
  | invalidateLineMatching i n new_n =>
    simp only [applyOp, invalidateLineMatching_eq] at hp hb hm
    refine ⟨?_, ?_, ?_, ?_, ?_, ?_⟩ <;>
      simp [recUndo, opRec, invalidateLineMatching_eq, hp, hb, hm, hwb]
  | alignmentChange fin =>
    simp only [applyOp, alignmentChange_eq] at hp hb hm
    refine ⟨?_, ?_, ?_, ?_, ?_, ?_⟩ <;>
      simp [recUndo, opRec, alignmentChange_eq, hp, hb, hm, hwb]
  | updateBlocks bl =>
    simp only [applyOp, updateBlocks_eq] at hp hb hm
    refine ⟨?_, ?_, ?_, ?_, ?_, ?_⟩ <;>
      simp [recUndo, opRec, updateBlocks_eq, hp, hb, hm, hwb]
  | replaceLines f lines new_lines mn nmn =>
    simp only [validOp, Bool.and_eq_true, decide_eq_true_eq, beq_iff_eq] at hval
    obtain ⟨⟨hf, hlines⟩, hmax⟩ := hval
    simp only [applyOp, replaceLines_eq] at hp hb hm
    refine ⟨?_, ?_, ?_, ?_, ?_, ?_⟩
    · simp only [recUndo, opRec, replaceLines_eq]
      rw [pane_eq_of w f v.panes _ hp hf, hp, List.set_set, ← hlines, ← hmax]
      exact set_of_getElem? (panes_getElem? hf)
    · simp [recUndo, opRec, replaceLines_eq, hb]
    · simp [recUndo, opRec, replaceLines_eq, hm]
    · simp [recUndo, opRec, replaceLines_eq]
    · simp [recUndo, opRec, replaceLines_eq]
    · simp [recUndo, opRec, replaceLines_eq, hwb]
  | recordEditMode =>
    simp only [applyOp, recordEditMode_eq] at hp hb hm
    obtain ⟨h1, h2, h3, h4, h5, h6⟩ := setEditMode_fields w v.mode v.current_pane
      v.current_line v.current_char v.selection_line v.selection_char v.cursor_column
    simp only [recUndo, opRec]
    exact ⟨by rw [h1, hp], by rw [h2, hb], h3, h4, h5, by rw [h6, hwb]⟩
  | swapPanes a b =>
    simp only [validOp, Bool.and_eq_true, decide_eq_true_eq] at hval
    obtain ⟨ha, hb2⟩ := hval
    have hpa : v.panes[a]? = some (v.pane a) := panes_getElem? ha
    have hpb : v.panes[b]? = some (v.pane b) := panes_getElem? hb2
    simp only [applyOp, swapPanes_eq, List.get?_eq_getElem?] at hp hb hm
    rw [hpa, hpb] at hp
    simp only at hp
    refine ⟨?_, ?_, ?_, ?_, ?_, ?_⟩
    · simp only [recUndo, opRec, swapPanes_eq, List.get?_eq_getElem?]
      by_cases hab : a = b
      · subst hab
        have hpab : v.panes.set a (v.pane a) = v.panes := set_of_getElem? hpa
        rw [List.set_set, hpab] at hp
        have hga : w.panes[a]? = some (v.pane a) := by rw [hp]; exact hpa
        rw [hga]
        simp only
        rw [hp, List.set_set, hpab]
      · have hga : w.panes[b]? = some (v.pane a) := by
          rw [hp]
          simp [List.getElem?_set, hb2]
        have hgb : w.panes[a]? = some (v.pane b) := by
          rw [hp]
          simp [List.getElem?_set, Ne.symm hab, hab, ha]
        rw [hga, hgb]
        simp only
        rw [hp]
        show ((((v.panes.set a (v.pane b)).set b (v.pane a)).set b (v.pane b)).set a
          (v.pane a)) = v.panes
        rw [show (((v.panes.set a (v.pane b)).set b (v.pane a)).set b (v.pane b)) =
            ((v.panes.set a (v.pane b)).set b (v.pane b)) from List.set_set _ _ _ _]
        rw [show ((v.panes.set a (v.pane b)).set b (v.pane b)) =
            ((v.panes.set b (v.pane b)).set a (v.pane b)) from List.set_comm _ _ _ hab]
        rw [show (((v.panes.set b (v.pane b)).set a (v.pane b)).set a (v.pane a)) =
            ((v.panes.set b (v.pane b)).set a (v.pane a)) from List.set_set _ _ _ _]
        rw [set_of_getElem? hpb]
        exact set_of_getElem? hpa
    · simp [recUndo, opRec, swapPanes_eq, hb]
    · simp [recUndo, opRec, swapPanes_eq, hm]
    · simp [recUndo, opRec, swapPanes_eq]
    · simp [recUndo, opRec, swapPanes_eq]
    · simp [recUndo, opRec, swapPanes_eq, hwb]

/-- Applying a record's `redo` method to any quiescent state that looks
like the pre-state reproduces the primitive's post-state on panes,
blocks and mode, and touches neither undo stack nor the absent open
block. -/
theorem redo_replay (op : Op) (v w : Viewer)
    (hwb : w.undoblock = none)
    (hp : w.panes = v.panes) (hb : w.blocks = v.blocks) (hm : w.mode = v.mode) :
    (recRedo (opRec v op) w).panes = (applyOp v op).panes ∧
    (recRedo (opRec v op) w).blocks = (applyOp v op).blocks ∧
    (recRedo (opRec v op) w).mode = (applyOp v op).mode ∧
    (recRedo (opRec v op) w).undos = w.undos ∧
    (recRedo (opRec v op) w).redos = w.redos ∧
    (recRedo (opRec v op) w).undoblock = none := by
  cases op with
  | setFormat f fmt =>
    refine ⟨?_, ?_, ?_, ?_, ?_, ?_⟩ <;>
      simp [recRedo, opRec, applyOp, setFormat_eq, Viewer.pane, hp, hb, hm, hwb]
  | instanceLine f i rev =>
    refine ⟨?_, ?_, ?_, ?_, ?_, ?_⟩ <;>
      simp [recRedo, opRec, applyOp, instanceLine_eq, Viewer.pane, hp, hb, hm, hwb]
  | updateLineText f i m t =>
    refine ⟨?_, ?_, ?_, ?_, ?_, ?_⟩ <;>
      simp [recRedo, opRec, applyOp, updateLineText_eq, Viewer.pane, hp, hb, hm, hwb]
  | insertNull f i rev =>
    refine ⟨?_, ?_, ?_, ?_, ?_, ?_⟩ <;>
      simp [recRedo, opRec, applyOp, insertNull_eq, Viewer.pane, hp, hb, hm, hwb]
  | invalidateLineMatching i n new_n =>
    refine ⟨?_, ?_, ?_, ?_, ?_, ?_⟩ <;>
      simp [recRedo, opRec, applyOp, invalidateLineMatching_eq, hp, hb, hm, hwb]
  | alignmentChange fin =>
    refine ⟨?_, ?_, ?_, ?_, ?_, ?_⟩ <;>
      simp [recRedo, opRec, applyOp, alignmentChange_eq, hp, hb, hm, hwb]
  | updateBlocks bl =>
    refine ⟨?_, ?_, ?_, ?_, ?_, ?_⟩ <;>
      simp [recRedo, opRec, applyOp, updateBlocks_eq, hp, hb, hm, hwb]
  | replaceLines f lines new_lines mn nmn =>
    refine ⟨?_, ?_, ?_, ?_, ?_, ?_⟩ <;>
      simp [recRedo, opRec, applyOp, replaceLines_eq, Viewer.pane, hp, hb, hm, hwb]
  | recordEditMode =>
    obtain ⟨h1, h2, h3, h4, h5, h6⟩ := setEditMode_fields w v.mode v.current_pane
      v.current_line v.current_char v.selection_line v.selection_char v.cursor_column
    simp only [recRedo, opRec, applyOp, recordEditMode_eq]
    exact ⟨by rw [h1, hp], by rw [h2, hb], by rw [h3], h4, h5, by rw [h6, hwb]⟩
  | swapPanes a b =>
    refine ⟨?_, ?_, ?_, ?_, ?_, ?_⟩ <;>
      simp [recRedo, opRec, applyOp, swapPanes_eq, hp, hb, hm, hwb]

/-- A recording primitive appends exactly its record to the open block
and preserves the stacks and the mode. -/
theorem applyOp_frame (op : Op) (v : Viewer) (bs : List Rec)
    (hv : v.undoblock = some bs) :
    (applyOp v op).undoblock = some (bs ++ [opRec v op]) ∧
    (applyOp v op).undos = v.undos ∧
    (applyOp v op).redos = v.redos ∧
    (applyOp v op).mode = v.mode := by
  cases op <;>
    simp [applyOp, opRec, setFormat_eq, instanceLine_eq, updateLineText_eq,
      insertNull_eq, invalidateLineMatching_eq, alignmentChange_eq, updateBlocks_eq,
      replaceLines_eq, recordEditMode_eq, swapPanes_eq, hv]

theorem undoList_cons (r : Rec) (rs : List Rec) (w : Viewer) :
    undoList (r :: rs) w = recUndo r (undoList rs w) := by
  simp [undoList, List.reverse_cons, List.foldl_append]

theorem redoList_cons (r : Rec) (rs : List Rec) (w : Viewer) :
    redoList (r :: rs) w = redoList rs (recRedo r w) := rfl

theorem obs_parts {w : Viewer} {o : List Pane × List Nat × Nat} (h : obs w = o) :
    w.panes = o.1 ∧ w.blocks = o.2.1 ∧ w.mode = o.2.2 := by
  rw [← h]
  exact ⟨rfl, rfl, rfl⟩

theorem obs_eq {w : Viewer} {o : List Pane × List Nat × Nat}
    (h1 : w.panes = o.1) (h2 : w.blocks = o.2.1) (h3 : w.mode = o.2.2) :
    obs w = o := by
  obtain ⟨a, b, c⟩ := o
  simp only [obs]
  simp_all

/-- The records accumulated by a valid sequence of primitives inside an
open block form a replayable block between the pre- and post-state. -/
theorem applyOps_good (ops : List Op) : ∀ (v : Viewer) (bs : List Rec),
    v.undoblock = some bs → validOps v ops = true →
    ∃ rs : List Rec,
      (applyOps v ops).undoblock = some (bs ++ rs) ∧
      (applyOps v ops).undos = v.undos ∧
      (applyOps v ops).redos = v.redos ∧
      (applyOps v ops).mode = v.mode ∧
      rs.length = ops.length ∧
      BlockGood (obs v) (obs (applyOps v ops)) rs := by
  induction ops with
  | nil =>
    intro v bs hv hval
    exact ⟨[], by simp [applyOps, hv], rfl, rfl, rfl, rfl,
      ⟨fun w hwb hw => ⟨hw, rfl, rfl, hwb⟩, fun w hwb hw => ⟨hw, rfl, rfl, hwb⟩⟩⟩
  | cons op rest ih =>
    intro v bs hv hval
    rw [validOps, Bool.and_eq_true] at hval
    obtain ⟨hop, hrest⟩ := hval
    obtain ⟨hub, hus, hur, hum⟩ := applyOp_frame op v bs hv
    obtain ⟨rs, h1, h2, h3, h4, h5, hgood⟩ :=
      ih (applyOp v op) (bs ++ [opRec v op]) hub hrest
    refine ⟨opRec v op :: rs, ?_, ?_, ?_, ?_, ?_, ?_⟩
    · show (applyOps (applyOp v op) rest).undoblock = some (bs ++ opRec v op :: rs)
      rw [h1, List.append_assoc]
      rfl
    · show (applyOps (applyOp v op) rest).undos = v.undos
      rw [h2, hus]
    · show (applyOps (applyOp v op) rest).redos = v.redos
      rw [h3, hur]
    · show (applyOps (applyOp v op) rest).mode = v.mode
      rw [h4, hum]
    · simp [h5]
    · constructor
      · intro w hwb hw
        rw [undoList_cons]
        obtain ⟨g1, g2, g3, g4⟩ := hgood.1 w hwb hw
        obtain ⟨e1, e2, e3⟩ := obs_parts g1
        obtain ⟨k1, k2, k3, k4, k5, k6⟩ := undo_inv op v (undoList rs w) hop g4 e1 e2 e3
        exact ⟨obs_eq k1 k2 k3, by rw [k4, g2], by rw [k5, g3], k6⟩
      · intro w hwb hw
        rw [redoList_cons]
        obtain ⟨e1, e2, e3⟩ := obs_parts hw
        obtain ⟨k1, k2, k3, k4, k5, k6⟩ := redo_replay op v w hwb e1 e2 e3
        obtain ⟨g1, g2, g3, g4⟩ := hgood.2 (recRedo (opRec v op) w) k6
          (obs_eq k1 k2 k3)
        exact ⟨g1, by rw [g2, k4], by rw [g3, k5], g4⟩

theorem chain_mode_left {m : Nat} {o q : List Pane × List Nat × Nat}
    {bs : List (List Rec)} (h : Chain m o bs q) : o.2.2 = m := by
  cases h with
  | nil _ hm => exact hm
  | cons hm _ _ => exact hm

theorem close_open (v : Viewer) (hv : v.undoblock = none) :
    closeUndoBlock (openUndoBlock v) = v := by
  rcases v with ⟨p, bl, m, cp, cl, cc, sl, sc, col, us, rds, ub⟩
  simp only at hv
  subst hv
  rfl

theorem undoN_succ (k : Nat) (v : Viewer) :
    undoN (k + 1) v = undo (undoN k v) := by
  induction k generalizing v with
  | zero => rfl
  | succ j ihj =>
    calc undoN (j + 1 + 1) v = undoN (j + 1) (undo v) := rfl
      _ = undo (undoN j (undo v)) := ihj (undo v)
      _ = undo (undoN (j + 1) v) := rfl

theorem undo_step (u : Viewer) (b : List Rec) (base : List (List Rec))
    (hm : u.mode = LINE_MODE ∨ u.mode = CHAR_MODE)
    (hu : u.undos = base ++ [b]) :
    undo u =
      { undoList b { u with undoblock := none, undos := base, redos := u.redos ++ [b] }
          with undoblock := u.undoblock } := by
  have h1 : ({ u with undoblock := none } : Viewer).undos.getLast? = some b := by
    simp [hu]
  have h2 : ({ u with undoblock := none } : Viewer).undos.dropLast = base := by
    simp [hu]
  simp only [undo]
  rw [if_pos hm, h1, h2]

theorem redo_step (u : Viewer) (b : List Rec) (base : List (List Rec))
    (hm : u.mode = LINE_MODE ∨ u.mode = CHAR_MODE)
    (hu : u.redos = base ++ [b]) :
    redo u =
      { redoList b { u with undoblock := none, redos := base, undos := u.undos ++ [b] }
          with undoblock := u.undoblock } := by
  have h1 : ({ u with undoblock := none } : Viewer).redos.getLast? = some b := by
    simp [hu]
  have h2 : ({ u with undoblock := none } : Viewer).redos.dropLast = base := by
    simp [hu]
  simp only [redo]
  rw [if_pos hm, h1, h2]

/-- Undoing once per pushed block walks the whole chain backwards:
panes, blocks and mode return to the chain's left end, the blocks move
to the redo stack newest-first, and the open block is untouched. -/
theorem undoAll {m : Nat} {o q : List Pane × List Nat × Nat}
    {blocks : List (List Rec)}
    (hm01 : m = LINE_MODE ∨ m = CHAR_MODE)
    (hc : Chain m o blocks q) :
    ∀ (w : Viewer) (base : List (List Rec)),
      w.undos = base ++ blocks → obs w = q →
      obs (undoN blocks.length w) = o ∧
      (undoN blocks.length w).undos = base ∧
      (undoN blocks.length w).redos = w.redos ++ blocks.reverse ∧
      (undoN blocks.length w).undoblock = w.undoblock := by
  induction hc with
  | nil o hmo =>
    intro w base hw hq
    exact ⟨hq, by simpa using hw, by simp [undoN], rfl⟩
  | @cons o p q b bs hmo hbg hcc ihc =>
    intro w base hw hq
    have hw' : w.undos = (base ++ [b]) ++ bs := by
      rw [hw]
      simp
    obtain ⟨i1, i2, i3, i4⟩ := ihc w (base ++ [b]) hw' hq
    rw [show (b :: bs).length = bs.length + 1 from rfl, undoN_succ]
    have hum : (undoN bs.length w).mode = m := by
      have h := (obs_parts i1).2.2
      rw [h, chain_mode_left hcc]
    have hgate : (undoN bs.length w).mode = LINE_MODE ∨
        (undoN bs.length w).mode = CHAR_MODE := by
      rw [hum]
      exact hm01
    rw [undo_step (undoN bs.length w) b base hgate i2]
    obtain ⟨g1, g2, g3, g4⟩ := hbg.1
      { undoN bs.length w with
          undoblock := none, undos := base,
          redos := (undoN bs.length w).redos ++ [b] } rfl i1
    refine ⟨g1, g2, ?_, i4⟩
    show (undoList b _).redos = w.redos ++ (b :: bs).reverse
    rw [g3]
    show (undoN bs.length w).redos ++ [b] = _
    rw [i3, List.reverse_cons, List.append_assoc]

/-- Redoing once per moved block walks the chain forwards again:
panes, blocks and mode return to the chain's right end, the blocks move
back to the undo stack oldest-first, and the open block is untouched. -/
theorem redoAll {m : Nat} {o q : List Pane × List Nat × Nat}
    {blocks : List (List Rec)}
    (hm01 : m = LINE_MODE ∨ m = CHAR_MODE)
    (hc : Chain m o blocks q) :
    ∀ (w : Viewer) (R : List (List Rec)),
      w.redos = R ++ blocks.reverse → obs w = o →
      obs (redoN blocks.length w) = q ∧
      (redoN blocks.length w).undos = w.undos ++ blocks ∧
      (redoN blocks.length w).redos = R ∧
      (redoN blocks.length w).undoblock = w.undoblock := by
  induction hc with
  | nil o hmo =>
    intro w R hw hq
    exact ⟨hq, by simp [redoN], by simpa using hw, rfl⟩
  | @cons o p q b bs hmo hbg hcc ihc =>
    intro w R hw hq
    have hgate : w.mode = LINE_MODE ∨ w.mode = CHAR_MODE := by
      have h := (obs_parts hq).2.2
      rw [h, hmo]
      exact hm01
    have hw' : w.redos = (R ++ bs.reverse) ++ [b] := by
      rw [hw, List.reverse_cons, List.append_assoc]
    rw [show (b :: bs).length = bs.length + 1 from rfl]
    show obs (redoN bs.length (redo w)) = q ∧
      (redoN bs.length (redo w)).undos = w.undos ++ (b :: bs) ∧
      (redoN bs.length (redo w)).redos = R ∧
      (redoN bs.length (redo w)).undoblock = w.undoblock
    rw [redo_step w b (R ++ bs.reverse) hgate hw']
    obtain ⟨g1, g2, g3, g4⟩ := hbg.2
      { w with
          undoblock := none, redos := R ++ bs.reverse,
          undos := w.undos ++ [b] } rfl hq
    obtain ⟨j1, j2, j3, j4⟩ := ihc
      { redoList b
          { w with
              undoblock := none, redos := R ++ bs.reverse,
              undos := w.undos ++ [b] }
          with undoblock := w.undoblock }
      R (by simpa using g3) g1
    refine ⟨j1, ?_, j3, by rw [j4]⟩
    rw [j2]
    show (redoList b _).undos ++ bs = _
    rw [g2]
    show (w.undos ++ [b]) ++ bs = _
    rw [List.append_assoc]
    rfl

/-- A valid run of transactions pushes one replayable block per
non-empty transaction, leaves no open block, and clears the redo stack
as soon as one block is pushed. -/
theorem doTxs_good (txs : List (List Op)) : ∀ (v : Viewer),
    v.undoblock = none → validTxs v txs = true →
    ∃ blocks : List (List Rec),
      (doTxs v txs).undoblock = none ∧
      (doTxs v txs).undos = v.undos ++ blocks ∧
      (doTxs v txs).redos = (if blocks.isEmpty then v.redos else []) ∧
      blocks.length = (txs.filter (fun t => !t.isEmpty)).length ∧
      Chain v.mode (obs v) blocks (obs (doTxs v txs)) := by
  induction txs with
  | nil =>
    intro v hv hval
    exact ⟨[], hv, by simp [doTxs], by simp [doTxs], by simp, Chain.nil _ rfl⟩
  | cons tx rest ih =>
    intro v hv hval
    rw [validTxs, Bool.and_eq_true] at hval
    obtain ⟨htx, hrest⟩ := hval
    obtain ⟨rs, h1, h2, h3, h4, h5, hgood⟩ :=
      applyOps_good tx (openUndoBlock v) [] rfl htx
    cases rs with
    | nil =>
      have htx0 : tx = [] := by
        cases tx with
        | nil => rfl
        | cons a l => simp at h5
      subst htx0
      have hdx : doTx v [] = v := close_open v hv
      have hrest' : validTxs v rest = true := by rw [← hdx]; exact hrest
      obtain ⟨blocks, j1, j2, j3, j4, j5⟩ := ih v hv hrest'
      refine ⟨blocks, ?_, ?_, ?_, ?_, ?_⟩
      · show (doTxs (doTx v []) rest).undoblock = none
        rw [hdx]
        exact j1
      · show (doTxs (doTx v []) rest).undos = v.undos ++ blocks
        rw [hdx]
        exact j2
      · show (doTxs (doTx v []) rest).redos = if blocks.isEmpty then v.redos else []
        rw [hdx]
        exact j3
      · show blocks.length = (List.filter (fun t => !t.isEmpty) (([] : List Op) :: rest)).length
        simpa using j4
      · show Chain v.mode (obs v) blocks (obs (doTxs (doTx v []) rest))
        rw [hdx]
        exact j5
    | cons r rs' =>
      have hne : tx ≠ [] := by
        intro hx
        subst hx
        simp at h5
      have h1' : (applyOps (openUndoBlock v) tx).undoblock = some (r :: rs') := by
        simpa using h1
      have hclose : doTx v tx =
          { applyOps (openUndoBlock v) tx with
              redos := [], undos := (applyOps (openUndoBlock v) tx).undos ++ [r :: rs'],
              undoblock := none } := by
        show closeUndoBlock _ = _
        simp [closeUndoBlock, h1']
      have hu0 : (doTx v tx).undoblock = none := by rw [hclose]
      have hrest' : validTxs (doTx v tx) rest = true := hrest
      obtain ⟨blocks', j1, j2, j3, j4, j5⟩ := ih (doTx v tx) hu0 hrest'
      have hobs : obs (doTx v tx) = obs (applyOps (openUndoBlock v) tx) := by
        rw [hclose]
        rfl
      have hmode : (doTx v tx).mode = v.mode := by
        rw [hclose]
        show (applyOps (openUndoBlock v) tx).mode = v.mode
        rw [h4]
        rfl
      refine ⟨(r :: rs') :: blocks', j1, ?_, ?_, ?_, ?_⟩
      · show (doTxs (doTx v tx) rest).undos = _
        rw [j2, hclose]
        show ((applyOps (openUndoBlock v) tx).undos ++ [r :: rs']) ++ blocks' = _
        rw [h2]
        show (v.undos ++ [r :: rs']) ++ blocks' = _
        rw [List.append_assoc]
        rfl
      · show (doTxs (doTx v tx) rest).redos = _
        rw [j3]
        have : (doTx v tx).redos = [] := by rw [hclose]
        rw [this]
        simp
      · show ((r :: rs') :: blocks').length = _
        have hfil : (tx :: rest).filter (fun t => !t.isEmpty) =
            tx :: rest.filter (fun t => !t.isEmpty) := by
          rw [List.filter_cons]
          rw [if_pos (by simp [List.isEmpty_iff, hne])]
        rw [hfil]
        simp [j4]
      · refine @Chain.cons v.mode (obs v) (obs (doTx v tx)) _ _ _ rfl ?_ ?_
        · show BlockGood (obs v) (obs (doTx v tx)) (r :: rs')
          rw [hobs]
          exact hgood
        · show Chain v.mode (obs (doTx v tx)) blocks' (obs (doTxs (doTx v tx) rest))
          rw [← hmode]
          exact j5

theorem setEditMode_undoblock (v : Viewer) (m f cl cc sl sc : Nat) (col : Int) :
    (v.setEditMode m f cl cc sl sc col).undoblock = v.undoblock :=
  (setEditMode_fields v m f cl cc sl sc col).2.2.2.2.2

theorem recUndo_undoblock (r : Rec) (w : Viewer) (hw : w.undoblock = none) :
    (recUndo r w).undoblock = none := by
  cases r <;>
    simp [recUndo, setFormat_eq, instanceLine_eq, updateLineText_eq, insertNull_eq,
      invalidateLineMatching_eq, alignmentChange_eq, updateBlocks_eq, replaceLines_eq,
      setEditMode_undoblock, swapPanes_eq, hw]

theorem recRedo_undoblock (r : Rec) (w : Viewer) (hw : w.undoblock = none) :
    (recRedo r w).undoblock = none := by
  cases r <;>
    simp [recRedo, setFormat_eq, instanceLine_eq, updateLineText_eq, insertNull_eq,
      invalidateLineMatching_eq, alignmentChange_eq, updateBlocks_eq, replaceLines_eq,
      setEditMode_undoblock, swapPanes_eq, hw]

/-- C2 (confirmed): for a viewer in line or character mode with no open
transaction, after any valid run of user actions — each an
`openUndoBlock()`/`closeUndoBlock()` pair around a sequence of recording
primitives — calling `undo()` once per recorded (non-empty) transaction
restores the exact pane contents (line text, modified flags, every
`Line` field) and block partition from before the run, and calling
`redo()` the same number of times restores the exact post-run state.
By construction `undo` applies a popped block's records in reverse
order of recording (`undoList` folds over `block[::-1]`) and `redo`
applies them in original order (`redoList`).  `validTxs` states the
preconditions under which the Python primitives raise no exception and
record exact inverses: indices in range, text updates on present lines,
spacer deletion of genuine spacer rows, and `replaceLines` passed the
pane's current contents as the old contents, as the viewer's callers do. -/
theorem undo_redo_round_trip (v0 : Viewer) (txs : List (List Op))
    (hmode : v0.mode = LINE_MODE ∨ v0.mode = CHAR_MODE)
    (hblk : v0.undoblock = none)
    (hvalid : validTxs v0 txs = true) :
    proj (undoN (txs.filter (fun t => !t.isEmpty)).length (doTxs v0 txs)) = proj v0 ∧
    proj (redoN (txs.filter (fun t => !t.isEmpty)).length
        (undoN (txs.filter (fun t => !t.isEmpty)).length (doTxs v0 txs))) =
      proj (doTxs v0 txs) := by
  obtain ⟨blocks, d1, d2, d3, d4, dch⟩ := doTxs_good txs v0 hblk hvalid
  rw [← d4]
  obtain ⟨u1, u2, u3, u4⟩ := undoAll hmode dch (doTxs v0 txs) v0.undos d2 rfl
  obtain ⟨r1, r2, r3, r4⟩ := redoAll hmode dch (undoN blocks.length (doTxs v0 txs))
    (doTxs v0 txs).redos u3 u1
  constructor
  · obtain ⟨e1, e2, e3⟩ := obs_parts u1
    simp [proj, obs, e1, e2]
  · obtain ⟨e1, e2, e3⟩ := obs_parts r1
    simp [proj, obs, e1, e2]

/-- C9 (confirmed): `closeUndoBlock()` discards a transaction that
recorded no mutation records — the viewer is unchanged except that the
open block is cleared, so in particular the undo stack is untouched —
and for a transaction with at least one record it pushes that record
list onto the undo stack and clears the redo stack. -/
theorem closeUndoBlock_spec (v : Viewer) (b : List Rec)
    (h : v.undoblock = some b) :
    (b = [] → closeUndoBlock v = { v with undoblock := none }) ∧
    (b ≠ [] → closeUndoBlock v =
      { v with undos := v.undos ++ [b], redos := [], undoblock := none }) := by
  constructor
  · intro hb
    subst hb
    simp [closeUndoBlock, h]
  · intro hb
    have hpos : b.length > 0 := List.length_pos.mpr hb
    simp [closeUndoBlock, h, hpos]

/-- C10 (confirmed): an open transaction survives `undo()` and `redo()`
exactly as it was — both stash the open block, replay with it cleared,
and restore it verbatim — and none of the state changes performed while
applying a popped block's records is recorded into it: with no open
block, no record's `undo` or `redo` method appends anything. -/
theorem undo_redo_frame (v : Viewer) (b : List Rec)
    (h : v.undoblock = some b) :
    (undo v).undoblock = some b ∧ (redo v).undoblock = some b ∧
    (∀ (r : Rec) (w : Viewer), w.undoblock = none →
      (recUndo r w).undoblock = none ∧ (recRedo r w).undoblock = none) := by
  refine ⟨?_, ?_, fun r w hw => ⟨recUndo_undoblock r w hw, recRedo_undoblock r w hw⟩⟩
  · simp [undo, h]
  · simp [redo, h]

def demoLineA : Line := ⟨some 1, some "a", false, none⟩

def demoLineB : Line := ⟨some 1, some "b", false, none⟩

def demoViewer : Viewer :=
  { panes := [⟨[some demoLineA, none], 0, 1⟩, ⟨[some demoLineB, none], 0, 1⟩],
    blocks := [2], mode := LINE_MODE, current_pane := 1, current_line := 0,
    current_char := 0, selection_line := 0, selection_char := 0, cursor_column := -1,
    undos := [], redos := [], undoblock := none }

def demoTxs : List (List Op) :=
  [[Op.updateLineText 0 0 true (some "x"), Op.updateBlocks [1, 1]],
   [],
   [Op.insertNull 1 2 false, Op.swapPanes 0 1]]

theorem undo_redo_round_trip_witness :
    (demoViewer.mode = LINE_MODE ∨ demoViewer.mode = CHAR_MODE) ∧
    demoViewer.undoblock = none ∧
    validTxs demoViewer demoTxs = true ∧
    (proj (undoN (demoTxs.filter (fun t => !t.isEmpty)).length
          (doTxs demoViewer demoTxs)) = proj demoViewer ∧
      proj (redoN (demoTxs.filter (fun t => !t.isEmpty)).length
          (undoN (demoTxs.filter (fun t => !t.isEmpty)).length
            (doTxs demoViewer demoTxs))) = proj (doTxs demoViewer demoTxs)) :=
  ⟨Or.inl rfl, rfl, by decide,
    undo_redo_round_trip demoViewer demoTxs (Or.inl rfl) rfl (by decide)⟩

def demoOpen9 : Viewer :=
  { panes := [⟨[none], 0, 0⟩, ⟨[none], 0, 0⟩], blocks := [1], mode := LINE_MODE,
    current_pane := 1, current_line := 0, current_char := 0, selection_line := 0,
    selection_char := 0, cursor_column := -1,
    undos := [[Rec.alignmentChange false]], redos := [[Rec.alignmentChange false]],
    undoblock := some [Rec.alignmentChange true] }

theorem closeUndoBlock_spec_witness :
    demoOpen9.undoblock = some [Rec.alignmentChange true] ∧
    ([Rec.alignmentChange true] ≠ ([] : List Rec) ∧
      closeUndoBlock demoOpen9 =
        { demoOpen9 with
            undos := demoOpen9.undos ++ [[Rec.alignmentChange true]],
            redos := [], undoblock := none }) :=
  ⟨rfl, by simp,
    (closeUndoBlock_spec demoOpen9 [Rec.alignmentChange true] rfl).2 (by simp)⟩

def demoOpen10 : Viewer :=
  { panes := [⟨[none], 0, 0⟩, ⟨[none], 0, 0⟩], blocks := [1], mode := LINE_MODE,
    current_pane := 1, current_line := 0, current_char := 0, selection_line := 0,
    selection_char := 0, cursor_column := -1,
    undos := [[Rec.updateBlocks [2] [1, 1]]], redos := [],
    undoblock := some [Rec.alignmentChange true] }

def demoQuiet10 : Viewer :=
  { panes := [⟨[none], 0, 0⟩, ⟨[none], 0, 0⟩], blocks := [1], mode := LINE_MODE,
    current_pane := 1, current_line := 0, current_char := 0, selection_line := 0,
    selection_char := 0, cursor_column := -1,
    undos := [], redos := [], undoblock := none }

theorem undo_redo_frame_witness :
    demoOpen10.undoblock = some [Rec.alignmentChange true] ∧
    (undo demoOpen10).undoblock = some [Rec.alignmentChange true] ∧
    demoQuiet10.undoblock = none ∧
    (recUndo (Rec.updateBlocks [2] [1, 1]) demoQuiet10).undoblock = none :=
  ⟨rfl, (undo_redo_frame demoOpen10 [Rec.alignmentChange true] rfl).1, rfl,
    ((undo_redo_frame demoOpen10 [Rec.alignmentChange true] rfl).2.2
      (Rec.updateBlocks [2] [1, 1]) demoQuiet10 rfl).1⟩


section AlignBlocksPost

variable {α : Type _} [DecidableEq α]

theorem insertIdx_tcd {β : Type _} (x : β) :
    ∀ (l : List β) (i : Nat), i ≤ l.length →
      l.insertIdx i x = l.take i ++ x :: l.drop i
  | l, 0, _ => by simp
  | [], i + 1, h => by simp at h
  | b :: l, i + 1, h => by
    simp only [List.insertIdx_succ_cons, List.take_succ_cons, List.drop_succ_cons,
      List.cons_append]
    rw [insertIdx_tcd x l i (by simpa using h)]

/-- The Python clamped insert is a take/drop split (the saturating
`take`/`drop` reproduce the clamping for any index). -/
theorem pyinsertOpt_tcd (l : List (Option α)) (i : Nat) :
    pyinsertOpt l i = l.take i ++ none :: l.drop i := by
  unfold pyinsertOpt
  by_cases h : i ≥ l.length
  · rw [if_pos h, List.take_all_of_le h, List.drop_eq_nil_of_le h]
  · push_neg at h
    rw [if_neg (by omega)]
    exact insertIdx_tcd none l i (le_of_lt h)

theorem pyinsertOpt_length (l : List (Option α)) (i : Nat) (h : i ≤ l.length) :
    (pyinsertOpt l i).length = l.length + 1 := by
  rw [pyinsertOpt_tcd]
  simp
  omega

theorem pyinsertOpt_getRow_lt (l : List (Option α)) (i r : Nat) (h : r < i)
    (hi : i ≤ l.length) :
    getRow (pyinsertOpt l i) r = getRow l r := by
  rw [pyinsertOpt_tcd, getRow, getRow, List.get?_eq_getElem?, List.get?_eq_getElem?,
    List.getElem?_append]
  rw [if_pos (by simp [List.length_take]; omega : r < (l.take i).length)]
  rw [List.getElem?_take, if_pos h]

theorem pyinsertOpt_drop_succ (l : List (Option α)) (i : Nat) (hi : i ≤ l.length) :
    (pyinsertOpt l i).drop (i + 1) = l.drop i := by
  rw [pyinsertOpt_tcd]
  have hlen : (l.take i).length = i := by simp [List.length_take]; omega
  rw [show l.take i ++ none :: l.drop i = (l.take i ++ [none]) ++ l.drop i from by simp]
  rw [show i + 1 = (l.take i ++ [none] : List (Option α)).length from by simp [hlen]]
  exact List.drop_left _ _

theorem pyinsertOpt_filterMap (l : List (Option α)) (i : Nat) :
    (pyinsertOpt l i).filterMap id = l.filterMap id := by
  rw [pyinsertOpt_tcd]
  have h : List.filterMap id (none :: l.drop i) = List.filterMap id (l.drop i) := by simp
  rw [List.filterMap_append, h, ← List.filterMap_append, List.take_append_drop]


theorem abLoop_break (s1 s2 : List (Option α)) (nmatch fuel i k : Nat)
    (lb rb : List Nat) (L R : List (List (Option α)))
    (hb : i ≥ ((L.getLast?).getD []).length ∧ i ≥ ((R.head?).getD []).length) :
    abLoop s1 s2 nmatch (fuel + 1) i k lb rb L R = some (lb, rb, L, R) := by
  simp only [abLoop]
  rw [if_pos hb]

theorem abLoop_step (s1 s2 : List (Option α)) (nmatch fuel i k : Nat)
    (lb rb : List Nat) (L R : List (List (Option α)))
    (hnb : ¬(i ≥ ((L.getLast?).getD []).length ∧ i ≥ ((R.head?).getD []).length))
    (ins0 ins1 : Bool) (k2 : Nat)
    (hstep : (if i < ((L.getLast?).getD []).length ∧ i < ((R.head?).getD []).length ∧
          k < nmatch then
        if (getRow ((L.getLast?).getD []) i ≠ getRow s1 k ∧ getRow s1 k ≠ none) ∨
            (getRow ((R.head?).getD []) i ≠ getRow s2 k ∧ getRow s2 k ≠ none) then
          ((getRow ((L.getLast?).getD []) i).isSome,
            (getRow ((R.head?).getD []) i).isSome, k)
        else
          (decide (getRow ((L.getLast?).getD []) i ≠ getRow s1 k ∧ getRow s1 k = none),
            decide (getRow ((R.head?).getD []) i ≠ getRow s2 k ∧ getRow s2 k = none),
            k + 1)
      else
        (decide (i ≥ ((L.getLast?).getD []).length),
          decide (i ≥ ((R.head?).getD []).length), k)) = (ins0, ins1, k2)) :
    abLoop s1 s2 nmatch (fuel + 1) i k lb rb L R =
      abLoop s1 s2 nmatch fuel (i + 1) k2
        (if ins0 then incrBlocks lb i else lb)
        (if ins1 then incrBlocks rb i else rb)
        (if ins0 then L.map (fun t => pyinsertOpt t i) else L)
        (if ins1 then R.map (fun t => pyinsertOpt t i) else R) := by
  simp only [abLoop]
  rw [if_neg hnb, hstep]


theorem getLast_getD_map (L : List (List (Option α))) (hL : L ≠ [])
    (f : List (Option α) → List (Option α)) :
    (((L.map f).getLast?).getD []) = f ((L.getLast?).getD []) := by
  obtain ⟨x, hx⟩ := Option.isSome_iff_exists.mp (List.getLast?_isSome.mpr hL)
  rw [List.getLast?_map, hx]
  rfl

theorem head_getD_map (L : List (List (Option α))) (hL : L ≠ [])
    (f : List (Option α) → List (Option α)) :
    (((L.map f).head?).getD []) = f ((L.head?).getD []) := by
  obtain ⟨x, xs, rfl⟩ := List.exists_cons_of_ne_nil hL
  rfl

theorem drop_eq_getRow_cons (l : List (Option α)) (i : Nat) (hi : i < l.length) :
    l.drop i = getRow l i :: l.drop (i + 1) := by
  rw [List.drop_eq_getElem_cons hi, getRow, List.get?_eq_getElem?,
    List.getElem?_eq_getElem hi]
  rfl

theorem getRow_of_stream_nil (l : List (Option α)) (k k2 : Nat) (hk : k ≤ k2)
    (h : (l.drop k).filterMap id = []) : getRow l k2 = none := by
  by_cases hlt : k2 < l.length
  · have hmem : l[k2] ∈ l.drop k := by
      have := List.getElem?_drop l k (k2 - k)
      rw [show k + (k2 - k) = k2 from by omega] at this
      exact List.mem_iff_getElem?.mpr ⟨k2 - k, by rw [this]; exact List.getElem?_eq_getElem hlt⟩
    have := (List.filterMap_eq_nil.mp h) _ hmem
    rw [getRow, List.get?_eq_getElem?, List.getElem?_eq_getElem hlt]
    simpa using this
  · rw [getRow, List.get?_eq_getElem?, List.getElem?_eq_none (by omega)]
    rfl

/-- Endgame of the row walk: once one side is exhausted (or the
neighbour pairs are), the loop pads the exhausted side row for row
until both sides have the common length, touching no earlier row. -/
theorem abLoop_endgame (s1 s2 : List (Option α)) (nmatch : Nat) :
    ∀ (fuel i k : Nat) (lb rb : List Nat) (L R : List (List (Option α))),
    L ≠ [] → R ≠ [] →
    (∀ t ∈ L, t.length = ((L.getLast?).getD []).length) →
    (∀ t ∈ R, t.length = ((R.head?).getD []).length) →
    i ≤ ((L.getLast?).getD []).length →
    i ≤ ((R.head?).getD []).length →
    (i = ((L.getLast?).getD []).length ∨ i = ((R.head?).getD []).length ∨ nmatch ≤ k) →
    (((L.getLast?).getD []).length - i) + (((R.head?).getD []).length - i) + 1 ≤ fuel →
    ∃ lb2 rb2 L2 R2,
      abLoop s1 s2 nmatch fuel i k lb rb L R = some (lb2, rb2, L2, R2) ∧
      (∃ n, (∀ t ∈ L2, t.length = n) ∧ (∀ t ∈ R2, t.length = n)) ∧
      (∃ posL : List Nat,
        L2 = L.map fun t => posL.foldl (fun u p => pyinsertOpt u p) t) ∧
      (∃ posR : List Nat,
        R2 = R.map fun t => posR.foldl (fun u p => pyinsertOpt u p) t) ∧
      (∀ r, r < i →
        getRow ((L2.getLast?).getD []) r = getRow ((L.getLast?).getD []) r ∧
        getRow ((R2.head?).getD []) r = getRow ((R.head?).getD []) r) := by
  intro fuel
  induction fuel with
  | zero =>
    intro i k lb rb L R _ _ _ _ _ _ _ hfuel
    omega
  | succ f ihf =>
    intro i k lb rb L R hL hR hLu hRu hi0 hi1 hdisj hfuel
    by_cases hb : i ≥ ((L.getLast?).getD []).length ∧ i ≥ ((R.head?).getD []).length
    · refine ⟨lb, rb, L, R, abLoop_break s1 s2 nmatch f i k lb rb L R hb, ?_, ?_, ?_, ?_⟩
      · exact ⟨i, fun t ht => by rw [hLu t ht]; omega, fun t ht => by rw [hRu t ht]; omega⟩
      · exact ⟨[], by simp⟩
      · exact ⟨[], by simp⟩
      · exact fun r _ => ⟨rfl, rfl⟩
    · have hA : ¬(i < ((L.getLast?).getD []).length ∧ i < ((R.head?).getD []).length ∧
          k < nmatch) := by
        rcases hdisj with h | h | h
        · intro hc
          omega
        · intro hc
          omega
        · intro hc
          omega
      rw [abLoop_step s1 s2 nmatch f i k lb rb L R hb _ _ _ (if_neg hA)]
      by_cases h0 : i ≥ ((L.getLast?).getD []).length
      · -- left side exhausted: pad left, the right side still has rows
        have hi0e : i = ((L.getLast?).getD []).length := by omega
        have h1 : ¬(i ≥ ((R.head?).getD []).length) := fun hc => hb ⟨h0, hc⟩
        have e0 : decide (i ≥ ((L.getLast?).getD ([] : List (Option α))).length) = true := by
          rw [decide_eq_true_eq]
          exact h0
        have e1 : ¬(decide (i ≥ ((R.head?).getD ([] : List (Option α))).length) = true) := by
          rw [decide_eq_true_eq]
          exact h1
        rw [if_pos e0, if_neg e1, if_pos e0, if_neg e1]
        have hmapL : (((L.map fun t => pyinsertOpt t i).getLast?).getD []) =
            pyinsertOpt ((L.getLast?).getD []) i := getLast_getD_map L hL _
        obtain ⟨lb2, rb2, L2, R2, hrec, hlen, hmirL, hmirR, hrows⟩ :=
          ihf (i + 1) k (incrBlocks lb i) rb (L.map fun t => pyinsertOpt t i) R
            (by simp [hL]) hR
            (by
              intro t ht
              obtain ⟨t0, ht0, rfl⟩ := List.mem_map.mp ht
              rw [hmapL, pyinsertOpt_length _ _ hi0,
                pyinsertOpt_length _ _ (by rw [hLu t0 ht0]; exact hi0)]
              rw [hLu t0 ht0])
            hRu
            (by rw [hmapL, pyinsertOpt_length _ _ hi0]; omega)
            (by omega)
            (Or.inl (by rw [hmapL, pyinsertOpt_length _ _ hi0]; omega))
            (by rw [hmapL, pyinsertOpt_length _ _ hi0]; omega)
        refine ⟨lb2, rb2, L2, R2, hrec, hlen, ?_, hmirR, ?_⟩
        · obtain ⟨posL, hposL⟩ := hmirL
          refine ⟨i :: posL, ?_⟩
          rw [hposL, List.map_map]
          rfl
        · intro r hr
          obtain ⟨hrL, hrR⟩ := hrows r (by omega)
          constructor
          · rw [hrL, hmapL, pyinsertOpt_getRow_lt _ _ _ hr hi0]
          · exact hrR
      · by_cases h1 : i ≥ ((R.head?).getD []).length
        · -- right side exhausted
          have hi1e : i = ((R.head?).getD []).length := by omega
          have e0 : ¬(decide (i ≥ ((L.getLast?).getD ([] : List (Option α))).length)
              = true) := by
            rw [decide_eq_true_eq]
            exact h0
          have e1 : decide (i ≥ ((R.head?).getD ([] : List (Option α))).length) = true := by
            rw [decide_eq_true_eq]
            exact h1
          rw [if_neg e0, if_pos e1, if_neg e0, if_pos e1]
          have hmapR : (((R.map fun t => pyinsertOpt t i).head?).getD []) =
              pyinsertOpt ((R.head?).getD []) i := head_getD_map R hR _
          obtain ⟨lb2, rb2, L2, R2, hrec, hlen, hmirL, hmirR, hrows⟩ :=
            ihf (i + 1) k lb (incrBlocks rb i) L (R.map fun t => pyinsertOpt t i)
              hL (by simp [hR]) hLu
              (by
                intro t ht
                obtain ⟨t0, ht0, rfl⟩ := List.mem_map.mp ht
                rw [hmapR, pyinsertOpt_length _ _ hi1,
                  pyinsertOpt_length _ _ (by rw [hRu t0 ht0]; exact hi1)]
                rw [hRu t0 ht0])
              (by omega)
              (by rw [hmapR, pyinsertOpt_length _ _ hi1]; omega)
              (Or.inr (Or.inl (by rw [hmapR, pyinsertOpt_length _ _ hi1]; omega)))
              (by rw [hmapR, pyinsertOpt_length _ _ hi1]; omega)
          refine ⟨lb2, rb2, L2, R2, hrec, hlen, hmirL, ?_, ?_⟩
          · obtain ⟨posR, hposR⟩ := hmirR
            refine ⟨i :: posR, ?_⟩
            rw [hposR, List.map_map]
            rfl
          · intro r hr
            obtain ⟨hrL, hrR⟩ := hrows r (by omega)
            constructor
            · exact hrL
            · rw [hrR, hmapR, pyinsertOpt_getRow_lt _ _ _ hr hi1]
        · -- pairs exhausted, both sides still have rows
          have hk : nmatch ≤ k := by
            rcases hdisj with h | h | h
            · omega
            · omega
            · exact h
          have e0 : ¬(decide (i ≥ ((L.getLast?).getD ([] : List (Option α))).length)
              = true) := by
            rw [decide_eq_true_eq]
            exact h0
          have e1 : ¬(decide (i ≥ ((R.head?).getD ([] : List (Option α))).length)
              = true) := by
            rw [decide_eq_true_eq]
            exact h1
          rw [if_neg e0, if_neg e1, if_neg e0, if_neg e1]
          obtain ⟨lb2, rb2, L2, R2, hrec, hlen, hmirL, hmirR, hrows⟩ :=
            ihf (i + 1) k lb rb L R hL hR hLu hRu (by omega) (by omega)
              (Or.inr (Or.inr hk)) (by omega)
          exact ⟨lb2, rb2, L2, R2, hrec, hlen, hmirL, hmirR,
            fun r hr => hrows r (by omega)⟩


theorem getRow_ne_none_lt (l : List (Option α)) (k : Nat) (h : getRow l k ≠ none) :
    k < l.length := by
  by_contra hk
  apply h
  rw [getRow, List.get?_eq_getElem?, List.getElem?_eq_none (by omega)]
  rfl

/-- If the remaining value streams agree and both current positions hold
real lines, the lines are equal. -/
theorem sync_real_eq (mid s : List (Option α)) (i k : Nat)
    (hi : i < mid.length)
    (hsync : (mid.drop i).filterMap id = (s.drop k).filterMap id)
    (hreal : getRow s k ≠ none) (hrow : getRow mid i ≠ none) :
    getRow mid i = getRow s k := by
  have hk : k < s.length := getRow_ne_none_lt s k hreal
  obtain ⟨x, hx⟩ := Option.ne_none_iff_exists.mp hrow
  obtain ⟨y, hy⟩ := Option.ne_none_iff_exists.mp hreal
  rw [drop_eq_getRow_cons mid i hi, drop_eq_getRow_cons s k hk, ← hx, ← hy] at hsync
  simp only [List.filterMap_cons, id] at hsync
  rw [List.cons.injEq] at hsync
  obtain ⟨hxy, -⟩ := hsync
  rw [← hx, ← hy, hxy]

/-- Either a spacer is inserted or the current row is a spacer: in both
cases the value stream past the advanced row is unchanged. -/
theorem side_new_stream (mid s : List (Option α)) (i k : Nat) (b : Bool)
    (hi : i < mid.length)
    (hsync : (mid.drop i).filterMap id = (s.drop k).filterMap id)
    (hnull : b = false → getRow mid i = none) :
    ((if b = true then pyinsertOpt mid i else mid).drop (i + 1)).filterMap id =
      (s.drop k).filterMap id := by
  cases b with
  | true =>
    rw [if_pos rfl, pyinsertOpt_drop_succ mid i (le_of_lt hi)]
    exact hsync
  | false =>
    rw [if_neg (by simp)]
    rw [drop_eq_getRow_cons mid i hi, hnull rfl] at hsync
    simpa using hsync

/-- Consuming a spacer entry of the alignment sequence leaves its value
stream unchanged. -/
theorem side_null_consume (s : List (Option α)) (k : Nat)
    (h : getRow s k = none) :
    (s.drop (k + 1)).filterMap id = (s.drop k).filterMap id := by
  by_cases hk : k < s.length
  · rw [drop_eq_getRow_cons s k hk, h]
    simp
  · rw [List.drop_eq_nil_of_le (by omega), List.drop_eq_nil_of_le (by omega)]

/-- Consuming a real matched entry drops its value from the stream. -/
theorem side_real_stream (mid s : List (Option α)) (i k : Nat)
    (hi : i < mid.length)
    (hsync : (mid.drop i).filterMap id = (s.drop k).filterMap id)
    (hreal : getRow s k ≠ none)
    (heq : getRow mid i = getRow s k) :
    (mid.drop (i + 1)).filterMap id = (s.drop (k + 1)).filterMap id := by
  have hk : k < s.length := getRow_ne_none_lt s k hreal
  obtain ⟨y, hy⟩ := Option.ne_none_iff_exists.mp hreal
  rw [drop_eq_getRow_cons mid i hi, drop_eq_getRow_cons s k hk, heq, ← hy] at hsync
  simpa using hsync

theorem mid_if (L : List (List (Option α))) (hL : L ≠ []) (b : Bool) (i : Nat) :
    (((if b = true then L.map (fun t => pyinsertOpt t i) else L).getLast?).getD []) =
      (if b = true then pyinsertOpt ((L.getLast?).getD []) i
       else (L.getLast?).getD []) := by
  cases b
  · simp
  · rw [if_pos rfl, if_pos rfl]
    exact getLast_getD_map L hL _

theorem midR_if (R : List (List (Option α))) (hR : R ≠ []) (b : Bool) (i : Nat) :
    (((if b = true then R.map (fun t => pyinsertOpt t i) else R).head?).getD []) =
      (if b = true then pyinsertOpt ((R.head?).getD []) i
       else (R.head?).getD []) := by
  cases b
  · simp
  · rw [if_pos rfl, if_pos rfl]
    exact head_getD_map R hR _

theorem len_if (mid : List (Option α)) (b : Bool) (i : Nat) (hi : i ≤ mid.length) :
    (if b = true then pyinsertOpt mid i else mid).length =
      mid.length + (if b = true then 1 else 0) := by
  cases b
  · simp
  · simp [pyinsertOpt_length mid i hi]

theorem rows_if (mid : List (Option α)) (b : Bool) (i r : Nat) (hr : r < i)
    (hi : i ≤ mid.length) :
    getRow (if b = true then pyinsertOpt mid i else mid) r = getRow mid r := by
  cases b
  · simp
  · simp [pyinsertOpt_getRow_lt mid i r hr hi]

theorem nenil_if (L : List (List (Option α))) (hL : L ≠ []) (b : Bool) (i : Nat) :
    (if b = true then L.map (fun t => pyinsertOpt t i) else L) ≠ [] := by
  cases b <;> simp [hL]

theorem mirror_if (L : List (List (Option α))) (b : Bool) (i : Nat) (pos2 : List Nat) :
    ((if b = true then L.map (fun t => pyinsertOpt t i) else L).map
        fun t => pos2.foldl (fun u p => pyinsertOpt u p) t) =
      L.map fun t =>
        ((if b = true then i :: pos2 else pos2).foldl (fun u p => pyinsertOpt u p) t) := by
  cases b
  · simp
  · rw [if_pos rfl, if_pos rfl, List.map_map]
    rfl

theorem uniform_if (L : List (List (Option α))) (hL : L ≠ []) (b : Bool) (i : Nat)
    (hu : ∀ t ∈ L, t.length = ((L.getLast?).getD []).length)
    (hi : i ≤ ((L.getLast?).getD []).length) :
    ∀ t ∈ (if b = true then L.map (fun t => pyinsertOpt t i) else L),
      t.length =
        (((if b = true then L.map (fun t => pyinsertOpt t i) else L).getLast?).getD
          []).length := by
  intro t ht
  rw [mid_if L hL b i]
  cases b with
  | true =>
    rw [if_pos rfl] at ht ⊢
    obtain ⟨t0, ht0, rfl⟩ := List.mem_map.mp ht
    rw [pyinsertOpt_length _ _ hi, pyinsertOpt_length _ _ (by rw [hu t0 ht0]; exact hi),
      hu t0 ht0]
  | false =>
    rw [if_neg (by simp)] at ht ⊢
    exact hu t ht

theorem uniformR_if (R : List (List (Option α))) (hR : R ≠ []) (b : Bool) (i : Nat)
    (hu : ∀ t ∈ R, t.length = ((R.head?).getD []).length)
    (hi : i ≤ ((R.head?).getD []).length) :
    ∀ t ∈ (if b = true then R.map (fun t => pyinsertOpt t i) else R),
      t.length =
        (((if b = true then R.map (fun t => pyinsertOpt t i) else R).head?).getD
          []).length := by
  intro t ht
  rw [midR_if R hR b i]
  cases b with
  | true =>
    rw [if_pos rfl] at ht ⊢
    obtain ⟨t0, ht0, rfl⟩ := List.mem_map.mp ht
    rw [pyinsertOpt_length _ _ hi, pyinsertOpt_length _ _ (by rw [hu t0 ht0]; exact hi),
      hu t0 ht0]
  | false =>
    rw [if_neg (by simp)] at ht ⊢
    exact hu t ht


set_option maxHeartbeats 2000000 in
/-- Main walk invariant: while the spacered alignment sequences and the
middle rows carry the same streams of real lines, the row walk aligns
every real neighbour pair on a common row, keeps all sequences of a
side in lockstep, and ends with both sides at a common length. -/
theorem abLoop_sync (s1 s2 : List (Option α)) (nmatch : Nat)
    (hn1 : s1.length ≤ nmatch) :
    ∀ (fuel i k : Nat) (lb rb : List Nat) (L R : List (List (Option α))),
    L ≠ [] → R ≠ [] →
    (∀ t ∈ L, t.length = ((L.getLast?).getD []).length) →
    (∀ t ∈ R, t.length = ((R.head?).getD []).length) →
    i ≤ ((L.getLast?).getD []).length →
    i ≤ ((R.head?).getD []).length →
    ((((L.getLast?).getD []).drop i).filterMap id = (s1.drop k).filterMap id) →
    ((((R.head?).getD []).drop i).filterMap id = (s2.drop k).filterMap id) →
    ((((L.getLast?).getD []).length - i) + (((R.head?).getD []).length - i) +
      2 * (nmatch - k) + 1 ≤ fuel) →
    ∃ lb2 rb2 L2 R2,
      abLoop s1 s2 nmatch fuel i k lb rb L R = some (lb2, rb2, L2, R2) ∧
      (∃ n, (∀ t ∈ L2, t.length = n) ∧ (∀ t ∈ R2, t.length = n)) ∧
      (∃ posL : List Nat,
        L2 = L.map fun t => posL.foldl (fun u p => pyinsertOpt u p) t) ∧
      (∃ posR : List Nat,
        R2 = R.map fun t => posR.foldl (fun u p => pyinsertOpt u p) t) ∧
      (∀ r, r < i →
        getRow ((L2.getLast?).getD []) r = getRow ((L.getLast?).getD []) r ∧
        getRow ((R2.head?).getD []) r = getRow ((R.head?).getD []) r) ∧
      (∀ k2, k ≤ k2 → getRow s1 k2 ≠ none → getRow s2 k2 ≠ none →
        ∃ r, getRow ((L2.getLast?).getD []) r = getRow s1 k2 ∧
          getRow ((R2.head?).getD []) r = getRow s2 k2) := by
  intro fuel
  induction fuel with
  | zero =>
    intro i k lb rb L R _ _ _ _ _ _ _ _ hfuel
    omega
  | succ f ihf =>
    intro i k lb rb L R hL hR hLu hRu hi0 hi1 hsync0 hsync1 hfuel
    by_cases hb : i ≥ ((L.getLast?).getD []).length ∧ i ≥ ((R.head?).getD []).length
    · have hs1nil : (s1.drop k).filterMap id = [] := by
        rw [← hsync0, List.drop_eq_nil_of_le (by omega)]
        rfl
      refine ⟨lb, rb, L, R, abLoop_break s1 s2 nmatch f i k lb rb L R hb,
        ⟨i, fun t ht => by rw [hLu t ht]; omega, fun t ht => by rw [hRu t ht]; omega⟩,
        ⟨[], by simp⟩, ⟨[], by simp⟩, fun r _ => ⟨rfl, rfl⟩, ?_⟩
      intro k2 hk2 hr1 _
      exact absurd (getRow_of_stream_nil s1 k k2 hk2 hs1nil) hr1
    · by_cases hA : i < ((L.getLast?).getD []).length ∧
          i < ((R.head?).getD []).length ∧ k < nmatch
      · obtain ⟨hA0, hA1, hAk⟩ := hA
        by_cases hna : (getRow ((L.getLast?).getD []) i ≠ getRow s1 k ∧
              getRow s1 k ≠ none) ∨
            (getRow ((R.head?).getD []) i ≠ getRow s2 k ∧ getRow s2 k ≠ none)
        · -- the expected neighbour pairing is not possible here: insert
          -- spacers opposite any real rows and keep the pair
          rw [abLoop_step s1 s2 nmatch f i k lb rb L R hb
            ((getRow ((L.getLast?).getD []) i).isSome)
            ((getRow ((R.head?).getD []) i).isSome) k
            (by rw [if_pos ⟨hA0, hA1, hAk⟩, if_pos hna])]
          have hnotboth : (getRow ((L.getLast?).getD []) i).isSome = false ∨
              (getRow ((R.head?).getD []) i).isSome = false := by
            rcases hna with ⟨hne, hreal⟩ | ⟨hne, hreal⟩
            · left
              cases hrow : getRow ((L.getLast?).getD []) i with
              | none => rfl
              | some x =>
                exact absurd (sync_real_eq _ s1 i k hA0 hsync0 hreal (by rw [hrow]; simp))
                  (by rw [hrow] at hne; rw [hrow]; exact hne)
            · right
              cases hrow : getRow ((R.head?).getD []) i with
              | none => rfl
              | some x =>
                exact absurd (sync_real_eq _ s2 i k hA1 hsync1 hreal (by rw [hrow]; simp))
                  (by rw [hrow] at hne; rw [hrow]; exact hne)
          have hlen0a := len_if ((L.getLast?).getD []) ((getRow ((L.getLast?).getD []) i).isSome) i hi0
          have hlen1a := len_if ((R.head?).getD []) ((getRow ((R.head?).getD []) i).isSome) i hi1
          obtain ⟨lb2, rb2, L2, R2, hrec, hlen, hmirL, hmirR, hrows, hpairs⟩ :=
            ihf (i + 1) k
              (if (getRow ((L.getLast?).getD []) i).isSome then incrBlocks lb i else lb)
              (if (getRow ((R.head?).getD []) i).isSome then incrBlocks rb i else rb)
              (if (getRow ((L.getLast?).getD []) i).isSome then
                L.map (fun t => pyinsertOpt t i) else L)
              (if (getRow ((R.head?).getD []) i).isSome then
                R.map (fun t => pyinsertOpt t i) else R)
              (nenil_if L hL _ i) (nenil_if R hR _ i)
              (uniform_if L hL _ i hLu hi0) (uniformR_if R hR _ i hRu hi1)
              (by rw [mid_if L hL _ i, hlen0a]; cases hc : (getRow ((L.getLast?).getD []) i).isSome <;> simp <;> omega)
              (by rw [midR_if R hR _ i, hlen1a]; cases hc : (getRow ((R.head?).getD []) i).isSome <;> simp <;> omega)
              (by
                rw [mid_if L hL _ i]
                exact side_new_stream _ s1 i k _ hA0 hsync0
                  (fun hf => Option.not_isSome_iff_eq_none.mp (by simp [hf])))
              (by
                rw [midR_if R hR _ i]
                exact side_new_stream _ s2 i k _ hA1 hsync1
                  (fun hf => Option.not_isSome_iff_eq_none.mp (by simp [hf])))
              (by
                rw [mid_if L hL _ i, midR_if R hR _ i, hlen0a, hlen1a]
                rcases hnotboth with hc | hc <;> rw [hc] <;>
                  cases hc2 : (getRow ((L.getLast?).getD []) i).isSome <;>
                  cases hc3 : (getRow ((R.head?).getD []) i).isSome <;>
                  simp_all <;> omega)
          refine ⟨lb2, rb2, L2, R2, hrec, hlen, ?_, ?_, ?_, ?_⟩
          · obtain ⟨posL, hposL⟩ := hmirL
            exact ⟨(if (getRow ((L.getLast?).getD []) i).isSome then i :: posL else posL),
              by rw [hposL, mirror_if]⟩
          · obtain ⟨posR, hposR⟩ := hmirR
            exact ⟨(if (getRow ((R.head?).getD []) i).isSome then i :: posR else posR),
              by rw [hposR, mirror_if]⟩
          · intro r hr
            obtain ⟨hrL, hrR⟩ := hrows r (by omega)
            refine ⟨?_, ?_⟩
            · rw [hrL, mid_if L hL _ i, rows_if _ _ i r hr hi0]
            · rw [hrR, midR_if R hR _ i, rows_if _ _ i r hr hi1]
          · exact hpairs
        · -- accepted: the pair matches here (spacers only where a spacer
          -- was expected); move to the next pair
          obtain ⟨h0, h1⟩ := not_or.mp hna
          rw [abLoop_step s1 s2 nmatch f i k lb rb L R hb
            (decide (getRow ((L.getLast?).getD []) i ≠ getRow s1 k ∧ getRow s1 k = none))
            (decide (getRow ((R.head?).getD []) i ≠ getRow s2 k ∧ getRow s2 k = none))
            (k + 1)
            (by rw [if_pos ⟨hA0, hA1, hAk⟩, if_neg hna])]
          have hst0 : ((((if (decide (getRow ((L.getLast?).getD []) i ≠ getRow s1 k ∧
                  getRow s1 k = none)) = true then
                L.map (fun t => pyinsertOpt t i) else L).getLast?).getD []).drop
                (i + 1)).filterMap id = (s1.drop (k + 1)).filterMap id := by
            rw [mid_if L hL _ i]
            cases hm0 : getRow s1 k with
            | some y =>
              have hrow0 : getRow ((L.getLast?).getD []) i = some y := by
                by_contra hne
                exact h0 ⟨by rw [hm0]; exact hne, by rw [hm0]; simp⟩
              have hb0 : decide (getRow ((L.getLast?).getD []) i ≠ some y ∧
                  (some y : Option α) = none) = false := by
                rw [decide_eq_false_iff_not]
                rintro ⟨-, hc⟩
                simp at hc
              rw [hb0, if_neg (by simp)]
              exact side_real_stream _ s1 i k hA0 hsync0 (by rw [hm0]; simp)
                (by rw [hm0]; exact hrow0)
            | none =>
              rw [side_null_consume s1 k hm0]
              exact side_new_stream _ s1 i k _ hA0 hsync0
                (fun hf => by
                  rw [decide_eq_false_iff_not] at hf
                  by_contra hrow
                  exact hf ⟨hrow, rfl⟩)
          have hst1 : ((((if (decide (getRow ((R.head?).getD []) i ≠ getRow s2 k ∧
                  getRow s2 k = none)) = true then
                R.map (fun t => pyinsertOpt t i) else R).head?).getD []).drop
                (i + 1)).filterMap id = (s2.drop (k + 1)).filterMap id := by
            rw [midR_if R hR _ i]
            cases hm1 : getRow s2 k with
            | some y =>
              have hrow1 : getRow ((R.head?).getD []) i = some y := by
                by_contra hne
                exact h1 ⟨by rw [hm1]; exact hne, by rw [hm1]; simp⟩
              have hb1 : decide (getRow ((R.head?).getD []) i ≠ some y ∧
                  (some y : Option α) = none) = false := by
                rw [decide_eq_false_iff_not]
                rintro ⟨-, hc⟩
                simp at hc
              rw [hb1, if_neg (by simp)]
              exact side_real_stream _ s2 i k hA1 hsync1 (by rw [hm1]; simp)
                (by rw [hm1]; exact hrow1)
            | none =>
              rw [side_null_consume s2 k hm1]
              exact side_new_stream _ s2 i k _ hA1 hsync1
                (fun hf => by
                  rw [decide_eq_false_iff_not] at hf
                  by_contra hrow
                  exact hf ⟨hrow, rfl⟩)
          have hpk : getRow s1 k ≠ none → getRow s2 k ≠ none →
              (decide (getRow ((L.getLast?).getD []) i ≠ getRow s1 k ∧
                getRow s1 k = none) = false ∧
               decide (getRow ((R.head?).getD []) i ≠ getRow s2 k ∧
                getRow s2 k = none) = false ∧
               getRow ((L.getLast?).getD []) i = getRow s1 k ∧
               getRow ((R.head?).getD []) i = getRow s2 k) := by
            intro hr1 hr2
            have hrow0 : getRow ((L.getLast?).getD []) i = getRow s1 k := by
              by_contra hne
              exact h0 ⟨hne, hr1⟩
            have hrow1 : getRow ((R.head?).getD []) i = getRow s2 k := by
              by_contra hne
              exact h1 ⟨hne, hr2⟩
            refine ⟨?_, ?_, hrow0, hrow1⟩
            · rw [decide_eq_false_iff_not]
              rintro ⟨-, hc⟩
              exact hr1 hc
            · rw [decide_eq_false_iff_not]
              rintro ⟨-, hc⟩
              exact hr2 hc
          have hlen0a := len_if ((L.getLast?).getD [])
            (decide (getRow ((L.getLast?).getD []) i ≠ getRow s1 k ∧
              getRow s1 k = none)) i hi0
          have hlen1a := len_if ((R.head?).getD [])
            (decide (getRow ((R.head?).getD []) i ≠ getRow s2 k ∧
              getRow s2 k = none)) i hi1
          obtain ⟨lb2, rb2, L2, R2, hrec, hlen, hmirL, hmirR, hrows, hpairs⟩ :=
            ihf (i + 1) (k + 1)
              (if (decide (getRow ((L.getLast?).getD []) i ≠ getRow s1 k ∧
                getRow s1 k = none)) = true then incrBlocks lb i else lb)
              (if (decide (getRow ((R.head?).getD []) i ≠ getRow s2 k ∧
                getRow s2 k = none)) = true then incrBlocks rb i else rb)
              (if (decide (getRow ((L.getLast?).getD []) i ≠ getRow s1 k ∧
                getRow s1 k = none)) = true then L.map (fun t => pyinsertOpt t i) else L)
              (if (decide (getRow ((R.head?).getD []) i ≠ getRow s2 k ∧
                getRow s2 k = none)) = true then R.map (fun t => pyinsertOpt t i) else R)
              (nenil_if L hL _ i) (nenil_if R hR _ i)
              (uniform_if L hL _ i hLu hi0) (uniformR_if R hR _ i hRu hi1)
              (by rw [mid_if L hL _ i, hlen0a]
                  cases hc : (decide (getRow ((L.getLast?).getD []) i ≠ getRow s1 k ∧
                    getRow s1 k = none)) <;> simp <;> omega)
              (by rw [midR_if R hR _ i, hlen1a]
                  cases hc : (decide (getRow ((R.head?).getD []) i ≠ getRow s2 k ∧
                    getRow s2 k = none)) <;> simp <;> omega)
              hst0 hst1
              (by
                rw [mid_if L hL _ i, midR_if R hR _ i, hlen0a, hlen1a]
                cases hc2 : (decide (getRow ((L.getLast?).getD []) i ≠ getRow s1 k ∧
                    getRow s1 k = none)) <;>
                  cases hc3 : (decide (getRow ((R.head?).getD []) i ≠ getRow s2 k ∧
                    getRow s2 k = none)) <;>
                  simp <;> omega)
          refine ⟨lb2, rb2, L2, R2, hrec, hlen, ?_, ?_, ?_, ?_⟩
          · obtain ⟨posL, hposL⟩ := hmirL
            exact ⟨(if (decide (getRow ((L.getLast?).getD []) i ≠ getRow s1 k ∧
                getRow s1 k = none)) = true then i :: posL else posL),
              by rw [hposL, mirror_if]⟩
          · obtain ⟨posR, hposR⟩ := hmirR
            exact ⟨(if (decide (getRow ((R.head?).getD []) i ≠ getRow s2 k ∧
                getRow s2 k = none)) = true then i :: posR else posR),
              by rw [hposR, mirror_if]⟩
          · intro r hr
            obtain ⟨hrL, hrR⟩ := hrows r (by omega)
            refine ⟨?_, ?_⟩
            · rw [hrL, mid_if L hL _ i, rows_if _ _ i r hr hi0]
            · rw [hrR, midR_if R hR _ i, rows_if _ _ i r hr hi1]
          · intro k2 hk2 hr1 hr2
            rcases Nat.eq_or_lt_of_le hk2 with rfl | hlt
            · obtain ⟨hb0, hb1, hrow0, hrow1⟩ := hpk hr1 hr2
              obtain ⟨hrL, hrR⟩ := hrows i (by omega)
              refine ⟨i, ?_, ?_⟩
              · rw [hrL, mid_if L hL _ i, hb0, if_neg (by simp)]
                exact hrow0
              · rw [hrR, midR_if R hR _ i, hb1, if_neg (by simp)]
                exact hrow1
            · exact hpairs k2 (by omega) hr1 hr2
      · have hdisj : i = ((L.getLast?).getD []).length ∨
            i = ((R.head?).getD []).length ∨ nmatch ≤ k := by
          by_cases c0 : i < ((L.getLast?).getD []).length
          · by_cases c1 : i < ((R.head?).getD []).length
            · refine Or.inr (Or.inr ?_)
              by_contra hc
              exact hA ⟨c0, c1, by omega⟩
            · exact Or.inr (Or.inl (by omega))
          · exact Or.inl (by omega)
        obtain ⟨lb2, rb2, L2, R2, hrec, hlen, hmirL, hmirR, hrows⟩ :=
          abLoop_endgame s1 s2 nmatch (f + 1) i k lb rb L R hL hR hLu hRu hi0 hi1
            hdisj (by omega)
        refine ⟨lb2, rb2, L2, R2, hrec, hlen, hmirL, hmirR, hrows, ?_⟩
        intro k2 hk2 hr1 hr2
        rcases hdisj with h | h | h
        · have hs1nil : (s1.drop k).filterMap id = [] := by
            rw [← hsync0, h, List.drop_eq_nil_of_le (by omega)]
            rfl
          exact absurd (getRow_of_stream_nil s1 k k2 hk2 hs1nil) hr1
        · have hs2nil : (s2.drop k).filterMap id = [] := by
            rw [← hsync1, h, List.drop_eq_nil_of_le (by omega)]
            rfl
          exact absurd (getRow_of_stream_nil s2 k k2 hk2 hs2nil) hr2
        · refine absurd ?_ hr1
          rw [getRow, List.get?_eq_getElem?, List.getElem?_eq_none (by omega)]
          rfl

theorem filterMap_replicate_none (c : Nat) :
    (List.replicate c (none : Option α)).filterMap id = [] := by
  induction c with
  | zero => rfl
  | succ n ih => rw [List.replicate_succ, List.filterMap_cons]; exact ih

theorem pyinsertList_filterMap (l : List (Option α)) (p : Int) (c : Nat) :
    (pyinsertList l p (List.replicate c none)).filterMap id = l.filterMap id := by
  rw [pyinsertList]
  rw [List.filterMap_append, List.filterMap_append, filterMap_replicate_none,
    List.append_nil, ← List.filterMap_append, List.take_append_drop]

/-- The spacer-insertion pass over the match blocks preserves the
stream of real lines on both sides. -/
theorem insertSpacers_filterMap :
    ∀ (blocks : List (Int × Int × Int)) (s1 s2 : List (Option α)) (n1 n2 : Int),
      ((insertSpacers blocks s1 s2 n1 n2).1.filterMap id = s1.filterMap id) ∧
      ((insertSpacers blocks s1 s2 n1 n2).2.filterMap id = s2.filterMap id) := by
  intro blocks
  induction blocks with
  | nil =>
    intro s1 s2 n1 n2
    exact ⟨rfl, rfl⟩
  | cons blk rest ih =>
    obtain ⟨ba, bb, z⟩ := blk
    intro s1 s2 n1 n2
    rw [insertSpacers]
    split_ifs with h1 h2
    · obtain ⟨e1, e2⟩ := ih (pyinsertList s1 (n1 + ba)
        (List.replicate (-((n1 + ba) - (n2 + bb))).toNat none)) s2 (n1 - ((n1 + ba) - (n2 + bb))) n2
      exact ⟨by rw [e1, pyinsertList_filterMap], e2⟩
    · obtain ⟨e1, e2⟩ := ih s1 (pyinsertList s2 (n2 + bb)
        (List.replicate ((n1 + ba) - (n2 + bb)).toNat none)) n1 (n2 + ((n1 + ba) - (n2 + bb)))
      exact ⟨e1, by rw [e2, pyinsertList_filterMap]⟩
    · exact ih s1 s2 n1 n2

set_option maxHeartbeats 1000000 in
/-- C4 (confirmed): for every `alignBlocks` call on sides whose
sequences each have one common per-side length and whose partitions sum
to those lengths, the walk terminates (the fuel of the embedding simply
bounds the loop, which Python runs unboundedly) and: (1) both sides end
with sequences of one common length `n`; (2) every spacer insertion was
mirrored at one common row index into all of a side's sequences — each
final side is its original group mapped through one shared list of
insertion positions; (3) lines matched as neighbours by the sequence
matcher occupy identical row offsets: for every index `k2` of the
spacered neighbour sequences `s1`/`s2` (the middles stripped of
spacers, re-spacered by `insertSpacers` along the `patience_diff`
match blocks — the pairing the matcher chose) at which both sides hold
a real line, some row of the final middles holds exactly that pair.
This holds for any matcher output, so it is unaffected by the C1
defect. -/
theorem alignBlocks_post [DecidableEq κ] (hash : α → κ) (lb rb : List Nat)
    (L R : List (List (Option α)))
    (hL : L ≠ []) (hR : R ≠ [])
    (hLu : ∀ t ∈ L, t.length = ((L.getLast?).getD []).length)
    (hRu : ∀ t ∈ R, t.length = ((R.head?).getD []).length)
    (hlb : lb.sum = ((L.getLast?).getD []).length)
    (hrb : rb.sum = ((R.head?).getD []).length) :
    ∃ lb2 rb2 L2 R2,
      alignBlocks hash lb L rb R = some (lb2, rb2, L2, R2) ∧
      (∃ n, (∀ t ∈ L2, t.length = n) ∧ (∀ t ∈ R2, t.length = n)) ∧
      (∃ posL : List Nat,
        L2 = L.map fun t => posL.foldl (fun u p => pyinsertOpt u p) t) ∧
      (∃ posR : List Nat,
        R2 = R.map fun t => posR.foldl (fun u p => pyinsertOpt u p) t) ∧
      (∀ k2 : Nat,
        getRow (insertSpacers
          (patience_diff (((((L.getLast?).getD []).filterMap id)).map hash)
            (((((R.head?).getD []).filterMap id)).map hash))
          (((((L.getLast?).getD []).filterMap id)).map some)
          (((((R.head?).getD []).filterMap id)).map some) 0 0).1 k2 ≠ none →
        getRow (insertSpacers
          (patience_diff (((((L.getLast?).getD []).filterMap id)).map hash)
            (((((R.head?).getD []).filterMap id)).map hash))
          (((((L.getLast?).getD []).filterMap id)).map some)
          (((((R.head?).getD []).filterMap id)).map some) 0 0).2 k2 ≠ none →
        ∃ r, getRow ((L2.getLast?).getD []) r =
            getRow (insertSpacers
              (patience_diff (((((L.getLast?).getD []).filterMap id)).map hash)
                (((((R.head?).getD []).filterMap id)).map hash))
              (((((L.getLast?).getD []).filterMap id)).map some)
              (((((R.head?).getD []).filterMap id)).map some) 0 0).1 k2 ∧
          getRow ((R2.head?).getD []) r =
            getRow (insertSpacers
              (patience_diff (((((L.getLast?).getD []).filterMap id)).map hash)
                (((((R.head?).getD []).filterMap id)).map hash))
              (((((L.getLast?).getD []).filterMap id)).map some)
              (((((R.head?).getD []).filterMap id)).map some) 0 0).2 k2) := by
  obtain ⟨e1, e2⟩ := insertSpacers_filterMap
    (patience_diff (((((L.getLast?).getD []).filterMap id)).map hash)
      (((((R.head?).getD []).filterMap id)).map hash))
    (((((L.getLast?).getD []).filterMap id)).map some)
    (((((R.head?).getD []).filterMap id)).map some) 0 0
  rw [List.filterMap_map] at e1 e2
  simp at e1 e2
  obtain ⟨lb2, rb2, L2, R2, hrec, hlen, hmirL, hmirR, hrows, hpairs⟩ :=
    abLoop_sync
      (insertSpacers
        (patience_diff (((((L.getLast?).getD []).filterMap id)).map hash)
          (((((R.head?).getD []).filterMap id)).map hash))
        (((((L.getLast?).getD []).filterMap id)).map some)
        (((((R.head?).getD []).filterMap id)).map some) 0 0).1
      (insertSpacers
        (patience_diff (((((L.getLast?).getD []).filterMap id)).map hash)
          (((((R.head?).getD []).filterMap id)).map hash))
        (((((L.getLast?).getD []).filterMap id)).map some)
        (((((R.head?).getD []).filterMap id)).map some) 0 0).2
      (insertSpacers
        (patience_diff (((((L.getLast?).getD []).filterMap id)).map hash)
          (((((R.head?).getD []).filterMap id)).map hash))
        (((((L.getLast?).getD []).filterMap id)).map some)
        (((((R.head?).getD []).filterMap id)).map some) 0 0).1.length
      (le_refl _)
      (((L.getLast?).getD []).length + ((R.head?).getD []).length +
        2 * (insertSpacers
          (patience_diff (((((L.getLast?).getD []).filterMap id)).map hash)
            (((((R.head?).getD []).filterMap id)).map hash))
          (((((L.getLast?).getD []).filterMap id)).map some)
          (((((R.head?).getD []).filterMap id)).map some) 0 0).1.length + 2)
      0 0 lb rb L R hL hR hLu hRu (Nat.zero_le _) (Nat.zero_le _)
      (by rw [List.drop_zero, List.drop_zero, e1])
      (by rw [List.drop_zero, List.drop_zero, e2])
      (by omega)
  refine ⟨lb2, rb2, L2, R2, ?_, hlen, hmirL, hmirR, ?_⟩
  · rw [alignBlocks]
    exact hrec
  · intro k2 hr1 hr2
    exact hpairs k2 (Nat.zero_le _) hr1 hr2


theorem alignBlocks_post_witness :
    (([[(some 0 : Option Nat)]] : List (List (Option Nat))) ≠ [] ∧
     ([[(some 0 : Option Nat)]] : List (List (Option Nat))) ≠ [] ∧
     (∀ t ∈ ([[(some 0 : Option Nat)]] : List (List (Option Nat))),
       t.length =
         ((([[(some 0 : Option Nat)]] : List (List (Option Nat))).getLast?).getD
           []).length) ∧
     (∀ t ∈ ([[(some 0 : Option Nat)]] : List (List (Option Nat))),
       t.length =
         ((([[(some 0 : Option Nat)]] : List (List (Option Nat))).head?).getD
           []).length) ∧
     List.sum [1] =
       ((([[(some 0 : Option Nat)]] : List (List (Option Nat))).getLast?).getD
         []).length ∧
     List.sum [1] =
       ((([[(some 0 : Option Nat)]] : List (List (Option Nat))).head?).getD
         []).length) ∧
    (∃ lb2 rb2 L2 R2,
      alignBlocks (fun n : Nat => n) [1] [[some 0]] [1] [[some 0]] =
        some (lb2, rb2, L2, R2) ∧
      (∃ n, (∀ t ∈ L2, t.length = n) ∧ (∀ t ∈ R2, t.length = n)) ∧
      (∃ posL : List Nat,
        L2 = ([[(some 0 : Option Nat)]] : List (List (Option Nat))).map
          fun t => posL.foldl (fun u p => pyinsertOpt u p) t) ∧
      (∃ posR : List Nat,
        R2 = ([[(some 0 : Option Nat)]] : List (List (Option Nat))).map
          fun t => posR.foldl (fun u p => pyinsertOpt u p) t)) := by
  refine ⟨⟨by decide, by decide, by decide, by decide, by decide, by decide⟩, ?_⟩
  obtain ⟨lb2, rb2, L2, R2, h1, h2, h3, h4, -⟩ :=
    alignBlocks_post (fun n : Nat => n) [1] [1] [[some 0]] [[some 0]]
      (by decide) (by decide) (by decide) (by decide) (by decide) (by decide)
  exact ⟨lb2, rb2, L2, R2, h1, h2, h3, h4⟩

end AlignBlocksPost

end Diffuse
